import Mathlib

/-! Array property writer of the Ogawa back end (`ApwImpl.cpp`).

A shallow embedding of `Alembic::AbcCoreOgawa::ApwImpl`: the per-property sample
timeline (`setSample`, `setFromPreviousSample`, `setTimeSamplingIndex`,
`getNumSamples` and the destructor), followed by theorems about it.

Conventions.
* The header counters are `uint32_t` in the program (the destructor copies
  `nextSampleIndex` into a `uint32_t`, `getNumSamples` widens it to `size_t`);
  they are natural numbers here and every increment is taken modulo `2 ^ 32`.
* `size_t` and `index_t` values are never the result of arithmetic that can
  overflow in this file, they are `Nat` and `Int`.
* A member function that can throw returns an `Outcome`: the state at the point
  where control left the function, and the exception if one was thrown.
-/

namespace Alembic
namespace AbcCoreOgawa

/-- Modelled from the spec: the storage element type tags
(`Alembic::Util::PlainOldDataType`, declared outside this file). `setSample` names
only `kInt8POD`, the canonical tag it writes into a key. -/
inductive PlainOldDataType where
  | kBooleanPOD
  | kUint8POD
  | kInt8POD
  | kUint16POD
  | kInt16POD
  | kUint32POD
  | kInt32POD
  | kUint64POD
  | kInt64POD
  | kFloat16POD
  | kFloat32POD
  | kFloat64POD
  | kStringPOD
  | kWstringPOD
  | kUnknownPOD
  deriving DecidableEq, Repr

/-- The declared data type of a property or a sample: element tag and extent. -/
structure DataType where
  pod : PlainOldDataType
  extent : Nat
  deriving DecidableEq, Repr

/-- Modelled from the spec: the key of an array sample (`AbcA::ArraySample::Key`,
declared outside this file): the two storage element type tags `origPOD` and
`readPOD` that `setSample` overwrites, and the content fingerprint, kept as a size
and a digest. Two keys are equal when all four fields are. -/
structure Key where
  numBytes : Nat
  origPOD : PlainOldDataType
  readPOD : PlainOldDataType
  digest : Nat
  deriving DecidableEq, Repr

/-- The shape of a sample, seen through its accessors: the extents and the value
of `numPoints()`. -/
structure Dimensions where
  extents : List Nat
  numPoints : Nat
  deriving DecidableEq, Repr

/-- An array sample, seen through the accessors `ApwImpl` calls on it:
`getDataType()`, `getDimensions()` and `getKey()`. The three are independent fields
here; `ArraySample.keyTagged` states how the tags of the key follow the data type. -/
structure ArraySample where
  dataType : DataType
  dimensions : Dimensions
  key : Key
  deriving DecidableEq, Repr

/-- A time-sampling definition, seen through `getTimeSamplingType().isAcyclic()`
and `getNumStoredTimes()`. -/
structure TimeSampling where
  isAcyclic : Bool
  numStoredTimes : Nat
  deriving DecidableEq, Repr

/-- The part of `AbcA::PropertyHeader` the writer reads and writes. -/
structure PropertyHeader where
  dataType : DataType
  timeSampling : TimeSampling
  deriving DecidableEq, Repr

/-- The property header with its bookkeeping, `m_header`. -/
structure PropertyHeaderAndFriends where
  header : PropertyHeader
  isScalarLike : Bool
  isHomogenous : Bool
  nextSampleIndex : Nat
  firstChangedIndex : Nat
  lastChangedIndex : Nat
  timeSamplingIndex : Nat
  deriving DecidableEq, Repr

/-- Modelled from the spec: the Written-Sample Record (`WrittenSampleID`, declared
outside this file): the sample key, the block-store location of the payload and
the point count. -/
structure WrittenSampleID where
  key : Key
  data : Nat
  numPoints : Nat
  deriving DecidableEq, Repr

/-- Modelled from the spec: what the writer appends to its block-store group
(`Ogawa::OGroup`): a payload block written at a location, a reference to a
block already written, or a dimension record. -/
inductive Child where
  | payload (location : Nat)
  | reference (location : Nat)
  | dimensions (dims : Dimensions)
  deriving DecidableEq, Repr

/-- The children appended to the group so far, oldest first. -/
abbrev OGroup := List Child

/-- Modelled from the spec: the archive-wide Written-Sample Registry
(`WrittenSampleMap`), a mapping from key to record kept as the list of the
records stored so far. -/
abbrev WrittenSampleMap := List WrittenSampleID

/-- Modelled from the spec: the archive-scoped state the writer reaches through its
parent (`ArchiveWriter`, not in this file): the time-sampling registry (definitions
and per-index sample-count maxima), the written-sample registry and the number of
payload blocks in the block store. -/
structure Archive where
  timeSamplings : Nat → Option TimeSampling
  maxSamples : Nat → Int
  writtenSamples : WrittenSampleMap
  numBlocks : Nat

/-- The writer object: `m_header`, `m_group` and `m_previousWrittenSampleID`
(`none` is the null pointer). -/
structure ApwImpl where
  header : PropertyHeaderAndFriends
  group : OGroup
  previousWrittenSampleID : Option WrittenSampleID
  deriving DecidableEq, Repr

/-- The writer together with the archive it belongs to. -/
structure World where
  apw : ApwImpl
  archive : Archive

/-- The exceptions of the writer, one per failing check. -/
inductive Error where
  | samplingExhausted
  | typeMismatch
  | invalidState
  | notFound
  | bogusRef
  | assertion
  deriving DecidableEq, Repr

/-- The state when control leaves a member function, and the exception thrown,
if any. -/
structure Outcome where
  world : World
  thrown : Option Error

/-- Width of the header counters. -/
def counterModulus : Nat := 2 ^ 32

/-- Modelled from the spec: `WrittenSampleMap::find`, the record stored under a
key, if any. -/
def WrittenSampleMap.find (iMap : WrittenSampleMap) (iKey : Key) : Option WrittenSampleID :=
  List.find? (fun r => decide (r.key = iKey)) iMap

/-- Modelled from the spec: `WrittenSampleMap::store`, insertion of a record
under its key. -/
def WrittenSampleMap.store (iMap : WrittenSampleMap) (iId : WrittenSampleID) : WrittenSampleMap :=
  iMap ++ [iId]

/-- Modelled from the spec: `Archive::getTimeSampling`, the definition registered
under an index (`none` when there is none, the caller then throws). -/
def Archive.getTimeSampling (a : Archive) (iIndex : Nat) : Option TimeSampling :=
  a.timeSamplings iIndex

/-- Modelled from the spec: `getMaxNumSamplesForTimeSamplingIndex`, the stored
maximum for a sampling index. -/
def Archive.getMaxNumSamplesForTimeSamplingIndex (a : Archive) (iIndex : Nat) : Int :=
  a.maxSamples iIndex

/-- Modelled from the spec: `setMaxNumSamplesForTimeSamplingIndex`, which raises
the stored maximum for a sampling index and is a no-op when the new count is
not greater. -/
def Archive.setMaxNumSamplesForTimeSamplingIndex (a : Archive) (iIndex : Nat) (iMaxIndex : Int) :
    Archive :=
  if a.maxSamples iIndex < iMaxIndex then
    { a with maxSamples := fun i => if i = iIndex then iMaxIndex else a.maxSamples i }
  else a

/-- Modelled from the spec: `CopyWrittenData` (WriteUtil, not in this file)
appends a payload reference to the block-store location of a record; a null
record has no location and the call throws. -/
def CopyWrittenData (iGroup : OGroup) (iRef : Option WrittenSampleID) : Except Error OGroup :=
  match iRef with
  | none => .error .bogusRef
  | some r => .ok (iGroup ++ [Child.reference r.data])

/-- Modelled from the spec: `WriteDimensions` (WriteUtil, not in this file)
appends the dimension record of a sample. -/
def WriteDimensions (iGroup : OGroup) (iSamp : ArraySample) : OGroup :=
  iGroup ++ [Child.dimensions iSamp.dimensions]

/-- Result of `WriteData`: the registry, the block count and the group after the
call, and the record returned. -/
structure WriteDataResult where
  map : WrittenSampleMap
  numBlocks : Nat
  group : OGroup
  id : WrittenSampleID
  deriving DecidableEq, Repr

/-- Modelled from the spec: `WriteData` (WriteUtil, not in this file), the
write-or-dedup step. The key is looked up in the registry; a record found is
adopted and only a reference is appended; otherwise the payload is written, a
new record with the key, the new location and the point count of the sample is
created and stored in the registry. -/
def WriteData (iMap : WrittenSampleMap) (iBlocks : Nat) (iGroup : OGroup)
    (iSamp : ArraySample) (iKey : Key) : WriteDataResult :=
  match iMap.find iKey with
  | some r =>
    { map := iMap, numBlocks := iBlocks, group := iGroup ++ [Child.reference r.data], id := r }
  | none =>
    let r : WrittenSampleID :=
      { key := iKey, data := iBlocks, numPoints := iSamp.dimensions.numPoints }
    { map := iMap.store r, numBlocks := iBlocks + 1,
      group := iGroup ++ [Child.payload iBlocks], id := r }

/-- The key of a sample with both element type tags masked to `kInt8POD`. -/
def maskedKey (iSamp : ArraySample) : Key :=
  { iSamp.key with origPOD := PlainOldDataType.kInt8POD, readPOD := PlainOldDataType.kInt8POD }

/-- Modelled from the spec: the key `ArraySample::getKey` returns (declared outside this
file) carries the storage element type of the sample in both tags: `origPOD` and
`readPOD` are the element tag of the sample's data type. -/
def ArraySample.keyTagged (s : ArraySample) : Prop :=
  s.key.origPOD = s.dataType.pod ∧ s.key.readPOD = s.dataType.pod

instance (s : ArraySample) : Decidable s.keyTagged := by
  unfold ArraySample.keyTagged; infer_instance

/-- The test `m_previousWrittenSampleID && key == m_previousWrittenSampleID->getKey()`. -/
def sameAsPrevious (prev : Option WrittenSampleID) (key : Key) : Bool :=
  match prev with
  | none => false
  | some p => decide (key = p.key)

/-- The loop `for ( smpI = lastChangedIndex + 1; smpI < nextSampleIndex; ++smpI )`
of `setSample` with `n` iterations left: each one checks `assert( smpI > 0 )`,
copies the previous record and writes the dimensions of the incoming sample.
Returns the group when the loop is left and the exception, if any. -/
def copyLoop (iRef : Option WrittenSampleID) (iSamp : ArraySample) :
    Nat → Nat → OGroup → OGroup × Option Error
  | 0, _, g => (g, none)
  | n + 1, smpI, g =>
    if smpI = 0 then (g, some Error.assertion)
    else
      match CopyWrittenData g iRef with
      | .error e => (g, some e)
      | .ok g1 => copyLoop iRef iSamp n (smpI + 1) (WriteDimensions g1 iSamp)

namespace ApwImpl

/-- Modelled from the spec: the writer right after construction: counters 0,
both flags true, no previous record, nothing appended to the group. -/
def fresh (dataType : DataType) (ts : TimeSampling) (tsIndex : Nat) : ApwImpl :=
  { header :=
      { header := { dataType := dataType, timeSampling := ts },
        isScalarLike := true, isHomogenous := true,
        nextSampleIndex := 0, firstChangedIndex := 0, lastChangedIndex := 0,
        timeSamplingIndex := tsIndex },
    group := [],
    previousWrittenSampleID := none }

/-- The sample count the destructor reports: `nextSampleIndex`, or 1 for a
constant property. -/
def numSamples (h : PropertyHeaderAndFriends) : Nat :=
  if h.lastChangedIndex = 0 ∧ h.nextSampleIndex > 0 then 1 else h.nextSampleIndex

/-- The destructor `~ApwImpl`. -/
def destructor (w : World) : World :=
  let maxSamples := w.archive.getMaxNumSamplesForTimeSamplingIndex w.apw.header.timeSamplingIndex
  let n := numSamples w.apw.header
  if maxSamples < (n : Int) then
    { w with archive :=
        w.archive.setMaxNumSamplesForTimeSamplingIndex w.apw.header.timeSamplingIndex (n : Int) }
  else w

/-- The check shared by `setSample` and `setFromPreviousSample`: sampling is not
acyclic, or there are more stored times than samples. -/
def hasTimeFor (h : PropertyHeaderAndFriends) : Prop :=
  h.header.timeSampling.isAcyclic = false ∨
    h.header.timeSampling.numStoredTimes > h.nextSampleIndex

instance (h : PropertyHeaderAndFriends) : Decidable (hasTimeFor h) := by
  unfold hasTimeFor; infer_instance

/-- The state with `nextSampleIndex` replaced. -/
def setNext (w : World) (n : Nat) : World :=
  { w with apw := { w.apw with header := { w.apw.header with nextSampleIndex := n } } }

/-- The statement `m_header->nextSampleIndex ++` on a `uint32_t`. -/
def bump (w : World) : World :=
  setNext w ((w.apw.header.nextSampleIndex + 1) % counterModulus)

/-- The member `setFromPreviousSample`. -/
def setFromPreviousSample (w : World) : Outcome :=
  let h := w.apw.header
  if hasTimeFor h then
    if h.nextSampleIndex > 0 then { world := bump w, thrown := none }
    else { world := w, thrown := some Error.invalidState }
  else { world := w, thrown := some Error.samplingExhausted }

/-- The backfill step of `setSample`: when `firstChangedIndex != 0`, the loop from
`lastChangedIndex + 1` up to `nextSampleIndex`. Returns the group afterwards and
the exception, if any. -/
def backfill (w : World) (iSamp : ArraySample) : OGroup × Option Error :=
  let h := w.apw.header
  if h.firstChangedIndex ≠ 0 then
    copyLoop w.apw.previousWrittenSampleID iSamp
      (h.nextSampleIndex - (h.lastChangedIndex + 1) % counterModulus)
      ((h.lastChangedIndex + 1) % counterModulus) w.apw.group
  else (w.apw.group, none)

/-- The body of `if ( nextSampleIndex == 0 || ... )` in `setSample`, up to but
not including the final increment: backfill, write or dedup, dimension record,
flags and change indices. The homogeneity test reads `m_previousWrittenSampleID`
after it has been assigned the record `WriteData` returned. -/
def writeChanged (w : World) (iSamp : ArraySample) (key : Key) : Outcome :=
  let h := w.apw.header
  let filled := backfill w iSamp
  match filled.2 with
  | some e => { world := { w with apw := { w.apw with group := filled.1 } }, thrown := some e }
  | none =>
    let r := WriteData w.archive.writtenSamples w.archive.numBlocks filled.1 iSamp key
    { world :=
        { apw :=
            { header :=
                { h with
                  isScalarLike :=
                    if h.isScalarLike = true ∧ iSamp.dimensions.numPoints ≠ 1 then false
                    else h.isScalarLike,
                  isHomogenous :=
                    if h.isHomogenous = true ∧ iSamp.dimensions.numPoints ≠ r.id.numPoints
                    then false else h.isHomogenous,
                  firstChangedIndex :=
                    if h.firstChangedIndex = 0 then h.nextSampleIndex else h.firstChangedIndex,
                  lastChangedIndex := h.nextSampleIndex },
              group := WriteDimensions r.group iSamp,
              previousWrittenSampleID := some r.id },
          archive := { w.archive with writtenSamples := r.map, numBlocks := r.numBlocks } },
      thrown := none }

/-- The member `setSample`. -/
def setSample (w : World) (iSamp : ArraySample) : Outcome :=
  let h := w.apw.header
  if hasTimeFor h then
    if iSamp.dataType = h.header.dataType then
      let key := maskedKey iSamp
      if h.nextSampleIndex = 0 ∨ sameAsPrevious w.apw.previousWrittenSampleID key = false then
        let o := writeChanged w iSamp key
        match o.thrown with
        | some e => { world := o.world, thrown := some e }
        | none => { world := bump o.world, thrown := none }
      else { world := bump w, thrown := none }
    else { world := w, thrown := some Error.typeMismatch }
  else { world := w, thrown := some Error.samplingExhausted }

/-- The member `getNumSamples`. -/
def getNumSamples (w : World) : Nat :=
  w.apw.header.nextSampleIndex

/-- The member `setTimeSamplingIndex`. -/
def setTimeSamplingIndex (w : World) (iIndex : Nat) : Outcome :=
  match w.archive.getTimeSampling iIndex with
  | none => { world := w, thrown := some Error.notFound }
  | some ts =>
    if ts.isAcyclic = false ∨ ts.numStoredTimes ≥ w.apw.header.nextSampleIndex then
      { world :=
          { w with apw := { w.apw with header :=
              { w.apw.header with
                header := { w.apw.header.header with timeSampling := ts },
                timeSamplingIndex := iIndex } } },
        thrown := none }
    else { world := w, thrown := some Error.samplingExhausted }

end ApwImpl

/-- A call on the writer. -/
inductive Op where
  | setSample (iSamp : ArraySample)
  | setFromPreviousSample
  | setTimeSamplingIndex (iIndex : Nat)
  deriving DecidableEq, Repr

/-- One call. -/
def step (w : World) : Op → Outcome
  | Op.setSample iSamp => ApwImpl.setSample w iSamp
  | Op.setFromPreviousSample => ApwImpl.setFromPreviousSample w
  | Op.setTimeSamplingIndex iIndex => ApwImpl.setTimeSamplingIndex w iIndex

/-- A sequence of calls, each continuing from the state the previous one left,
whether it threw or not. -/
def run (w : World) : List Op → World
  | [] => w
  | op :: ops => run (step w op).world ops

/-- Every call of the sequence returns without throwing. -/
def allAccepted (w : World) : List Op → Prop
  | [] => True
  | op :: ops => (step w op).thrown = none ∧ allAccepted (step w op).world ops

instance allAcceptedDecidable : (w : World) → (ops : List Op) → Decidable (allAccepted w ops)
  | _, [] => isTrue trivial
  | w, op :: ops =>
    have := allAcceptedDecidable (step w op).world ops
    by unfold allAccepted; infer_instance

/-- The call is a `setSample` or a `setFromPreviousSample`. -/
def Op.isSample : Op → Bool
  | Op.setSample _ => true
  | Op.setFromPreviousSample => true
  | Op.setTimeSamplingIndex _ => false

/-- The number of dimension records in a group. -/
def dimensionRecords (g : OGroup) : Nat :=
  (g.filter (fun c => match c with | Child.dimensions _ => true | _ => false)).length

/-- The shape of the states the writer can be in: the counter fits 32 bits, and
once a sample has been requested the last change lies before the next index and
a previous record exists. -/
def WellFormed (w : World) : Prop :=
  w.apw.header.nextSampleIndex < counterModulus ∧
    (w.apw.header.nextSampleIndex = 0 ∨
      (w.apw.header.lastChangedIndex < w.apw.header.nextSampleIndex ∧
        w.apw.previousWrittenSampleID.isSome = true))

/-- The acyclic invariant: under acyclic sampling no more samples have been
requested than there are stored times. -/
def AcyclicBound (w : World) : Prop :=
  w.apw.header.header.timeSampling.isAcyclic = true →
    w.apw.header.nextSampleIndex ≤ w.apw.header.header.timeSampling.numStoredTimes

/-- The child holds payload for the location, written or referenced. -/
def Child.holds (c : Child) (location : Nat) : Prop :=
  c = Child.payload location ∨ c = Child.reference location

/-! ### Concrete inputs -/

/-- A data type: one 32-bit float per element. -/
def exDataType : DataType := { pod := PlainOldDataType.kFloat32POD, extent := 1 }

/-- A sampling definition that is not acyclic. -/
def exSampling : TimeSampling := { isAcyclic := false, numStoredTimes := 1 }

/-- An acyclic sampling definition with two stored times. -/
def exAcyclic : TimeSampling := { isAcyclic := true, numStoredTimes := 2 }

/-- An acyclic sampling definition with `2 ^ 32` stored times. -/
def exAcyclicLong : TimeSampling := { isAcyclic := true, numStoredTimes := 4294967296 }

/-- An archive with sampling definitions 0 (not acyclic) and 1 (acyclic, two
times), all maxima 0 and nothing written. -/
def exArchive : Archive :=
  { timeSamplings := fun i => if i = 0 then some exSampling else if i = 1 then some exAcyclic
      else none,
    maxSamples := fun _ => 0,
    writtenSamples := [],
    numBlocks := 0 }

/-- A fresh writer on sampling definition 0. -/
def exWorld : World := { apw := ApwImpl.fresh exDataType exSampling 0, archive := exArchive }

/-- A fresh writer on the acyclic definition with two stored times. -/
def exWorldAcyclic : World :=
  { apw := ApwImpl.fresh exDataType exAcyclic 1, archive := exArchive }

/-- A fresh writer on the acyclic definition with `2 ^ 32` stored times. -/
def exWorldLong : World :=
  { apw := ApwImpl.fresh exDataType exAcyclicLong 2, archive := exArchive }

/-- Sample A: three floats. -/
def exA : ArraySample :=
  { dataType := exDataType,
    dimensions := { extents := [3], numPoints := 3 },
    key := { numBytes := 12, origPOD := PlainOldDataType.kFloat32POD,
             readPOD := PlainOldDataType.kFloat32POD, digest := 111 } }

/-- Sample B: three other floats, same shape as A. -/
def exB : ArraySample :=
  { dataType := exDataType,
    dimensions := { extents := [3], numPoints := 3 },
    key := { numBytes := 12, origPOD := PlainOldDataType.kFloat32POD,
             readPOD := PlainOldDataType.kFloat32POD, digest := 222 } }

/-- A sample of another data type. -/
def exWrongType : ArraySample :=
  { dataType := { pod := PlainOldDataType.kInt32POD, extent := 1 },
    dimensions := { extents := [3], numPoints := 3 },
    key := { numBytes := 12, origPOD := PlainOldDataType.kInt32POD,
             readPOD := PlainOldDataType.kInt32POD, digest := 333 } }

/-- The record of sample A once written to the empty archive. -/
def exRecordA : WrittenSampleID := { key := maskedKey exA, data := 0, numPoints := 3 }

/-- One `setSample` of A followed by `2 ^ 32 - 1` calls of `setFromPreviousSample`. -/
def wrapOps : List Op :=
  Op.setSample exA :: List.replicate 4294967295 Op.setFromPreviousSample

/-- One `setSample` of A followed by `2 ^ 32 - 2` calls of `setFromPreviousSample`:
`2 ^ 32 - 1` accepted calls. -/
def almostWrapOps : List Op :=
  Op.setSample exA :: List.replicate 4294967294 Op.setFromPreviousSample

/-- The same sample A pushed `2 ^ 32` times. -/
def constOps : List Op :=
  Op.setSample exA :: List.replicate 4294967295 (Op.setSample exA)

/-- The fresh example writer with both flags already cleared. -/
def exWorldFlagsCleared : World :=
  { exWorld with apw := { exWorld.apw with header :=
      { exWorld.apw.header with isScalarLike := false, isHomogenous := false } } }

/-- Sample C: five floats, another shape and another content than A and B. -/
def exC : ArraySample :=
  { dataType := exDataType,
    dimensions := { extents := [5], numPoints := 5 },
    key := { numBytes := 20, origPOD := PlainOldDataType.kFloat32POD,
             readPOD := PlainOldDataType.kFloat32POD, digest := 555 } }

/-- The record of sample B written after A to the empty archive. -/
def exRecordB : WrittenSampleID := { key := maskedKey exB, data := 1, numPoints := 3 }

/-- The child is a payload block or a reference to one. -/
def Child.isData : Child → Bool
  | Child.payload _ => true
  | Child.reference _ => true
  | Child.dimensions _ => false

/-- The number of payload-or-reference records in a group. -/
def dataRecords (g : OGroup) : Nat :=
  (g.filter Child.isData).length

/-- The group that consists of the given pairs, each a payload-or-reference record
followed by its dimension record. -/
def pairsToGroup : List (Child × Dimensions) → OGroup
  | [] => []
  | p :: ps => p.1 :: Child.dimensions p.2 :: pairsToGroup ps

/-- The number of pairs the header accounts for: none before the first sample, one
while no change after index 0 is recorded, else sample 0 and the indices from
`firstChangedIndex` to `lastChangedIndex`. -/
def expectedPairs (h : PropertyHeaderAndFriends) : Nat :=
  if h.nextSampleIndex = 0 then 0
  else if h.firstChangedIndex = 0 then 1
  else h.lastChangedIndex - h.firstChangedIndex + 2

/-- The record invariant: the change indices are ordered, nothing is recorded as
changed before the first sample, and the group consists of as many
payload-or-reference and dimension pairs as the header accounts for. -/
def RecordInvariant (w : World) : Prop :=
  w.apw.header.firstChangedIndex ≤ w.apw.header.lastChangedIndex ∧
    (w.apw.header.nextSampleIndex = 0 → w.apw.header.firstChangedIndex = 0) ∧
    ∃ ps : List (Child × Dimensions),
      (∀ p ∈ ps, p.1.isData = true) ∧ w.apw.group = pairsToGroup ps ∧
        ps.length = expectedPairs w.apw.header

/-- The change test of `setSample`: this is the first sample, or there is no previous
record with the key. -/
def detectsChange (w : World) (iSamp : ArraySample) : Prop :=
  w.apw.header.nextSampleIndex = 0 ∨
    sameAsPrevious w.apw.previousWrittenSampleID (maskedKey iSamp) = false

instance (w : World) (iSamp : ArraySample) : Decidable (detectsChange w iSamp) := by
  unfold detectsChange; infer_instance

/-- The samples of the sequence whose `setSample` was accepted and took the write
branch, in order: the pushes detected as a change. -/
def writtenPushes (w : World) : List Op → List ArraySample
  | [] => []
  | Op.setSample s :: ops =>
    (if (step w (Op.setSample s)).thrown = none ∧ detectsChange w s then [s] else []) ++
      writtenPushes (step w (Op.setSample s)).world ops
  | op :: ops => writtenPushes (step w op).world ops

/-- An empty sample: no points. -/
def exEmpty : ArraySample :=
  { dataType := exDataType,
    dimensions := { extents := [0], numPoints := 0 },
    key := { numBytes := 0, origPOD := PlainOldDataType.kFloat32POD,
             readPOD := PlainOldDataType.kFloat32POD, digest := 0 } }

/-- A sample of one point. -/
def exOne : ArraySample :=
  { dataType := exDataType,
    dimensions := { extents := [1], numPoints := 1 },
    key := { numBytes := 4, origPOD := PlainOldDataType.kFloat32POD,
             readPOD := PlainOldDataType.kFloat32POD, digest := 777 } }

/-- The bytes of sample A declared as three 32-bit integers: another data type and
other tags than A, the same content digest and size. -/
def exAInt : ArraySample :=
  { dataType := { pod := PlainOldDataType.kInt32POD, extent := 1 },
    dimensions := { extents := [3], numPoints := 3 },
    key := { numBytes := 12, origPOD := PlainOldDataType.kInt32POD,
             readPOD := PlainOldDataType.kInt32POD, digest := 111 } }

/-- The keys of the timeline after one more call: a push adds the masked key of its
sample, a repeat adds the key of the index before (none when there is no index yet),
`setTimeSamplingIndex` adds no index. -/
def keysStep (ks : List Key) : Op → List Key
  | Op.setSample s => ks ++ [maskedKey s]
  | Op.setFromPreviousSample =>
    match ks.getLast? with
    | some k => ks ++ [k]
    | none => ks
  | Op.setTimeSamplingIndex _ => ks

/-- The key `k(i)` of every timeline index `i` of an accepted sequence of pushes and
repeats, as a list. -/
def keysOf (ops : List Op) : List Key :=
  ops.foldl keysStep []

/-- The meaning of the change indices for a timeline with keys `ks`: `first` is the
smallest and `last` the largest index `i >= 1` with `k(i) != k(i-1)`, and both are 0
when there is no such index. -/
def ChangeIndexSpec (ks : List Key) (first last : Nat) : Prop :=
  (first = 0 ∧ last = 0 ∧ ∀ i, 1 ≤ i → i < ks.length → ks[i]? = ks[i - 1]?) ∨
  (1 ≤ first ∧ first ≤ last ∧ last < ks.length ∧
    ks[first]? ≠ ks[first - 1]? ∧ (∀ i, 1 ≤ i → i < first → ks[i]? = ks[i - 1]?) ∧
    ks[last]? ≠ ks[last - 1]? ∧ (∀ i, last < i → i < ks.length → ks[i]? = ks[i - 1]?))

/-- The timeline `ks` is the one the writer state `w` stands for: one key per requested
sample, the previous record has the key of the last index, and the change indices of the
header have their meaning. -/
def Tracks (ks : List Key) (w : World) : Prop :=
  ks.length = w.apw.header.nextSampleIndex ∧
    (w.apw.header.nextSampleIndex ≠ 0 →
      ∃ p, w.apw.previousWrittenSampleID = some p ∧ ks.getLast? = some p.key) ∧
    ChangeIndexSpec ks w.apw.header.firstChangedIndex w.apw.header.lastChangedIndex

/-- The pairs `ps` are the records of the timeline `ks` in state `w`: each is a
payload-or-reference record with its dimension record, the group consists of them, there
are as many as the header accounts for, the last one holds the block of the previous
record, and the pair of every unchanged index `i` between `firstChangedIndex` and
`lastChangedIndex` (the pair at position `i - firstChangedIndex + 1`, position 0 being
sample 0) is a reference to the block that the pair of index `i - 1` holds. -/
def Materialized (ks : List Key) (w : World) (ps : List (Child × Dimensions)) : Prop :=
  (∀ p ∈ ps, p.1.isData = true) ∧ w.apw.group = pairsToGroup ps ∧
    ps.length = expectedPairs w.apw.header ∧
    (∀ p, w.apw.previousWrittenSampleID = some p → w.apw.header.nextSampleIndex ≠ 0 →
      ∃ c d, ps.getLast? = some (c, d) ∧ c.holds p.data) ∧
    (∀ i, w.apw.header.firstChangedIndex < i → i ≤ w.apw.header.lastChangedIndex →
      ks[i]? = ks[i - 1]? →
      ∃ l d c e,
        ps[i - w.apw.header.firstChangedIndex + 1]? = some (Child.reference l, d) ∧
        ps[i - w.apw.header.firstChangedIndex]? = some (c, e) ∧ c.holds l)

/-- A, B, then `2 ^ 32 - 2` repeats, then B again: `2 ^ 32 + 1` calls. -/
def changeWrapOps : List Op :=
  Op.setSample exA :: Op.setSample exB ::
    (List.replicate 4294967294 Op.setFromPreviousSample ++ [Op.setSample exB])

/-! ## Theorems -/

open ApwImpl

/-! ### Auxiliary lemmas -/

/-- The counter modulus as a numeral. -/
theorem counterModulus_eq : counterModulus = 4294967296 := by
  norm_num [counterModulus]

/-- A repeat with times left and a sample already requested only increments the counter. -/
theorem setFromPreviousSample_ok (w : World) (ht : hasTimeFor w.apw.header)
    (hn : 0 < w.apw.header.nextSampleIndex) :
    setFromPreviousSample w = { world := bump w, thrown := none } := by
  simp [setFromPreviousSample, ht, hn]

/-- A push whose masked key is the key of the previous record only increments the counter. -/
theorem setSample_unchanged (w : World) (iSamp : ArraySample) (p : WrittenSampleID)
    (ht : hasTimeFor w.apw.header) (hty : iSamp.dataType = w.apw.header.header.dataType)
    (hn : w.apw.header.nextSampleIndex ≠ 0) (hp : w.apw.previousWrittenSampleID = some p)
    (hk : maskedKey iSamp = p.key) :
    setSample w iSamp = { world := bump w, thrown := none } := by
  simp [setSample, ht, hty, hn, hp, sameAsPrevious, hk]

/-- A changed push whose write branch does not throw: the write branch, then the increment. -/
theorem setSample_changed (w : World) (iSamp : ArraySample)
    (ht : hasTimeFor w.apw.header) (hty : iSamp.dataType = w.apw.header.header.dataType)
    (hc : w.apw.header.nextSampleIndex = 0 ∨
      sameAsPrevious w.apw.previousWrittenSampleID (maskedKey iSamp) = false)
    (hok : (writeChanged w iSamp (maskedKey iSamp)).thrown = none) :
    setSample w iSamp =
      { world := bump (writeChanged w iSamp (maskedKey iSamp)).world, thrown := none } := by
  simp [setSample, ht, hty, hc, hok]

/-- The copy loop does not throw when there is a previous record and it starts above 0. -/
theorem copyLoop_some (p : WrittenSampleID) (iSamp : ArraySample) :
    ∀ (n smpI : Nat) (g : OGroup), 0 < smpI →
      (copyLoop (some p) iSamp n smpI g).2 = none := by
  intro n
  induction n with
  | zero => intro smpI g _; rfl
  | succ n ih =>
    intro smpI g h
    have h0 : smpI ≠ 0 := Nat.pos_iff_ne_zero.mp h
    simp only [copyLoop, h0, if_false, CopyWrittenData]
    exact ih (smpI + 1) _ (Nat.succ_pos _)

/-- The backfill step does not throw in a well-formed state. -/
theorem backfill_ok (w : World) (iSamp : ArraySample) (hw : WellFormed w) :
    (backfill w iSamp).2 = none := by
  obtain ⟨hlt, h⟩ := hw
  unfold backfill
  by_cases hf : w.apw.header.firstChangedIndex = 0
  · simp [hf]
  · simp only [ne_eq, hf, not_false_eq_true, if_true]
    rcases h with h | ⟨hl, hp⟩
    · simp [h, copyLoop]
    · obtain ⟨p, hp⟩ := Option.isSome_iff_exists.mp hp
      rw [hp]
      apply copyLoop_some
      rw [counterModulus_eq] at *
      omega

/-- The backfill step does nothing while `firstChangedIndex` is 0. -/
theorem backfill_first_zero (w : World) (iSamp : ArraySample)
    (hf : w.apw.header.firstChangedIndex = 0) :
    backfill w iSamp = (w.apw.group, none) := by
  simp [backfill, hf]

/-- The write branch does not throw in a well-formed state. -/
theorem writeChanged_ok (w : World) (iSamp : ArraySample) (key : Key) (hw : WellFormed w) :
    (writeChanged w iSamp key).thrown = none := by
  have h := backfill_ok w iSamp hw
  simp [writeChanged, h]

/-- What the write branch never touches. -/
theorem writeChanged_frame (w : World) (iSamp : ArraySample) (key : Key) :
    (writeChanged w iSamp key).world.apw.header.nextSampleIndex = w.apw.header.nextSampleIndex ∧
    (writeChanged w iSamp key).world.apw.header.header = w.apw.header.header ∧
    (writeChanged w iSamp key).world.apw.header.timeSamplingIndex =
      w.apw.header.timeSamplingIndex ∧
    (writeChanged w iSamp key).world.archive.maxSamples = w.archive.maxSamples ∧
    (writeChanged w iSamp key).world.archive.timeSamplings = w.archive.timeSamplings := by
  cases h : (backfill w iSamp).2 <;> simp [writeChanged, h]

/-- What the write branch assigns when the backfill step does not throw. -/
theorem writeChanged_result (w : World) (iSamp : ArraySample) (key : Key)
    (h : (backfill w iSamp).2 = none) :
    (writeChanged w iSamp key).thrown = none ∧
    (writeChanged w iSamp key).world.apw.header.lastChangedIndex =
      w.apw.header.nextSampleIndex ∧
    (writeChanged w iSamp key).world.apw.header.firstChangedIndex =
      (if w.apw.header.firstChangedIndex = 0 then w.apw.header.nextSampleIndex
       else w.apw.header.firstChangedIndex) ∧
    (writeChanged w iSamp key).world.apw.previousWrittenSampleID =
      some (WriteData w.archive.writtenSamples w.archive.numBlocks
        (backfill w iSamp).1 iSamp key).id ∧
    (writeChanged w iSamp key).world.apw.group =
      WriteDimensions (WriteData w.archive.writtenSamples w.archive.numBlocks
        (backfill w iSamp).1 iSamp key).group iSamp := by
  simp [writeChanged, h]

/-- The counter after the increment. -/
theorem bump_next (w : World) :
    (bump w).apw.header.nextSampleIndex =
      (w.apw.header.nextSampleIndex + 1) % counterModulus := rfl

/-- An accepted push increments the counter modulo `2 ^ 32`. -/
theorem setSample_next (w : World) (iSamp : ArraySample)
    (ha : (setSample w iSamp).thrown = none) :
    (setSample w iSamp).world.apw.header.nextSampleIndex =
      (w.apw.header.nextSampleIndex + 1) % counterModulus := by
  unfold setSample at *
  simp only at *
  split_ifs at * with h1 h2 h3
  · split at *
    · simp at ha
    · simp [bump, setNext, (writeChanged_frame w iSamp (maskedKey iSamp)).1]
  · simp [bump, setNext]

/-- An accepted repeat increments the counter modulo `2 ^ 32`. -/
theorem setFromPreviousSample_next (w : World)
    (ha : (setFromPreviousSample w).thrown = none) :
    (setFromPreviousSample w).world.apw.header.nextSampleIndex =
      (w.apw.header.nextSampleIndex + 1) % counterModulus := by
  unfold setFromPreviousSample at *
  simp only at *
  split_ifs at * with h1 h2
  · simp [bump, setNext]

/-- An accepted push or repeat increments the counter modulo `2 ^ 32`. -/
theorem step_next (w : World) (op : Op) (hs : op.isSample = true)
    (ha : (step w op).thrown = none) :
    (step w op).world.apw.header.nextSampleIndex =
      (w.apw.header.nextSampleIndex + 1) % counterModulus := by
  cases op with
  | setSample iSamp => exact setSample_next w iSamp ha
  | setFromPreviousSample => exact setFromPreviousSample_next w ha
  | setTimeSamplingIndex i => simp [Op.isSample] at hs

/-- Pushes and repeats, accepted or not, keep the data type, the sampling binding and
the registry of maxima and definitions. -/
theorem step_frame (w : World) (op : Op) (hs : op.isSample = true) :
    (step w op).world.apw.header.header = w.apw.header.header ∧
    (step w op).world.apw.header.timeSamplingIndex = w.apw.header.timeSamplingIndex ∧
    (step w op).world.archive.maxSamples = w.archive.maxSamples ∧
    (step w op).world.archive.timeSamplings = w.archive.timeSamplings := by
  cases op with
  | setSample iSamp =>
    have hf := writeChanged_frame w iSamp (maskedKey iSamp)
    simp only [step, setSample]
    split_ifs
    · split <;> simp [bump, setNext, hf]
    · simp [bump, setNext]
    · simp
    · simp
  | setFromPreviousSample =>
    simp only [step, setFromPreviousSample]
    split_ifs <;> simp [bump, setNext]
  | setTimeSamplingIndex i => simp [Op.isSample] at hs

/-- The three ways a push can go in a well-formed state: rejected by a check, unchanged, changed. -/
theorem setSample_cases (w : World) (iSamp : ArraySample) (hw : WellFormed w) :
    ((setSample w iSamp).world = w ∧
      ((setSample w iSamp).thrown = some Error.samplingExhausted ∨
        (setSample w iSamp).thrown = some Error.typeMismatch) ∧
      ¬ (hasTimeFor w.apw.header ∧ iSamp.dataType = w.apw.header.header.dataType)) ∨
    (setSample w iSamp = { world := bump w, thrown := none } ∧
      w.apw.header.nextSampleIndex ≠ 0 ∧
      sameAsPrevious w.apw.previousWrittenSampleID (maskedKey iSamp) = true) ∨
    (setSample w iSamp =
        { world := bump (writeChanged w iSamp (maskedKey iSamp)).world, thrown := none } ∧
      (w.apw.header.nextSampleIndex = 0 ∨
        sameAsPrevious w.apw.previousWrittenSampleID (maskedKey iSamp) = false)) := by
  by_cases ht : hasTimeFor w.apw.header
  · by_cases hty : iSamp.dataType = w.apw.header.header.dataType
    · by_cases hc : w.apw.header.nextSampleIndex = 0 ∨
          sameAsPrevious w.apw.previousWrittenSampleID (maskedKey iSamp) = false
      · right; right
        exact ⟨setSample_changed w iSamp ht hty hc (writeChanged_ok w iSamp _ hw), hc⟩
      · right; left
        have hn : w.apw.header.nextSampleIndex ≠ 0 := fun h => hc (Or.inl h)
        have hs : sameAsPrevious w.apw.previousWrittenSampleID (maskedKey iSamp) = true := by
          cases h : sameAsPrevious w.apw.previousWrittenSampleID (maskedKey iSamp)
          · exact absurd (Or.inr h) hc
          · rfl
        refine ⟨?_, hn, hs⟩
        simp [setSample, ht, hty, hn, hs]
    · left
      simp [setSample, ht, hty]
  · left
    simp [setSample, ht]

/-- A type-correct push with times left is accepted in a well-formed state. -/
theorem setSample_accepted (w : World) (iSamp : ArraySample) (hw : WellFormed w)
    (ht : hasTimeFor w.apw.header) (hty : iSamp.dataType = w.apw.header.header.dataType) :
    (setSample w iSamp).thrown = none := by
  rcases setSample_cases w iSamp hw with ⟨_, _, h⟩ | ⟨h, _⟩ | ⟨h, _⟩
  · exact absurd ⟨ht, hty⟩ h
  · rw [h]
  · rw [h]

/-- The comparison with the previous record succeeds only on a record with that key. -/
theorem sameAsPrevious_true (prev : Option WrittenSampleID) (key : Key)
    (h : sameAsPrevious prev key = true) : ∃ p, prev = some p ∧ key = p.key := by
  cases prev with
  | none => simp [sameAsPrevious] at h
  | some p => exact ⟨p, rfl, by simpa [sameAsPrevious] using h⟩

/-- The increment keeps a state with a requested sample well formed. -/
theorem wellFormed_bump (w : World) (hw : WellFormed w)
    (h : w.apw.header.nextSampleIndex ≠ 0) : WellFormed (bump w) := by
  obtain ⟨hlt, hor⟩ := hw
  rcases hor with h0 | ⟨hl, hp⟩
  · exact absurd h0 h
  · unfold WellFormed
    simp only [bump, setNext]
    rw [counterModulus_eq] at *
    refine ⟨Nat.mod_lt _ (by norm_num), ?_⟩
    by_cases h1 : (w.apw.header.nextSampleIndex + 1) % 4294967296 = 0
    · exact Or.inl h1
    · right
      refine ⟨?_, hp⟩
      omega

/-- The write branch followed by the increment yields a well-formed state. -/
theorem wellFormed_changed (w : World) (iSamp : ArraySample) (key : Key) (hw : WellFormed w) :
    WellFormed (bump (writeChanged w iSamp key).world) := by
  have hb := backfill_ok w iSamp hw
  have hr := writeChanged_result w iSamp key hb
  have hf := writeChanged_frame w iSamp key
  obtain ⟨hlt, _⟩ := hw
  unfold WellFormed
  simp only [bump, setNext, hr.2.1, hr.2.2.2.1, hf.1]
  rw [counterModulus_eq] at *
  refine ⟨Nat.mod_lt _ (by norm_num), ?_⟩
  by_cases h1 : (w.apw.header.nextSampleIndex + 1) % 4294967296 = 0
  · exact Or.inl h1
  · right
    refine ⟨?_, rfl⟩
    omega

/-- Every call keeps the state well formed. -/
theorem step_wellFormed (w : World) (op : Op) (hw : WellFormed w) :
    WellFormed (step w op).world := by
  cases op with
  | setSample iSamp =>
    rcases setSample_cases w iSamp hw with ⟨h, _⟩ | ⟨h, hn, _⟩ | ⟨h, _⟩
    · simp only [step, h]; exact hw
    · simp only [step, h]; exact wellFormed_bump w hw hn
    · simp only [step, h]; exact wellFormed_changed w iSamp _ hw
  | setFromPreviousSample =>
    simp only [step, setFromPreviousSample]
    split_ifs with h1 h2
    · exact wellFormed_bump w hw (Nat.pos_iff_ne_zero.mp h2)
    · exact hw
    · exact hw
  | setTimeSamplingIndex i =>
    simp only [step, setTimeSamplingIndex]
    split
    · exact hw
    · split_ifs
      · exact hw
      · exact hw

/-- Every sequence of calls keeps the state well formed. -/
theorem run_wellFormed (ops : List Op) : ∀ w : World, WellFormed w → WellFormed (run w ops) := by
  induction ops with
  | nil => intro w hw; exact hw
  | cons op ops ih => intro w hw; exact ih _ (step_wellFormed w op hw)

/-- A fresh writer is well formed. -/
theorem wellFormed_fresh (dataType : DataType) (ts : TimeSampling) (tsIndex : Nat)
    (a : Archive) : WellFormed { apw := fresh dataType ts tsIndex, archive := a } := by
  refine ⟨?_, Or.inl rfl⟩
  simp [fresh, counterModulus_eq]

/-- Running a concatenation. -/
theorem run_append (l1 l2 : List Op) : ∀ w : World, run w (l1 ++ l2) = run (run w l1) l2 := by
  induction l1 with
  | nil => intro w; rfl
  | cons op l1 ih => intro w; exact ih _

/-- Acceptance of a concatenation. -/
theorem allAccepted_append (l1 l2 : List Op) :
    ∀ w : World, allAccepted w (l1 ++ l2) ↔ allAccepted w l1 ∧ allAccepted (run w l1) l2 := by
  induction l1 with
  | nil => intro w; simp [allAccepted, run]
  | cons op l1 ih =>
    intro w
    show (step w op).thrown = none ∧ allAccepted (step w op).world (l1 ++ l2) ↔
      ((step w op).thrown = none ∧ allAccepted (step w op).world l1) ∧
        allAccepted (run (step w op).world l1) l2
    rw [ih, and_assoc]

/-- An initial segment of an accepted sequence is accepted. -/
theorem allAccepted_take (ops : List Op) (k : Nat) (w : World) (h : allAccepted w ops) :
    allAccepted w (ops.take k) := by
  have h2 : allAccepted w (ops.take k ++ ops.drop k) := by rw [List.take_append_drop]; exact h
  exact ((allAccepted_append _ _ w).mp h2).1

/-- The counter after an accepted sequence of pushes and repeats that does not reach `2 ^ 32`. -/
theorem run_next (ops : List Op) : ∀ w : World,
    (∀ op ∈ ops, op.isSample = true) → allAccepted w ops →
    w.apw.header.nextSampleIndex + ops.length < counterModulus →
    (run w ops).apw.header.nextSampleIndex = w.apw.header.nextSampleIndex + ops.length := by
  induction ops with
  | nil => intro w _ _ _; rfl
  | cons op ops ih =>
    intro w hops hacc hlen
    have hs := hops op (List.mem_cons_self _ _)
    have hn := step_next w op hs hacc.1
    simp only [List.length_cons] at hlen
    have hmod : (w.apw.header.nextSampleIndex + 1) % counterModulus =
        w.apw.header.nextSampleIndex + 1 := Nat.mod_eq_of_lt (by omega)
    rw [hmod] at hn
    have := ih (step w op).world (fun o ho => hops o (List.mem_cons_of_mem _ ho)) hacc.2
      (by rw [hn]; omega)
    simp only [run, List.length_cons, this, hn]
    omega

/-- Sequences of pushes and repeats keep the data type, the sampling binding and the
registry of maxima and definitions. -/
theorem run_frame (ops : List Op) : ∀ w : World,
    (∀ op ∈ ops, op.isSample = true) →
    (run w ops).apw.header.header = w.apw.header.header ∧
    (run w ops).apw.header.timeSamplingIndex = w.apw.header.timeSamplingIndex ∧
    (run w ops).archive.maxSamples = w.archive.maxSamples ∧
    (run w ops).archive.timeSamplings = w.archive.timeSamplings := by
  induction ops with
  | nil => intro w _; exact ⟨rfl, rfl, rfl, rfl⟩
  | cons op ops ih =>
    intro w hops
    have hf := step_frame w op (hops op (List.mem_cons_self _ _))
    have := ih (step w op).world (fun o ho => hops o (List.mem_cons_of_mem _ ho))
    simp only [run]
    exact ⟨this.1.trans hf.1, this.2.1.trans hf.2.1, this.2.2.1.trans hf.2.2.1,
      this.2.2.2.trans hf.2.2.2⟩

/-- Replacing the counter twice. -/
theorem setNext_setNext (w : World) (a b : Nat) : setNext (setNext w a) b = setNext w b := rfl

/-- Replacing the counter by itself. -/
theorem setNext_self (w : World) : setNext w w.apw.header.nextSampleIndex = w := rfl

/-- Room for `n > 0` more samples gives room for one. -/
theorem hasTimeFor_of_le (h : PropertyHeaderAndFriends) (n : Nat) (hn : 0 < n)
    (hts : h.header.timeSampling.isAcyclic = false ∨
      h.nextSampleIndex + n ≤ h.header.timeSampling.numStoredTimes) : hasTimeFor h := by
  rcases hts with h1 | h1
  · exact Or.inl h1
  · exact Or.inr (by omega)

/-- A run of repeats and pushes of the sample last written, up to and including the call
that wraps the counter: all are accepted and only the counter moves. -/
theorem run_constant (iSamp : ArraySample) (p : WrittenSampleID) (ops : List Op) :
    ∀ w : World,
    (∀ op ∈ ops, op = Op.setSample iSamp ∨ op = Op.setFromPreviousSample) →
    (w.apw.header.header.timeSampling.isAcyclic = false ∨
      w.apw.header.nextSampleIndex + ops.length ≤
        w.apw.header.header.timeSampling.numStoredTimes) →
    iSamp.dataType = w.apw.header.header.dataType →
    w.apw.previousWrittenSampleID = some p → maskedKey iSamp = p.key →
    0 < w.apw.header.nextSampleIndex → w.apw.header.nextSampleIndex < counterModulus →
    w.apw.header.nextSampleIndex + ops.length ≤ counterModulus →
    allAccepted w ops ∧
      run w ops = setNext w ((w.apw.header.nextSampleIndex + ops.length) % counterModulus) := by
  induction ops with
  | nil =>
    intro w _ _ _ _ _ _ hlt _
    refine ⟨trivial, ?_⟩
    simp only [run, List.length_nil, Nat.add_zero, Nat.mod_eq_of_lt hlt]
    rfl
  | cons op ops ih =>
    intro w hops hts hty hp hk hpos hlt hlen
    simp only [List.length_cons] at hlen hts
    have ht : hasTimeFor w.apw.header :=
      hasTimeFor_of_le _ (ops.length + 1) (Nat.succ_pos _) hts
    have hstep : step w op = { world := bump w, thrown := none } := by
      rcases hops op (List.mem_cons_self _ _) with h | h
      · rw [h]; exact setSample_unchanged w iSamp p ht hty (Nat.pos_iff_ne_zero.mp hpos) hp hk
      · rw [h]; exact setFromPreviousSample_ok w ht hpos
    simp only [allAccepted, run, hstep, List.length_cons, true_and]
    rcases Nat.eq_zero_or_pos ops.length with h0 | h0
    · have hnil : ops = [] := List.length_eq_zero.mp h0
      subst hnil
      exact ⟨trivial, rfl⟩
    · have hmod : (w.apw.header.nextSampleIndex + 1) % counterModulus =
          w.apw.header.nextSampleIndex + 1 := Nat.mod_eq_of_lt (by omega)
      have hb : (bump w).apw.header.nextSampleIndex = w.apw.header.nextSampleIndex + 1 := by
        rw [bump_next, hmod]
      have := ih (bump w) (fun o ho => hops o (List.mem_cons_of_mem _ ho))
        (by rw [hb]; rcases hts with h | h
            · exact Or.inl h
            · right; show _ ≤ w.apw.header.header.timeSampling.numStoredTimes; omega)
        hty hp hk (by rw [hb]; omega) (by rw [hb]; omega) (by rw [hb]; omega)
      refine ⟨this.1, ?_⟩
      rw [this.2, hb]
      simp only [bump, setNext_setNext]
      congr 2
      omega

/-- The first push of A on the example writer. -/
theorem exWorld_first :
    setSample exWorld exA =
      { world :=
          { apw :=
              { header := { exWorld.apw.header with isScalarLike := false, nextSampleIndex := 1 },
                group := [Child.payload 0, Child.dimensions exA.dimensions],
                previousWrittenSampleID := some exRecordA },
            archive := { exArchive with writtenSamples := [exRecordA], numBlocks := 1 } },
        thrown := none } := by
  rfl

/-- Running a sequence, one call at a time. -/
theorem run_cons (w : World) (op : Op) (ops : List Op) :
    run w (op :: ops) = run (step w op).world ops := rfl

/-- Acceptance of a sequence, one call at a time. -/
theorem allAccepted_cons (w : World) (op : Op) (ops : List Op) :
    allAccepted w (op :: ops) ↔ (step w op).thrown = none ∧ allAccepted (step w op).world ops :=
  Iff.rfl

/-- The example writer after `2 ^ 32` accepted calls. -/
theorem run_wrapOps : allAccepted exWorld wrapOps ∧
    run exWorld wrapOps = setNext (setSample exWorld exA).world 0 := by
  have h := run_constant exA exRecordA (List.replicate 4294967295 Op.setFromPreviousSample)
    (setSample exWorld exA).world
    (fun op hop => Or.inr (List.eq_of_mem_replicate hop))
    (Or.inl rfl) rfl rfl rfl (by decide) (by decide)
    (by rw [List.length_replicate]; decide)
  rw [List.length_replicate] at h
  have e : ((setSample exWorld exA).world.apw.header.nextSampleIndex + 4294967295)
      % counterModulus = 0 := by decide
  rw [e] at h
  unfold wrapOps
  rw [run_cons, allAccepted_cons]
  exact ⟨⟨rfl, h.1⟩, h.2⟩

/-- The record returned by the write-or-dedup step has the key it was asked for. -/
theorem WriteData_id_key (iMap : WrittenSampleMap) (iBlocks : Nat) (iGroup : OGroup)
    (iSamp : ArraySample) (iKey : Key) :
    (WriteData iMap iBlocks iGroup iSamp iKey).id.key = iKey := by
  unfold WriteData
  cases h : iMap.find iKey with
  | none => rfl
  | some r =>
    have := List.find?_some h
    simpa using this

/-- The write-or-dedup step appends one child holding the payload of the record it returns. -/
theorem WriteData_group (iMap : WrittenSampleMap) (iBlocks : Nat) (iGroup : OGroup)
    (iSamp : ArraySample) (iKey : Key) :
    ∃ c : Child, (WriteData iMap iBlocks iGroup iSamp iKey).group = iGroup ++ [c] ∧
      c.holds (WriteData iMap iBlocks iGroup iSamp iKey).id.data := by
  unfold WriteData
  cases h : iMap.find iKey with
  | none => exact ⟨Child.payload iBlocks, rfl, Or.inl rfl⟩
  | some r => exact ⟨Child.reference r.data, rfl, Or.inr rfl⟩

/-- A changed `setSample` while `firstChangedIndex` is 0: no backfill. -/
theorem setSample_no_backfill (w : World) (iSamp : ArraySample)
    (ht : hasTimeFor w.apw.header) (hty : iSamp.dataType = w.apw.header.header.dataType)
    (hc : w.apw.header.nextSampleIndex = 0 ∨
      sameAsPrevious w.apw.previousWrittenSampleID (maskedKey iSamp) = false)
    (hf : w.apw.header.firstChangedIndex = 0) :
    setSample w iSamp =
      { world :=
          { apw :=
              { header :=
                  { w.apw.header with
                    isScalarLike :=
                      if w.apw.header.isScalarLike = true ∧ iSamp.dimensions.numPoints ≠ 1
                      then false else w.apw.header.isScalarLike,
                    isHomogenous :=
                      if w.apw.header.isHomogenous = true ∧ iSamp.dimensions.numPoints ≠
                        (WriteData w.archive.writtenSamples w.archive.numBlocks w.apw.group
                          iSamp (maskedKey iSamp)).id.numPoints
                      then false else w.apw.header.isHomogenous,
                    nextSampleIndex := (w.apw.header.nextSampleIndex + 1) % counterModulus,
                    firstChangedIndex := w.apw.header.nextSampleIndex,
                    lastChangedIndex := w.apw.header.nextSampleIndex },
                group :=
                  WriteDimensions
                    (WriteData w.archive.writtenSamples w.archive.numBlocks w.apw.group
                      iSamp (maskedKey iSamp)).group iSamp,
                previousWrittenSampleID :=
                  some (WriteData w.archive.writtenSamples w.archive.numBlocks w.apw.group
                    iSamp (maskedKey iSamp)).id },
            archive :=
              { w.archive with
                writtenSamples :=
                  (WriteData w.archive.writtenSamples w.archive.numBlocks w.apw.group
                    iSamp (maskedKey iSamp)).map,
                numBlocks :=
                  (WriteData w.archive.writtenSamples w.archive.numBlocks w.apw.group
                    iSamp (maskedKey iSamp)).numBlocks } },
        thrown := none } := by
  have hb := backfill_first_zero w iSamp hf
  have hok : (writeChanged w iSamp (maskedKey iSamp)).thrown = none := by
    simp [writeChanged, hb]
  rw [setSample_changed w iSamp ht hty hc hok]
  simp [writeChanged, hb, hf, bump, setNext]

/-- What a changed `setSample` without backfill leaves behind, field by field. -/
theorem setSample_no_backfill_fields (w : World) (iSamp : ArraySample)
    (ht : hasTimeFor w.apw.header) (hty : iSamp.dataType = w.apw.header.header.dataType)
    (hc : w.apw.header.nextSampleIndex = 0 ∨
      sameAsPrevious w.apw.previousWrittenSampleID (maskedKey iSamp) = false)
    (hf : w.apw.header.firstChangedIndex = 0) :
    (setSample w iSamp).thrown = none ∧
    (setSample w iSamp).world.apw.header.header = w.apw.header.header ∧
    (setSample w iSamp).world.apw.header.nextSampleIndex =
      (w.apw.header.nextSampleIndex + 1) % counterModulus ∧
    (setSample w iSamp).world.apw.header.firstChangedIndex = w.apw.header.nextSampleIndex ∧
    (setSample w iSamp).world.apw.header.lastChangedIndex = w.apw.header.nextSampleIndex ∧
    (∃ c id, (setSample w iSamp).world.apw.group =
        w.apw.group ++ [c, Child.dimensions iSamp.dimensions] ∧ c.holds id.data ∧
      id.key = maskedKey iSamp ∧
      (setSample w iSamp).world.apw.previousWrittenSampleID = some id) := by
  rw [setSample_no_backfill w iSamp ht hty hc hf]
  refine ⟨rfl, rfl, rfl, rfl, rfl, ?_⟩
  obtain ⟨c, hg, hc⟩ := WriteData_group w.archive.writtenSamples w.archive.numBlocks w.apw.group
    iSamp (maskedKey iSamp)
  refine ⟨c, _, ?_, hc, WriteData_id_key _ _ _ _ _, rfl⟩
  simp [hg, WriteDimensions]

/-- Two payload and dimension pairs hold two dimension records. -/
theorem dimensionRecords_pairs (cA cB : Child) (dA dB : Dimensions) (la lb : Nat)
    (hA : cA.holds la) (hB : cB.holds lb) :
    dimensionRecords [cA, Child.dimensions dA, cB, Child.dimensions dB] = 2 := by
  rcases hA with h | h <;> rcases hB with h' | h' <;> subst h <;> subst h' <;> rfl

/-- The example writer after `2 ^ 32 - 1` accepted calls. -/
theorem run_almostWrapOps : allAccepted exWorld almostWrapOps ∧
    run exWorld almostWrapOps = setNext (setSample exWorld exA).world 4294967295 := by
  have h := run_constant exA exRecordA (List.replicate 4294967294 Op.setFromPreviousSample)
    (setSample exWorld exA).world
    (fun op hop => Or.inr (List.eq_of_mem_replicate hop))
    (Or.inl rfl) rfl rfl rfl (by decide) (by decide)
    (by rw [List.length_replicate]; decide)
  rw [List.length_replicate] at h
  have e : ((setSample exWorld exA).world.apw.header.nextSampleIndex + 4294967294)
      % counterModulus = 4294967295 := by decide
  rw [e] at h
  unfold almostWrapOps
  rw [run_cons, allAccepted_cons]
  exact ⟨⟨rfl, h.1⟩, h.2⟩

/-- A push leaves the counter alone or, having passed the acyclic check, increments it. -/
theorem setSample_counter (w : World) (iSamp : ArraySample) :
    (setSample w iSamp).world.apw.header.nextSampleIndex = w.apw.header.nextSampleIndex ∨
      (hasTimeFor w.apw.header ∧
        (setSample w iSamp).world.apw.header.nextSampleIndex =
          (w.apw.header.nextSampleIndex + 1) % counterModulus) := by
  have hf := writeChanged_frame w iSamp (maskedKey iSamp)
  unfold setSample
  by_cases ht : hasTimeFor w.apw.header
  · by_cases hty : iSamp.dataType = w.apw.header.header.dataType
    · by_cases hc : w.apw.header.nextSampleIndex = 0 ∨
          sameAsPrevious w.apw.previousWrittenSampleID (maskedKey iSamp) = false
      · cases hth : (writeChanged w iSamp (maskedKey iSamp)).thrown with
        | none =>
          right
          simp only [ht, hty, hc, hth, if_true]
          exact ⟨trivial, by simp [bump, setNext, hf.1]⟩
        | some e =>
          left
          simp only [ht, hty, hc, hth, if_true]
          exact hf.1
      · right
        simp only [ht, hty, hc, if_true, if_false]
        exact ⟨trivial, rfl⟩
    · left; simp [ht, hty]
  · left; simp [ht]

/-- A repeat leaves the counter alone or, having passed the acyclic check, increments it. -/
theorem setFromPreviousSample_counter (w : World) :
    (setFromPreviousSample w).world.apw.header.nextSampleIndex =
        w.apw.header.nextSampleIndex ∨
      (hasTimeFor w.apw.header ∧
        (setFromPreviousSample w).world.apw.header.nextSampleIndex =
          (w.apw.header.nextSampleIndex + 1) % counterModulus) := by
  unfold setFromPreviousSample
  by_cases ht : hasTimeFor w.apw.header
  · by_cases hn : w.apw.header.nextSampleIndex > 0
    · right; simp only [ht, hn, if_true]; exact ⟨trivial, rfl⟩
    · left; simp [ht, hn]
  · left; simp [ht]

/-- Every call preserves the acyclic bound. -/
theorem step_acyclicBound (w : World) (op : Op) (hw : AcyclicBound w) :
    AcyclicBound (step w op).world := by
  have key : ∀ w' : World, w'.apw.header.header = w.apw.header.header →
      (w'.apw.header.nextSampleIndex = w.apw.header.nextSampleIndex ∨
        (hasTimeFor w.apw.header ∧ w'.apw.header.nextSampleIndex =
          (w.apw.header.nextSampleIndex + 1) % counterModulus)) → AcyclicBound w' := by
    intro w' hh hn hac
    rw [hh] at hac ⊢
    rcases hn with hn | ⟨ht, hn⟩
    · rw [hn]; exact hw hac
    · rw [hn]
      rcases ht with ht | ht
      · rw [hac] at ht; cases ht
      · exact le_trans (Nat.mod_le _ _) ht
  cases op with
  | setSample iSamp =>
    exact key _ (step_frame w (Op.setSample iSamp) rfl).1 (setSample_counter w iSamp)
  | setFromPreviousSample =>
    exact key _ (step_frame w Op.setFromPreviousSample rfl).1 (setFromPreviousSample_counter w)
  | setTimeSamplingIndex i =>
    show AcyclicBound (setTimeSamplingIndex w i).world
    unfold setTimeSamplingIndex
    cases hts : w.archive.getTimeSampling i with
    | none => exact hw
    | some ts =>
      simp only
      split_ifs with h
      · intro hac
        rcases h with h | h
        · simp only at hac; rw [h] at hac; cases hac
        · exact h
      · exact hw

/-- While only one sample A is pushed or repeated, the change indices stay 0 and the
previous record, once there is one, has the key of A. -/
theorem step_constant (A : ArraySample) (w : World) (op : Op)
    (hop : op = Op.setSample A ∨ op = Op.setFromPreviousSample)
    (hf : w.apw.header.firstChangedIndex = 0) (hl : w.apw.header.lastChangedIndex = 0)
    (hp : w.apw.header.nextSampleIndex ≠ 0 →
      ∃ p, w.apw.previousWrittenSampleID = some p ∧ maskedKey A = p.key) :
    (step w op).world.apw.header.firstChangedIndex = 0 ∧
      (step w op).world.apw.header.lastChangedIndex = 0 ∧
      ((step w op).world.apw.header.nextSampleIndex ≠ 0 →
        ∃ p, (step w op).world.apw.previousWrittenSampleID = some p ∧ maskedKey A = p.key) := by
  rcases hop with h | h
  · subst h
    show (setSample w A).world.apw.header.firstChangedIndex = 0 ∧
      (setSample w A).world.apw.header.lastChangedIndex = 0 ∧
      ((setSample w A).world.apw.header.nextSampleIndex ≠ 0 →
        ∃ p, (setSample w A).world.apw.previousWrittenSampleID = some p ∧ maskedKey A = p.key)
    by_cases ht : hasTimeFor w.apw.header
    · by_cases hty : A.dataType = w.apw.header.header.dataType
      · by_cases hn : w.apw.header.nextSampleIndex = 0
        · obtain ⟨_, _, _, hf', hl', _, id, _, _, hk, hp'⟩ :=
            setSample_no_backfill_fields w A ht hty (Or.inl hn) hf
          exact ⟨by rw [hf', hn], by rw [hl', hn], fun _ => ⟨id, hp', hk.symm⟩⟩
        · obtain ⟨p, hp1, hk⟩ := hp hn
          rw [setSample_unchanged w A p ht hty hn hp1 hk]
          exact ⟨hf, hl, fun _ => ⟨p, hp1, hk⟩⟩
      · have : setSample w A = { world := w, thrown := some Error.typeMismatch } := by
          simp [setSample, ht, hty]
        rw [this]; exact ⟨hf, hl, hp⟩
    · have : setSample w A = { world := w, thrown := some Error.samplingExhausted } := by
        simp [setSample, ht]
      rw [this]; exact ⟨hf, hl, hp⟩
  · subst h
    show (setFromPreviousSample w).world.apw.header.firstChangedIndex = 0 ∧
      (setFromPreviousSample w).world.apw.header.lastChangedIndex = 0 ∧
      ((setFromPreviousSample w).world.apw.header.nextSampleIndex ≠ 0 →
        ∃ p, (setFromPreviousSample w).world.apw.previousWrittenSampleID = some p ∧
          maskedKey A = p.key)
    unfold setFromPreviousSample
    simp only
    split_ifs with h1 h2
    · exact ⟨hf, hl, fun _ => hp (Nat.pos_iff_ne_zero.mp h2)⟩
    · exact ⟨hf, hl, hp⟩
    · exact ⟨hf, hl, hp⟩

/-- Sequences of pushes of one sample and repeats leave both change indices at 0. -/
theorem run_constant_indices (A : ArraySample) (ops : List Op) : ∀ w : World,
    (∀ op ∈ ops, op = Op.setSample A ∨ op = Op.setFromPreviousSample) →
    w.apw.header.firstChangedIndex = 0 → w.apw.header.lastChangedIndex = 0 →
    (w.apw.header.nextSampleIndex ≠ 0 →
      ∃ p, w.apw.previousWrittenSampleID = some p ∧ maskedKey A = p.key) →
    (run w ops).apw.header.firstChangedIndex = 0 ∧
      (run w ops).apw.header.lastChangedIndex = 0 := by
  induction ops with
  | nil => intro w _ hf hl _; exact ⟨hf, hl⟩
  | cons op ops ih =>
    intro w hops hf hl hp
    obtain ⟨hf', hl', hp'⟩ := step_constant A w op (hops op (List.mem_cons_self _ _)) hf hl hp
    exact ih _ (fun o ho => hops o (List.mem_cons_of_mem _ ho)) hf' hl' hp'

/-- The maximum the destructor leaves for the header's sampling index. -/
theorem destructor_max (w : World) :
    (destructor w).archive.maxSamples w.apw.header.timeSamplingIndex =
      max (w.archive.maxSamples w.apw.header.timeSamplingIndex)
        ((numSamples w.apw.header : Nat) : Int) := by
  unfold destructor Archive.setMaxNumSamplesForTimeSamplingIndex
    Archive.getMaxNumSamplesForTimeSamplingIndex
  by_cases h : w.archive.maxSamples w.apw.header.timeSamplingIndex <
      ((numSamples w.apw.header : Nat) : Int)
  · simp only [h, if_true]
    exact (max_eq_right (le_of_lt h)).symm
  · simp only [h, if_false]
    exact (max_eq_left (not_lt.mp h)).symm

/-- A fresh writer after `2 ^ 32` pushes of A, under a sampling that admits them. -/
theorem run_constOps (ts : TimeSampling) (tsIndex : Nat)
    (hts : ts.isAcyclic = false ∨ 4294967296 ≤ ts.numStoredTimes) :
    allAccepted { apw := fresh exDataType ts tsIndex, archive := exArchive } constOps ∧
      run { apw := fresh exDataType ts tsIndex, archive := exArchive } constOps =
        setNext (setSample { apw := fresh exDataType ts tsIndex, archive := exArchive }
          exA).world 0 := by
  have hM : counterModulus = 4294967296 := counterModulus_eq
  obtain ⟨ht1, hh1, hn1, _, _, _, id, _, _, hk, hp1⟩ :=
    setSample_no_backfill_fields { apw := fresh exDataType ts tsIndex, archive := exArchive }
      exA (hasTimeFor_of_le _ 4294967296 (by omega) (by simpa [fresh] using hts))
      rfl (Or.inl rfl) rfl
  generalize hw1 : (setSample { apw := fresh exDataType ts tsIndex, archive := exArchive }
    exA).world = w1 at hh1 hn1 hp1
  have hn1' : w1.apw.header.nextSampleIndex = 1 := by rw [hn1, hM]; rfl
  have hts1 : w1.apw.header.header.timeSampling = ts := by rw [hh1]; rfl
  have hdt1 : w1.apw.header.header.dataType = exDataType := by rw [hh1]; rfl
  have h := run_constant exA id (List.replicate 4294967295 (Op.setSample exA)) w1
    (fun op hop => Or.inl (List.eq_of_mem_replicate hop))
    (by rw [hts1, hn1', List.length_replicate]
        rcases hts with h | h
        · exact Or.inl h
        · exact Or.inr (by omega))
    (by rw [hdt1]; rfl) hp1 hk.symm (by omega) (by omega)
    (by rw [List.length_replicate, hn1', hM])
  rw [List.length_replicate, hn1', hM] at h
  have e : (1 + 4294967295) % 4294967296 = 0 := by norm_num
  rw [e] at h
  unfold constOps
  rw [run_cons, allAccepted_cons]
  show ((setSample _ exA).thrown = none ∧ allAccepted (setSample _ exA).world _) ∧
    run (setSample _ exA).world _ = _
  rw [hw1]
  exact ⟨⟨ht1, h.1⟩, h.2⟩

/-- Type-correct pushes and repeats are accepted as long as the sampling has times left
and the counter does not wrap, provided the first call on an empty timeline is a push. -/
theorem allAccepted_within_times (ops : List Op) : ∀ w : World, WellFormed w →
    (∀ op ∈ ops, op.isSample = true) →
    (∀ s, Op.setSample s ∈ ops → s.dataType = w.apw.header.header.dataType) →
    (0 < w.apw.header.nextSampleIndex ∨ ∀ op, ops.head? = some op → ∃ s, op = Op.setSample s) →
    (w.apw.header.header.timeSampling.isAcyclic = false ∨
      w.apw.header.nextSampleIndex + ops.length ≤
        w.apw.header.header.timeSampling.numStoredTimes) →
    w.apw.header.nextSampleIndex + ops.length ≤ counterModulus →
    allAccepted w ops := by
  induction ops with
  | nil => intro w _ _ _ _ _ _; trivial
  | cons op ops ih =>
    intro w hw hops hty hstart hts hlen
    simp only [List.length_cons] at hts hlen
    have ht : hasTimeFor w.apw.header :=
      hasTimeFor_of_le _ (ops.length + 1) (Nat.succ_pos _) hts
    have hs := hops op (List.mem_cons_self _ _)
    have hacc : (step w op).thrown = none := by
      cases op with
      | setSample s =>
        exact setSample_accepted w s hw ht (hty s (List.mem_cons_self _ _))
      | setFromPreviousSample =>
        have hpos : 0 < w.apw.header.nextSampleIndex := by
          rcases hstart with h | h
          · exact h
          · obtain ⟨s, hs'⟩ := h _ rfl
            cases hs'
        show (setFromPreviousSample w).thrown = none
        rw [setFromPreviousSample_ok w ht hpos]
      | setTimeSamplingIndex i => simp [Op.isSample] at hs
    refine ⟨hacc, ?_⟩
    rcases Nat.eq_zero_or_pos ops.length with h0 | h0
    · rw [List.length_eq_zero.mp h0]; trivial
    · have hn := step_next w op hs hacc
      rw [Nat.mod_eq_of_lt (by omega)] at hn
      have hf := step_frame w op hs
      apply ih _ (step_wellFormed w op hw) (fun o ho => hops o (List.mem_cons_of_mem _ ho))
      · intro s hs'
        rw [hf.1]
        exact hty s (List.mem_cons_of_mem _ hs')
      · left; rw [hn]; exact Nat.succ_pos _
      · rw [hf.1, hn]
        rcases hts with h | h
        · exact Or.inl h
        · exact Or.inr (by omega)
      · rw [hn]; omega

/-- The flags after the write branch: each is cleared or kept, never set. -/
theorem writeChanged_flags (w : World) (iSamp : ArraySample) (key : Key) :
    (w.apw.header.isScalarLike = false →
      (writeChanged w iSamp key).world.apw.header.isScalarLike = false) ∧
    (w.apw.header.isHomogenous = false →
      (writeChanged w iSamp key).world.apw.header.isHomogenous = false) := by
  cases h : (backfill w iSamp).2 with
  | some e => simp [writeChanged, h]
  | none =>
    constructor
    · intro hf; simp [writeChanged, h, hf]
    · intro hf; simp [writeChanged, h, hf]

/-- Every call keeps a cleared flag cleared. -/
theorem step_flags (w : World) (op : Op) :
    (w.apw.header.isScalarLike = false → (step w op).world.apw.header.isScalarLike = false) ∧
    (w.apw.header.isHomogenous = false →
      (step w op).world.apw.header.isHomogenous = false) := by
  cases op with
  | setSample iSamp =>
    have hf := writeChanged_flags w iSamp (maskedKey iSamp)
    show (w.apw.header.isScalarLike = false →
        (setSample w iSamp).world.apw.header.isScalarLike = false) ∧
      (w.apw.header.isHomogenous = false →
        (setSample w iSamp).world.apw.header.isHomogenous = false)
    unfold setSample
    simp only
    split_ifs
    · split
      · exact hf
      · exact hf
    · exact ⟨id, id⟩
    · exact ⟨id, id⟩
    · exact ⟨id, id⟩
  | setFromPreviousSample =>
    show (w.apw.header.isScalarLike = false →
        (setFromPreviousSample w).world.apw.header.isScalarLike = false) ∧
      (w.apw.header.isHomogenous = false →
        (setFromPreviousSample w).world.apw.header.isHomogenous = false)
    unfold setFromPreviousSample
    simp only
    split_ifs <;> exact ⟨id, id⟩
  | setTimeSamplingIndex i =>
    show (w.apw.header.isScalarLike = false →
        (setTimeSamplingIndex w i).world.apw.header.isScalarLike = false) ∧
      (w.apw.header.isHomogenous = false →
        (setTimeSamplingIndex w i).world.apw.header.isHomogenous = false)
    unfold setTimeSamplingIndex
    split
    · exact ⟨id, id⟩
    · split_ifs <;> exact ⟨id, id⟩

/-- The destructor does not touch the writer. -/
theorem destructor_apw (w : World) : (destructor w).apw = w.apw := by
  unfold destructor
  simp only
  split_ifs <;> rfl

/-- Every sequence of calls keeps a cleared flag cleared. -/
theorem run_flags (ops : List Op) : ∀ w : World,
    (w.apw.header.isScalarLike = false → (run w ops).apw.header.isScalarLike = false) ∧
    (w.apw.header.isHomogenous = false → (run w ops).apw.header.isHomogenous = false) := by
  induction ops with
  | nil => intro w; exact ⟨id, id⟩
  | cons op ops ih =>
    intro w
    have h1 := step_flags w op
    have h2 := ih (step w op).world
    exact ⟨fun h => h2.1 (h1.1 h), fun h => h2.2 (h1.2 h)⟩

/-- The comparison with the previous record fails exactly when there is no record or its
key is another one. -/
theorem sameAsPrevious_false (prev : Option WrittenSampleID) (key : Key) :
    sameAsPrevious prev key = false ↔ ∀ p, prev = some p → key ≠ p.key := by
  cases prev with
  | none => simp [sameAsPrevious]
  | some q => simp [sameAsPrevious]

/-- The homogeneity flag after an accepted changed push: it is compared with the record
the write-or-dedup step of this very push returned, not with the record that was current
before the push. -/
theorem setSample_isHomogenous (w : World) (iSamp : ArraySample) (hw : WellFormed w)
    (ht : hasTimeFor w.apw.header) (hty : iSamp.dataType = w.apw.header.header.dataType)
    (hc : w.apw.header.nextSampleIndex = 0 ∨
      sameAsPrevious w.apw.previousWrittenSampleID (maskedKey iSamp) = false) :
    (setSample w iSamp).world.apw.header.isHomogenous =
      if w.apw.header.isHomogenous = true ∧
          iSamp.dimensions.numPoints ≠
            (WriteData w.archive.writtenSamples w.archive.numBlocks (backfill w iSamp).1 iSamp
              (maskedKey iSamp)).id.numPoints
      then false else w.apw.header.isHomogenous := by
  have hb := backfill_ok w iSamp hw
  rw [setSample_changed w iSamp ht hty hc (writeChanged_ok w iSamp _ hw)]
  simp [writeChanged, hb, bump, setNext]

/-- A sample whose key is not in the registry yet gets a record with its own point
count, so its push leaves the homogeneity flag as it was. -/
theorem setSample_isHomogenous_new (w : World) (iSamp : ArraySample) (hw : WellFormed w)
    (ht : hasTimeFor w.apw.header) (hty : iSamp.dataType = w.apw.header.header.dataType)
    (hc : w.apw.header.nextSampleIndex = 0 ∨
      sameAsPrevious w.apw.previousWrittenSampleID (maskedKey iSamp) = false)
    (hnew : w.archive.writtenSamples.find (maskedKey iSamp) = none) :
    (setSample w iSamp).world.apw.header.isHomogenous = w.apw.header.isHomogenous := by
  rw [setSample_isHomogenous w iSamp hw ht hty hc]
  simp [WriteData, hnew]

/-- Pairs after pairs. -/
theorem pairsToGroup_append (ps qs : List (Child × Dimensions)) :
    pairsToGroup (ps ++ qs) = pairsToGroup ps ++ pairsToGroup qs := by
  induction ps with
  | nil => rfl
  | cons p ps ih => simp [pairsToGroup, ih]

/-- A group of pairs holds one dimension record per pair. -/
theorem dimensionRecords_pairsToGroup (ps : List (Child × Dimensions))
    (h : ∀ p ∈ ps, p.1.isData = true) : dimensionRecords (pairsToGroup ps) = ps.length := by
  induction ps with
  | nil => rfl
  | cons p ps ih =>
    have hp := h p (List.mem_cons_self _ _)
    have := ih (fun q hq => h q (List.mem_cons_of_mem _ hq))
    unfold dimensionRecords at this ⊢
    obtain ⟨c, d⟩ := p
    cases c <;> simp_all [pairsToGroup, Child.isData, List.filter]

/-- A group of pairs holds one payload-or-reference record per pair. -/
theorem dataRecords_pairsToGroup (ps : List (Child × Dimensions))
    (h : ∀ p ∈ ps, p.1.isData = true) : dataRecords (pairsToGroup ps) = ps.length := by
  induction ps with
  | nil => rfl
  | cons p ps ih =>
    have hp := h p (List.mem_cons_self _ _)
    have := ih (fun q hq => h q (List.mem_cons_of_mem _ hq))
    unfold dataRecords at this ⊢
    obtain ⟨c, d⟩ := p
    cases c <;> simp_all [pairsToGroup, Child.isData, List.filter]

/-- What the copy loop appends when there is a previous record and it starts above 0:
one pair per iteration, a reference to the block of that record and the dimensions of
the incoming sample. -/
theorem copyLoop_pairs (p : WrittenSampleID) (iSamp : ArraySample) :
    ∀ (n smpI : Nat) (g : OGroup), 0 < smpI →
      copyLoop (some p) iSamp n smpI g =
        (g ++ pairsToGroup (List.replicate n (Child.reference p.data, iSamp.dimensions)),
          none) := by
  intro n
  induction n with
  | zero => intro smpI g _; simp [copyLoop, pairsToGroup]
  | succ n ih =>
    intro smpI g h
    have h0 : smpI ≠ 0 := Nat.pos_iff_ne_zero.mp h
    simp only [copyLoop, h0, if_false, CopyWrittenData]
    rw [ih (smpI + 1) _ (Nat.succ_pos _)]
    simp [List.replicate_succ, pairsToGroup, WriteDimensions]

/-- A child that holds a payload is a payload block or a reference. -/
theorem isData_of_holds (c : Child) (l : Nat) (h : c.holds l) : c.isData = true := by
  rcases h with h | h <;> rw [h] <;> rfl

/-- The group after an accepted changed push in a well-formed state: the pairs of the
backfilled indices, then the pair of the sample. -/
theorem setSample_changed_group (w : World) (iSamp : ArraySample) (hw : WellFormed w)
    (ht : hasTimeFor w.apw.header) (hty : iSamp.dataType = w.apw.header.header.dataType)
    (hc : w.apw.header.nextSampleIndex = 0 ∨
      sameAsPrevious w.apw.previousWrittenSampleID (maskedKey iSamp) = false) :
    ∃ (c : Child) (qs : List (Child × Dimensions)),
      c.isData = true ∧ (∀ q ∈ qs, q.1.isData = true) ∧
      qs.length =
        (if w.apw.header.firstChangedIndex = 0 then 0
         else w.apw.header.nextSampleIndex - (w.apw.header.lastChangedIndex + 1)) ∧
      (∀ q ∈ qs, ∃ p, w.apw.previousWrittenSampleID = some p ∧
        q = (Child.reference p.data, iSamp.dimensions)) ∧
      (setSample w iSamp).world.apw.group =
        w.apw.group ++ pairsToGroup (qs ++ [(c, iSamp.dimensions)]) := by
  have hok := writeChanged_ok w iSamp (maskedKey iSamp) hw
  rw [setSample_changed w iSamp ht hty hc hok]
  have hbok := backfill_ok w iSamp hw
  have hr := (writeChanged_result w iSamp (maskedKey iSamp) hbok).2.2.2.2
  show ∃ c qs, _ ∧ _ ∧ _ ∧ _ ∧ (writeChanged w iSamp (maskedKey iSamp)).world.apw.group = _
  rw [hr]
  obtain ⟨c, hg, hcd⟩ := WriteData_group w.archive.writtenSamples w.archive.numBlocks
    (backfill w iSamp).1 iSamp (maskedKey iSamp)
  rw [hg]
  have hcd' := isData_of_holds _ _ hcd
  by_cases hf : w.apw.header.firstChangedIndex = 0
  · refine ⟨c, [], hcd', by simp, by simp [hf], by simp, ?_⟩
    rw [backfill_first_zero w iSamp hf]
    simp [pairsToGroup, WriteDimensions]
  · obtain ⟨hlt, hor⟩ := hw
    rcases hor with h0 | ⟨hl, hp⟩
    · refine ⟨c, [], hcd', by simp, by simp [hf, h0], by simp, ?_⟩
      have : backfill w iSamp = (w.apw.group, none) := by
        simp [backfill, hf, h0, copyLoop]
      rw [this]
      simp [pairsToGroup, WriteDimensions]
    · obtain ⟨p, hp⟩ := Option.isSome_iff_exists.mp hp
      have hmod : (w.apw.header.lastChangedIndex + 1) % counterModulus =
          w.apw.header.lastChangedIndex + 1 := Nat.mod_eq_of_lt (by omega)
      have hb : backfill w iSamp =
          (w.apw.group ++ pairsToGroup (List.replicate
            (w.apw.header.nextSampleIndex - (w.apw.header.lastChangedIndex + 1))
            (Child.reference p.data, iSamp.dimensions)), none) := by
        unfold backfill
        simp only [ne_eq, hf, not_false_eq_true, if_true, hmod, hp]
        exact copyLoop_pairs p iSamp _ _ _ (Nat.succ_pos _)
      refine ⟨c, List.replicate
        (w.apw.header.nextSampleIndex - (w.apw.header.lastChangedIndex + 1))
        (Child.reference p.data, iSamp.dimensions), hcd', ?_, ?_, ?_, ?_⟩
      · intro q hq; rw [List.eq_of_mem_replicate hq]; rfl
      · rw [List.length_replicate, if_neg hf]
      · intro q hq; exact ⟨p, hp, List.eq_of_mem_replicate hq⟩
      · rw [hb]
        simp [pairsToGroup_append, pairsToGroup, WriteDimensions]

/-- The indices and the counter after an accepted changed push in a well-formed state. -/
theorem setSample_changed_fields (w : World) (iSamp : ArraySample) (hw : WellFormed w)
    (ht : hasTimeFor w.apw.header) (hty : iSamp.dataType = w.apw.header.header.dataType)
    (hc : w.apw.header.nextSampleIndex = 0 ∨
      sameAsPrevious w.apw.previousWrittenSampleID (maskedKey iSamp) = false) :
    (setSample w iSamp).thrown = none ∧
    (setSample w iSamp).world.apw.header.nextSampleIndex =
      (w.apw.header.nextSampleIndex + 1) % counterModulus ∧
    (setSample w iSamp).world.apw.header.firstChangedIndex =
      (if w.apw.header.firstChangedIndex = 0 then w.apw.header.nextSampleIndex
       else w.apw.header.firstChangedIndex) ∧
    (setSample w iSamp).world.apw.header.lastChangedIndex = w.apw.header.nextSampleIndex ∧
    (∃ p, (setSample w iSamp).world.apw.previousWrittenSampleID = some p ∧
      p.key = maskedKey iSamp) := by
  have hok := writeChanged_ok w iSamp (maskedKey iSamp) hw
  have hbok := backfill_ok w iSamp hw
  have hr := writeChanged_result w iSamp (maskedKey iSamp) hbok
  have hf := writeChanged_frame w iSamp (maskedKey iSamp)
  rw [setSample_changed w iSamp ht hty hc hok]
  refine ⟨rfl, ?_, hr.2.2.1, hr.2.1, ⟨_, hr.2.2.2.1, WriteData_id_key _ _ _ _ _⟩⟩
  show ((writeChanged w iSamp (maskedKey iSamp)).world.apw.header.nextSampleIndex + 1) %
    counterModulus = _
  rw [hf.1]

/-- The increment keeps the record invariant once a sample has been requested, below
the overflow of the counter. -/
theorem recordInvariant_bump (w : World) (hr : RecordInvariant w)
    (hn : w.apw.header.nextSampleIndex ≠ 0)
    (hlt : w.apw.header.nextSampleIndex + 1 < counterModulus) :
    RecordInvariant (bump w) := by
  obtain ⟨h1, h2, ps, hps, hg, hlen⟩ := hr
  have hb : (bump w).apw.header.nextSampleIndex = w.apw.header.nextSampleIndex + 1 := by
    rw [bump_next, Nat.mod_eq_of_lt hlt]
  refine ⟨h1, ?_, ps, hps, hg, ?_⟩
  · intro h; rw [hb] at h; omega
  · rw [hlen]
    unfold expectedPairs
    rw [hb, if_neg hn, if_neg (Nat.succ_ne_zero _)]
    rfl

/-- An accepted push or repeat keeps the record invariant, below the overflow of the
counter. -/
theorem step_recordInvariant (w : World) (op : Op) (hw : WellFormed w)
    (hr : RecordInvariant w) (hs : op.isSample = true) (hacc : (step w op).thrown = none)
    (hlt : w.apw.header.nextSampleIndex + 1 < counterModulus) :
    RecordInvariant (step w op).world := by
  cases op with
  | setSample iSamp =>
    change (setSample w iSamp).thrown = none at hacc
    show RecordInvariant (setSample w iSamp).world
    by_cases ht : hasTimeFor w.apw.header
    · by_cases hty : iSamp.dataType = w.apw.header.header.dataType
      · by_cases hc : w.apw.header.nextSampleIndex = 0 ∨
            sameAsPrevious w.apw.previousWrittenSampleID (maskedKey iSamp) = false
        · obtain ⟨_, hn', hf', hl', _⟩ := setSample_changed_fields w iSamp hw ht hty hc
          obtain ⟨c, qs, hcd, hqs, hqlen, _, hg'⟩ :=
            setSample_changed_group w iSamp hw ht hty hc
          obtain ⟨h1, h2, ps, hps, hg, hlen⟩ := hr
          rw [Nat.mod_eq_of_lt hlt] at hn'
          refine ⟨?_, ?_, ps ++ (qs ++ [(c, iSamp.dimensions)]), ?_, ?_, ?_⟩
          · rw [hf', hl']
            split_ifs with h0
            · exact le_refl _
            · rcases hw.2 with hz | ⟨hl, _⟩
              · exact absurd (h2 hz) h0
              · omega
          · intro h; rw [hn'] at h; omega
          · intro p hp
            rcases List.mem_append.mp hp with hp | hp
            · exact hps p hp
            · rcases List.mem_append.mp hp with hp | hp
              · exact hqs p hp
              · rw [List.mem_singleton.mp hp]; exact hcd
          · rw [hg', hg]; simp only [pairsToGroup_append]
          · simp only [List.length_append, List.length_singleton, hlen, hqlen]
            unfold expectedPairs
            rw [hn', hf', hl', if_neg (Nat.succ_ne_zero _)]
            by_cases hz : w.apw.header.nextSampleIndex = 0
            · have hf0 := h2 hz
              rw [if_pos hz, if_pos hf0, if_pos hf0, if_pos hz]
            · rcases hw.2 with hz' | ⟨hl, _⟩
              · exact absurd hz' hz
              · rw [if_neg hz]
                by_cases hf0 : w.apw.header.firstChangedIndex = 0
                · rw [if_pos hf0, if_pos hf0, if_pos hf0, if_neg hz]
                  omega
                · rw [if_neg hf0, if_neg hf0, if_neg hf0, if_neg hf0]
                  omega
        · have hn : w.apw.header.nextSampleIndex ≠ 0 := fun h => hc (Or.inl h)
          have hsm : sameAsPrevious w.apw.previousWrittenSampleID (maskedKey iSamp) = true := by
            cases h : sameAsPrevious w.apw.previousWrittenSampleID (maskedKey iSamp)
            · exact absurd (Or.inr h) hc
            · rfl
          obtain ⟨p, hp, hk⟩ := sameAsPrevious_true _ _ hsm
          rw [setSample_unchanged w iSamp p ht hty hn hp hk]
          exact recordInvariant_bump w hr hn hlt
      · simp [setSample, ht, hty] at hacc
    · simp [setSample, ht] at hacc
  | setFromPreviousSample =>
    change (setFromPreviousSample w).thrown = none at hacc
    show RecordInvariant (setFromPreviousSample w).world
    by_cases ht : hasTimeFor w.apw.header
    · by_cases hn : 0 < w.apw.header.nextSampleIndex
      · rw [setFromPreviousSample_ok w ht hn]
        exact recordInvariant_bump w hr (Nat.pos_iff_ne_zero.mp hn) hlt
      · simp [setFromPreviousSample, ht, hn] at hacc
    · simp [setFromPreviousSample, ht] at hacc
  | setTimeSamplingIndex i => simp [Op.isSample] at hs

/-- Accepted pushes and repeats keep the record invariant, below the overflow of the
counter. -/
theorem run_recordInvariant (ops : List Op) : ∀ w : World, WellFormed w → RecordInvariant w →
    (∀ op ∈ ops, op.isSample = true) → allAccepted w ops →
    w.apw.header.nextSampleIndex + ops.length < counterModulus →
    RecordInvariant (run w ops) := by
  induction ops with
  | nil => intro w _ hr _ _ _; exact hr
  | cons op ops ih =>
    intro w hw hr hops hacc hlen
    simp only [List.length_cons] at hlen
    have hs := hops op (List.mem_cons_self _ _)
    have hn := step_next w op hs hacc.1
    rw [Nat.mod_eq_of_lt (by omega)] at hn
    exact ih _ (step_wellFormed w op hw)
      (step_recordInvariant w op hw hr hs hacc.1 (by omega))
      (fun o ho => hops o (List.mem_cons_of_mem _ ho)) hacc.2 (by rw [hn]; omega)

/-- A fresh writer satisfies the record invariant. -/
theorem recordInvariant_fresh (dataType : DataType) (ts : TimeSampling) (tsIndex : Nat)
    (a : Archive) : RecordInvariant { apw := fresh dataType ts tsIndex, archive := a } :=
  ⟨le_refl _, fun _ => rfl, [], fun _ h => absurd h (List.not_mem_nil _), rfl, rfl⟩

/-- The scalar flag after a push: cleared exactly when it was clear already or the push
was accepted, detected as a change and has a point count other than 1. -/
theorem setSample_isScalarLike (w : World) (iSamp : ArraySample) :
    (setSample w iSamp).world.apw.header.isScalarLike = false ↔
      w.apw.header.isScalarLike = false ∨
        (((setSample w iSamp).thrown = none ∧ detectsChange w iSamp) ∧
          iSamp.dimensions.numPoints ≠ 1) := by
  unfold detectsChange
  unfold setSample
  by_cases ht : hasTimeFor w.apw.header
  · by_cases hty : iSamp.dataType = w.apw.header.header.dataType
    · by_cases hc : w.apw.header.nextSampleIndex = 0 ∨
          sameAsPrevious w.apw.previousWrittenSampleID (maskedKey iSamp) = false
      · cases hb : (backfill w iSamp).2 with
        | none =>
          simp only [ht, hty, hc, if_true, writeChanged, hb, bump, setNext]
          by_cases h1 : w.apw.header.isScalarLike = true
          · by_cases h2 : iSamp.dimensions.numPoints = 1
            · simp [h1, h2]
            · simp [h1, h2]
          · simp [h1]
        | some e => simp [ht, hty, hc, writeChanged, hb]
      · simp [ht, hty, hc, bump, setNext]
    · simp [ht, hty]
  · simp [ht]

/-- A call other than a push leaves the scalar flag as it was. -/
theorem step_not_push_isScalarLike (w : World) (op : Op) (h : ∀ s, op ≠ Op.setSample s) :
    (step w op).world.apw.header.isScalarLike = w.apw.header.isScalarLike := by
  cases op with
  | setSample s => exact absurd rfl (h s)
  | setFromPreviousSample =>
    show (setFromPreviousSample w).world.apw.header.isScalarLike = _
    unfold setFromPreviousSample
    simp only
    split_ifs <;> rfl
  | setTimeSamplingIndex i =>
    show (setTimeSamplingIndex w i).world.apw.header.isScalarLike = _
    unfold setTimeSamplingIndex
    split
    · rfl
    · split_ifs <;> rfl

/-- The written pushes of a sequence that starts with a push. -/
theorem writtenPushes_setSample (w : World) (s : ArraySample) (ops : List Op) :
    writtenPushes w (Op.setSample s :: ops) =
      (if (setSample w s).thrown = none ∧ detectsChange w s then [s] else []) ++
        writtenPushes (setSample w s).world ops := rfl

/-- The scalar flag after a sequence of calls: cleared exactly when it was clear already
or one of the written pushes has a point count other than 1. -/
theorem run_isScalarLike (ops : List Op) : ∀ w : World,
    (run w ops).apw.header.isScalarLike = false ↔
      w.apw.header.isScalarLike = false ∨
        ∃ s ∈ writtenPushes w ops, s.dimensions.numPoints ≠ 1 := by
  induction ops with
  | nil => intro w; simp [run, writtenPushes]
  | cons op ops ih =>
    intro w
    rw [run_cons, ih]
    cases op with
    | setSample s =>
      have hs := setSample_isScalarLike w s
      show (setSample w s).world.apw.header.isScalarLike = false ∨ _ ↔ _
      rw [hs, writtenPushes_setSample]
      show _ ↔ _ ∨ ∃ x ∈ _ ++ writtenPushes (step w (Op.setSample s)).world ops, _
      by_cases hw : (setSample w s).thrown = none ∧ detectsChange w s
      · simp only [hw, if_true, true_and, List.mem_append, List.mem_singleton]
        constructor
        · rintro ((h | h) | ⟨x, hx, hnp⟩)
          · exact Or.inl h
          · exact Or.inr ⟨s, Or.inl rfl, h⟩
          · exact Or.inr ⟨x, Or.inr hx, hnp⟩
        · rintro (h | ⟨x, hx | hx, hnp⟩)
          · exact Or.inl (Or.inl h)
          · subst hx; exact Or.inl (Or.inr hnp)
          · exact Or.inr ⟨x, hx, hnp⟩
      · simp only [hw, if_false, false_and, or_false, List.nil_append]
    | setFromPreviousSample =>
      rw [step_not_push_isScalarLike w _ (fun s h => by cases h)]
      rfl
    | setTimeSamplingIndex i =>
      rw [step_not_push_isScalarLike w _ (fun s h => by cases h)]
      rfl

/-- The written pushes are among the pushes. -/
theorem writtenPushes_mem (ops : List Op) : ∀ (w : World) (s : ArraySample),
    s ∈ writtenPushes w ops → Op.setSample s ∈ ops := by
  induction ops with
  | nil => intro w s h; simp [writtenPushes] at h
  | cons op ops ih =>
    intro w s h
    cases op with
    | setSample t =>
      rw [writtenPushes_setSample] at h
      rcases List.mem_append.mp h with h | h
      · split_ifs at h
        · rw [List.mem_singleton.mp h]; exact List.mem_cons_self _ _
        · simp at h
      · exact List.mem_cons_of_mem _ (ih _ s h)
    | setFromPreviousSample => exact List.mem_cons_of_mem _ (ih _ s h)
    | setTimeSamplingIndex i => exact List.mem_cons_of_mem _ (ih _ s h)

/-- After an accepted push in a well-formed state the previous record has the masked
key of the sample pushed. -/
theorem setSample_prev_key (w : World) (iSamp : ArraySample) (hw : WellFormed w)
    (hacc : (setSample w iSamp).thrown = none) :
    ∃ p, (setSample w iSamp).world.apw.previousWrittenSampleID = some p ∧
      p.key = maskedKey iSamp := by
  by_cases ht : hasTimeFor w.apw.header
  · by_cases hty : iSamp.dataType = w.apw.header.header.dataType
    · by_cases hc : w.apw.header.nextSampleIndex = 0 ∨
          sameAsPrevious w.apw.previousWrittenSampleID (maskedKey iSamp) = false
      · exact (setSample_changed_fields w iSamp hw ht hty hc).2.2.2.2
      · have hn : w.apw.header.nextSampleIndex ≠ 0 := fun h => hc (Or.inl h)
        have hsm : sameAsPrevious w.apw.previousWrittenSampleID (maskedKey iSamp) = true := by
          cases h : sameAsPrevious w.apw.previousWrittenSampleID (maskedKey iSamp)
          · exact absurd (Or.inr h) hc
          · rfl
        obtain ⟨p, hp, hk⟩ := sameAsPrevious_true _ _ hsm
        rw [setSample_unchanged w iSamp p ht hty hn hp hk]
        exact ⟨p, hp, hk.symm⟩
    · simp [setSample, ht, hty] at hacc
  · simp [setSample, ht] at hacc

/-- An accepted push passed both checks. -/
theorem setSample_accepted_checks (w : World) (iSamp : ArraySample)
    (hacc : (setSample w iSamp).thrown = none) :
    hasTimeFor w.apw.header ∧ iSamp.dataType = w.apw.header.header.dataType := by
  by_cases ht : hasTimeFor w.apw.header
  · by_cases hty : iSamp.dataType = w.apw.header.header.dataType
    · exact ⟨ht, hty⟩
    · simp [setSample, ht, hty] at hacc
  · simp [setSample, ht] at hacc

/-- The keys below the new index are those of the timeline before. -/
theorem getElem?_snoc_lt (ks : List Key) (k : Key) (i : Nat) (h : i < ks.length) :
    (ks ++ [k])[i]? = ks[i]? :=
  List.getElem?_append_left h

/-- The key of the new index. -/
theorem getElem?_snoc_length (ks : List Key) (k : Key) :
    (ks ++ [k])[ks.length]? = some k := by
  simp

/-- The key of the last index. -/
theorem getElem?_pred_length (ks : List Key) (k : Key) (h : ks.getLast? = some k) :
    ks[ks.length - 1]? = some k := by
  rw [← h, List.getLast?_eq_getElem?]

/-- A timeline with a last key is not empty. -/
theorem length_pos_of_getLast? (ks : List Key) (k : Key) (h : ks.getLast? = some k) :
    0 < ks.length := by
  cases ks with
  | nil => simp at h
  | cons a l => simp

/-- One more index with the key of the index before: the change indices keep their
meaning. -/
theorem changeIndexSpec_same (ks : List Key) (k : Key) (first last : Nat)
    (h : ChangeIndexSpec ks first last) (hk : ks.getLast? = some k) :
    ChangeIndexSpec (ks ++ [k]) first last := by
  have hpos := length_pos_of_getLast? ks k hk
  have hnew : (ks ++ [k])[ks.length]? = (ks ++ [k])[ks.length - 1]? := by
    rw [getElem?_snoc_length, getElem?_snoc_lt ks k _ (by omega),
      getElem?_pred_length ks k hk]
  have hold : ∀ i, 1 ≤ i → i < ks.length →
      ((ks ++ [k])[i]? = (ks ++ [k])[i - 1]? ↔ ks[i]? = ks[i - 1]?) := by
    intro i _ hi
    rw [getElem?_snoc_lt ks k i hi, getElem?_snoc_lt ks k (i - 1) (by omega)]
  have hlen : (ks ++ [k]).length = ks.length + 1 := by simp
  rcases h with ⟨hf, hl, hall⟩ | ⟨h1, h2, h3, h4, h5, h6, h7⟩
  · left
    refine ⟨hf, hl, ?_⟩
    intro i hi1 hi2
    rw [hlen] at hi2
    by_cases hi : i < ks.length
    · exact (hold i hi1 hi).mpr (hall i hi1 hi)
    · have : i = ks.length := by omega
      rw [this]; exact hnew
  · right
    refine ⟨h1, h2, by rw [hlen]; omega, ?_, ?_, ?_, ?_⟩
    · intro h; exact h4 ((hold first h1 (by omega)).mp h)
    · intro i hi1 hi2; exact (hold i hi1 (by omega)).mpr (h5 i hi1 hi2)
    · intro h; exact h6 ((hold last (by omega) h3).mp h)
    · intro i hi1 hi2
      rw [hlen] at hi2
      by_cases hi : i < ks.length
      · exact (hold i (by omega) hi).mpr (h7 i hi1 hi)
      · have : i = ks.length := by omega
        rw [this]; exact hnew

/-- One more index with another key than the index before: the new index is the last
change, and the first one when there was none. -/
theorem changeIndexSpec_diff (ks : List Key) (k k0 : Key) (first last : Nat)
    (h : ChangeIndexSpec ks first last) (hk : ks.getLast? = some k0) (hne : k ≠ k0) :
    ChangeIndexSpec (ks ++ [k]) (if first = 0 then ks.length else first) ks.length := by
  have hpos := length_pos_of_getLast? ks k0 hk
  have hnew : (ks ++ [k])[ks.length]? ≠ (ks ++ [k])[ks.length - 1]? := by
    rw [getElem?_snoc_length, getElem?_snoc_lt ks k _ (by omega),
      getElem?_pred_length ks k0 hk]
    intro h; exact hne (Option.some.inj h)
  have hold : ∀ i, 1 ≤ i → i < ks.length →
      ((ks ++ [k])[i]? = (ks ++ [k])[i - 1]? ↔ ks[i]? = ks[i - 1]?) := by
    intro i _ hi
    rw [getElem?_snoc_lt ks k i hi, getElem?_snoc_lt ks k (i - 1) (by omega)]
  have hlen : (ks ++ [k]).length = ks.length + 1 := by simp
  right
  rcases h with ⟨hf, hl, hall⟩ | ⟨h1, h2, h3, h4, h5, h6, h7⟩
  · rw [if_pos hf]
    refine ⟨hpos, le_refl _, by rw [hlen]; omega, hnew, ?_, hnew, ?_⟩
    · intro i hi1 hi2; exact (hold i hi1 hi2).mpr (hall i hi1 hi2)
    · intro i hi1 hi2; rw [hlen] at hi2; omega
  · rw [if_neg (by omega)]
    refine ⟨h1, by omega, by rw [hlen]; omega, ?_, ?_, hnew, ?_⟩
    · intro h; exact h4 ((hold first h1 (by omega)).mp h)
    · intro i hi1 hi2; exact (hold i hi1 (by omega)).mpr (h5 i hi1 hi2)
    · intro i hi1 hi2; rw [hlen] at hi2; omega

/-- A timeline of one index has no change. -/
theorem changeIndexSpec_single (k : Key) : ChangeIndexSpec [k] 0 0 := by
  left
  refine ⟨rfl, rfl, ?_⟩
  intro i h1 h2
  simp at h2
  omega

/-- Equal neighbours above `lo` make every key from `lo` on equal to the key at `lo`. -/
theorem keys_constant_from (ks : List Key) (lo hi : Nat)
    (h : ∀ i, lo < i → i < hi → ks[i]? = ks[i - 1]?) :
    ∀ i, lo ≤ i → i < hi → ks[i]? = ks[lo]? := by
  intro i
  induction i with
  | zero => intro h1 _; have : lo = 0 := by omega
            rw [this]
  | succ j ih =>
    intro h1 h2
    by_cases hj : lo = j + 1
    · rw [hj]
    · have := h (j + 1) (by omega) h2
      rw [this]
      exact ih (by omega) (by omega)

/-- An accepted repeat passed the acyclic check and found a sample. -/
theorem setFromPreviousSample_accepted_checks (w : World)
    (hacc : (setFromPreviousSample w).thrown = none) :
    hasTimeFor w.apw.header ∧ 0 < w.apw.header.nextSampleIndex := by
  by_cases ht : hasTimeFor w.apw.header
  · by_cases hn : 0 < w.apw.header.nextSampleIndex
    · exact ⟨ht, hn⟩
    · simp [setFromPreviousSample, ht, hn] at hacc
  · simp [setFromPreviousSample, ht] at hacc

/-- The increment with one more index of the same key keeps the timeline in step. -/
theorem tracks_bump (ks : List Key) (w : World) (p : WrittenSampleID) (h : Tracks ks w)
    (hn : w.apw.header.nextSampleIndex ≠ 0) (hp : w.apw.previousWrittenSampleID = some p)
    (hlt : w.apw.header.nextSampleIndex + 1 < counterModulus) :
    Tracks (ks ++ [p.key]) (bump w) := by
  obtain ⟨hlen, hprev, hspec⟩ := h
  obtain ⟨q, hq, hgl⟩ := hprev hn
  have hqp : q = p := by rw [hp] at hq; exact (Option.some.inj hq).symm
  subst hqp
  have hb : (bump w).apw.header.nextSampleIndex = w.apw.header.nextSampleIndex + 1 := by
    rw [bump_next, Nat.mod_eq_of_lt hlt]
  refine ⟨?_, ?_, ?_⟩
  · rw [hb, List.length_append, hlen]; rfl
  · intro _
    exact ⟨q, hp, by simp⟩
  · exact changeIndexSpec_same ks q.key _ _ hspec hgl

/-- An accepted push or repeat keeps the timeline in step, below the overflow of the
counter. -/
theorem step_tracks (ks : List Key) (w : World) (op : Op) (hw : WellFormed w)
    (h : Tracks ks w) (hs : op.isSample = true) (hacc : (step w op).thrown = none)
    (hlt : w.apw.header.nextSampleIndex + 1 < counterModulus) :
    Tracks (keysStep ks op) (step w op).world := by
  cases op with
  | setSample iSamp =>
    change (setSample w iSamp).thrown = none at hacc
    show Tracks (ks ++ [maskedKey iSamp]) (setSample w iSamp).world
    obtain ⟨ht, hty⟩ := setSample_accepted_checks w iSamp hacc
    by_cases hc : w.apw.header.nextSampleIndex = 0 ∨
        sameAsPrevious w.apw.previousWrittenSampleID (maskedKey iSamp) = false
    · obtain ⟨_, hn', hf', hl', p', hp', hk'⟩ := setSample_changed_fields w iSamp hw ht hty hc
      rw [Nat.mod_eq_of_lt hlt] at hn'
      obtain ⟨hlen, hprev, hspec⟩ := h
      refine ⟨?_, ?_, ?_⟩
      · rw [hn', List.length_append, hlen]; rfl
      · intro _
        exact ⟨p', hp', by simp [hk']⟩
      · rw [hf', hl']
        by_cases hz : w.apw.header.nextSampleIndex = 0
        · have hnil : ks = [] := List.length_eq_zero.mp (hlen.trans hz)
          subst hnil
          have hf0 : w.apw.header.firstChangedIndex = 0 := by
            rcases hspec with ⟨hf, _, _⟩ | ⟨_, _, h3, _⟩
            · exact hf
            · simp at h3
          rw [if_pos hf0, hz]
          exact changeIndexSpec_single _
        · obtain ⟨p, hp, hgl⟩ := hprev hz
          have hne : maskedKey iSamp ≠ p.key := by
            rcases hc with hc | hc
            · exact absurd hc hz
            · exact (sameAsPrevious_false _ _).mp hc p hp
          have := changeIndexSpec_diff ks (maskedKey iSamp) p.key _ _ hspec hgl hne
          rw [hlen] at this
          exact this
    · have hn : w.apw.header.nextSampleIndex ≠ 0 := fun h => hc (Or.inl h)
      have hsm : sameAsPrevious w.apw.previousWrittenSampleID (maskedKey iSamp) = true := by
        cases h : sameAsPrevious w.apw.previousWrittenSampleID (maskedKey iSamp)
        · exact absurd (Or.inr h) hc
        · rfl
      obtain ⟨p, hp, hk⟩ := sameAsPrevious_true _ _ hsm
      rw [setSample_unchanged w iSamp p ht hty hn hp hk, hk]
      exact tracks_bump ks w p h hn hp hlt
  | setFromPreviousSample =>
    change (setFromPreviousSample w).thrown = none at hacc
    obtain ⟨ht, hpos⟩ := setFromPreviousSample_accepted_checks w hacc
    have hn : w.apw.header.nextSampleIndex ≠ 0 := Nat.pos_iff_ne_zero.mp hpos
    obtain ⟨p, hp, hgl⟩ := h.2.1 hn
    show Tracks (keysStep ks Op.setFromPreviousSample) (setFromPreviousSample w).world
    rw [setFromPreviousSample_ok w ht hpos]
    have : keysStep ks Op.setFromPreviousSample = ks ++ [p.key] := by
      simp [keysStep, hgl]
    rw [this]
    exact tracks_bump ks w p h hn hp hlt
  | setTimeSamplingIndex i => simp [Op.isSample] at hs

/-- Accepted pushes and repeats keep the timeline in step, below the overflow of the
counter. -/
theorem run_tracks (ops : List Op) : ∀ (ks : List Key) (w : World), WellFormed w →
    Tracks ks w → (∀ op ∈ ops, op.isSample = true) → allAccepted w ops →
    w.apw.header.nextSampleIndex + ops.length < counterModulus →
    Tracks (ops.foldl keysStep ks) (run w ops) := by
  induction ops with
  | nil => intro ks w _ h _ _ _; exact h
  | cons op ops ih =>
    intro ks w hw h hops hacc hlen
    simp only [List.length_cons] at hlen
    have hs := hops op (List.mem_cons_self _ _)
    have hn := step_next w op hs hacc.1
    rw [Nat.mod_eq_of_lt (by omega)] at hn
    exact ih _ _ (step_wellFormed w op hw)
      (step_tracks ks w op hw h hs hacc.1 (by omega))
      (fun o ho => hops o (List.mem_cons_of_mem _ ho)) hacc.2 (by rw [hn]; omega)

/-- The example writer after A, B and `2 ^ 32 - 2` accepted repeats: the counter is 0. -/
theorem run_changeWrap_repeats :
    allAccepted (run exWorld [Op.setSample exA, Op.setSample exB])
        (List.replicate 4294967294 Op.setFromPreviousSample) ∧
      run (run exWorld [Op.setSample exA, Op.setSample exB])
          (List.replicate 4294967294 Op.setFromPreviousSample) =
        setNext (run exWorld [Op.setSample exA, Op.setSample exB]) 0 := by
  have h := run_constant exB exRecordB (List.replicate 4294967294 Op.setFromPreviousSample)
    (run exWorld [Op.setSample exA, Op.setSample exB])
    (fun op hop => Or.inr (List.eq_of_mem_replicate hop))
    (Or.inl rfl) rfl rfl rfl (by decide) (by decide)
    (by rw [List.length_replicate]; decide)
  rw [List.length_replicate] at h
  have e : ((run exWorld [Op.setSample exA, Op.setSample exB]).apw.header.nextSampleIndex +
      4294967294) % counterModulus = 0 := by decide
  rw [e] at h
  exact h

/-- The group and the previous record after an accepted changed push in a well-formed
state: the pairs of the backfilled indices, each a reference to the block of the record
that was the previous one, then the pair of the sample, which holds the block of the
record that is the previous one now. -/
theorem setSample_changed_record (w : World) (iSamp : ArraySample) (hw : WellFormed w)
    (ht : hasTimeFor w.apw.header) (hty : iSamp.dataType = w.apw.header.header.dataType)
    (hc : w.apw.header.nextSampleIndex = 0 ∨
      sameAsPrevious w.apw.previousWrittenSampleID (maskedKey iSamp) = false) :
    ∃ (c : Child) (r : WrittenSampleID) (qs : List (Child × Dimensions)),
      c.holds r.data ∧ (setSample w iSamp).world.apw.previousWrittenSampleID = some r ∧
      qs.length =
        (if w.apw.header.firstChangedIndex = 0 then 0
         else w.apw.header.nextSampleIndex - (w.apw.header.lastChangedIndex + 1)) ∧
      (∀ q ∈ qs, ∃ p, w.apw.previousWrittenSampleID = some p ∧
        q = (Child.reference p.data, iSamp.dimensions)) ∧
      (setSample w iSamp).world.apw.group =
        w.apw.group ++ pairsToGroup (qs ++ [(c, iSamp.dimensions)]) := by
  have hok := writeChanged_ok w iSamp (maskedKey iSamp) hw
  have hbok := backfill_ok w iSamp hw
  have hr := writeChanged_result w iSamp (maskedKey iSamp) hbok
  have hprev : (setSample w iSamp).world.apw.previousWrittenSampleID =
      some (WriteData w.archive.writtenSamples w.archive.numBlocks
        (backfill w iSamp).1 iSamp (maskedKey iSamp)).id := by
    rw [setSample_changed w iSamp ht hty hc hok]
    exact hr.2.2.2.1
  have hgrp : (setSample w iSamp).world.apw.group =
      WriteDimensions (WriteData w.archive.writtenSamples w.archive.numBlocks
        (backfill w iSamp).1 iSamp (maskedKey iSamp)).group iSamp := by
    rw [setSample_changed w iSamp ht hty hc hok]
    exact hr.2.2.2.2
  obtain ⟨c, hg, hcd⟩ := WriteData_group w.archive.writtenSamples w.archive.numBlocks
    (backfill w iSamp).1 iSamp (maskedKey iSamp)
  rw [hgrp, hg]
  by_cases hf : w.apw.header.firstChangedIndex = 0
  · refine ⟨c, _, [], hcd, hprev, by simp [hf], by simp, ?_⟩
    rw [backfill_first_zero w iSamp hf]
    simp [pairsToGroup, WriteDimensions]
  · obtain ⟨hlt, hor⟩ := hw
    rcases hor with h0 | ⟨hl, hp⟩
    · refine ⟨c, _, [], hcd, hprev, by simp [hf, h0], by simp, ?_⟩
      have : backfill w iSamp = (w.apw.group, none) := by
        simp [backfill, hf, h0, copyLoop]
      rw [this]
      simp [pairsToGroup, WriteDimensions]
    · obtain ⟨p, hp⟩ := Option.isSome_iff_exists.mp hp
      have hmod : (w.apw.header.lastChangedIndex + 1) % counterModulus =
          w.apw.header.lastChangedIndex + 1 := Nat.mod_eq_of_lt (by omega)
      have hb : backfill w iSamp =
          (w.apw.group ++ pairsToGroup (List.replicate
            (w.apw.header.nextSampleIndex - (w.apw.header.lastChangedIndex + 1))
            (Child.reference p.data, iSamp.dimensions)), none) := by
        unfold backfill
        simp only [ne_eq, hf, not_false_eq_true, if_true, hmod, hp]
        exact copyLoop_pairs p iSamp _ _ _ (Nat.succ_pos _)
      refine ⟨c, _, List.replicate
        (w.apw.header.nextSampleIndex - (w.apw.header.lastChangedIndex + 1))
        (Child.reference p.data, iSamp.dimensions), hcd, hprev, ?_, ?_, ?_⟩
      · rw [List.length_replicate, if_neg hf]
      · intro q hq; exact ⟨p, hp, List.eq_of_mem_replicate hq⟩
      · rw [hb]
        simp [pairsToGroup_append, pairsToGroup, WriteDimensions]

/-- A position behind the pairs `ps` and before the last of `ps ++ (qs ++ [x])` holds one
of the pairs `qs`. -/
theorem getElem?_pairs_mid (ps qs : List (Child × Dimensions)) (x : Child × Dimensions)
    (j : Nat) (h1 : ps.length ≤ j) (h2 : j < ps.length + qs.length) :
    ∃ q ∈ qs, (ps ++ (qs ++ [x]))[j]? = some q := by
  have h3 : j - ps.length < qs.length := by omega
  rw [List.getElem?_append_right h1, List.getElem?_append_left h3]
  exact ⟨qs[j - ps.length], List.getElem_mem _, List.getElem?_eq_getElem h3⟩

/-- The change indices of a timeline in step with the state: ordered, and the last change
lies before the next index once a sample has been requested. -/
theorem tracks_indices (ks : List Key) (w : World) (h : Tracks ks w) :
    w.apw.header.firstChangedIndex ≤ w.apw.header.lastChangedIndex ∧
    (w.apw.header.firstChangedIndex = 0 → w.apw.header.lastChangedIndex = 0) ∧
    (w.apw.header.nextSampleIndex = 0 → w.apw.header.firstChangedIndex = 0) ∧
    (w.apw.header.nextSampleIndex ≠ 0 →
      w.apw.header.lastChangedIndex < w.apw.header.nextSampleIndex) := by
  obtain ⟨hlen, _, hspec⟩ := h
  rcases hspec with ⟨hf, hl, _⟩ | ⟨h1, h2, h3, _⟩
  · rw [hf, hl]
    exact ⟨le_refl _, fun _ => rfl, fun _ => rfl, fun h => Nat.pos_of_ne_zero h⟩
  · rw [hlen] at h3
    exact ⟨h2, fun h => by omega, fun h => by omega, fun _ => h3⟩

/-- The increment with one more index keeps the records of the timeline, below the
overflow of the counter. -/
theorem materialized_bump (ks : List Key) (w : World) (ps : List (Child × Dimensions))
    (k : Key) (h : Materialized ks w ps) (htr : Tracks ks w)
    (hn : w.apw.header.nextSampleIndex ≠ 0)
    (hlt : w.apw.header.nextSampleIndex + 1 < counterModulus) :
    Materialized (ks ++ [k]) (bump w) ps := by
  obtain ⟨h1, h2, h3, h4, h5⟩ := h
  have hlast := (tracks_indices ks w htr).2.2.2 hn
  have hlen := htr.1
  refine ⟨h1, h2, ?_, ?_, ?_⟩
  · rw [h3]
    unfold expectedPairs
    rw [bump_next, Nat.mod_eq_of_lt hlt, if_neg hn, if_neg (Nat.succ_ne_zero _)]
    rfl
  · intro p hp _
    exact h4 p hp hn
  · intro i hi1 hi2 hk
    have hi2' : i ≤ w.apw.header.lastChangedIndex := hi2
    rw [getElem?_snoc_lt ks k i (by omega), getElem?_snoc_lt ks k (i - 1) (by omega)] at hk
    exact h5 i hi1 hi2 hk

/-- An accepted changed push extends the records of the timeline by the pairs it appends,
below the overflow of the counter. -/
theorem materialized_changed (ks : List Key) (w : World) (iSamp : ArraySample)
    (hw : WellFormed w) (ht : hasTimeFor w.apw.header)
    (hty : iSamp.dataType = w.apw.header.header.dataType)
    (hc : w.apw.header.nextSampleIndex = 0 ∨
      sameAsPrevious w.apw.previousWrittenSampleID (maskedKey iSamp) = false)
    (htr : Tracks ks w) (hlt : w.apw.header.nextSampleIndex + 1 < counterModulus)
    (hm : ∃ ps, Materialized ks w ps) :
    ∃ ps, Materialized (ks ++ [maskedKey iSamp]) (setSample w iSamp).world ps := by
  obtain ⟨_, hn', hf', hl', _⟩ := setSample_changed_fields w iSamp hw ht hty hc
  obtain ⟨c, r, qs, hcr, hprev', hqlen, hqs, hg'⟩ :=
    setSample_changed_record w iSamp hw ht hty hc
  obtain ⟨ps, h1, h2, h3, h4, h5⟩ := hm
  obtain ⟨hi1, hi2, hi3, hi4⟩ := tracks_indices ks w htr
  obtain ⟨hlen, hkprev, _⟩ := htr
  rw [Nat.mod_eq_of_lt hlt] at hn'
  have hlen' : (ps ++ (qs ++ [(c, iSamp.dimensions)])).length =
      expectedPairs (setSample w iSamp).world.apw.header := by
    simp only [List.length_append, List.length_singleton, h3, hqlen]
    unfold expectedPairs
    rw [hn', hf', hl', if_neg (Nat.succ_ne_zero _)]
    by_cases hz : w.apw.header.nextSampleIndex = 0
    · have hf0 := hi3 hz
      rw [if_pos hz, if_pos hf0, if_pos hf0, if_pos hz]
    · have hl := hi4 hz
      rw [if_neg hz]
      by_cases hf0 : w.apw.header.firstChangedIndex = 0
      · rw [if_pos hf0, if_pos hf0, if_pos hf0, if_neg hz]
        omega
      · rw [if_neg hf0, if_neg hf0, if_neg hf0, if_neg hf0]
        omega
  refine ⟨ps ++ (qs ++ [(c, iSamp.dimensions)]), ?_, ?_, hlen', ?_, ?_⟩
  · intro p hp
    rcases List.mem_append.mp hp with hp | hp
    · exact h1 p hp
    · rcases List.mem_append.mp hp with hp | hp
      · obtain ⟨p0, _, hq⟩ := hqs p hp
        rw [hq]; rfl
      · rw [List.mem_singleton.mp hp]; exact isData_of_holds _ _ hcr
  · rw [hg', h2]; simp only [pairsToGroup_append]
  · intro p hp _
    rw [hprev'] at hp
    have hrp : r = p := Option.some.inj hp
    subst hrp
    refine ⟨c, iSamp.dimensions, ?_, hcr⟩
    rw [← List.append_assoc]
    simp
  · intro i hlo hhi hk
    rw [hf'] at hlo ⊢
    rw [hl'] at hhi
    by_cases hf0 : w.apw.header.firstChangedIndex = 0
    · rw [if_pos hf0] at hlo
      omega
    · rw [if_neg hf0] at hlo ⊢
      have hz : w.apw.header.nextSampleIndex ≠ 0 := fun hz => hf0 (hi3 hz)
      have hl := hi4 hz
      obtain ⟨p, hp, hgl⟩ := hkprev hz
      unfold expectedPairs at h3
      rw [if_neg hz, if_neg hf0] at h3
      rw [if_neg hf0] at hqlen
      by_cases hA : i ≤ w.apw.header.lastChangedIndex
      · rw [getElem?_snoc_lt ks _ i (by omega),
          getElem?_snoc_lt ks _ (i - 1) (by omega)] at hk
        obtain ⟨l, d, c0, e, e1, e2, e3⟩ := h5 i hlo hA hk
        refine ⟨l, d, c0, e, ?_, ?_, e3⟩
        · rw [List.getElem?_append_left (by omega)]; exact e1
        · rw [List.getElem?_append_left (by omega)]; exact e2
      · by_cases hB : i < w.apw.header.nextSampleIndex
        · obtain ⟨q, hqm, hqe⟩ := getElem?_pairs_mid ps qs (c, iSamp.dimensions)
            (i - w.apw.header.firstChangedIndex + 1) (by omega) (by omega)
          obtain ⟨p1, hp1, hq1⟩ := hqs q hqm
          rw [hp] at hp1
          have hpp : p = p1 := Option.some.inj hp1
          subst hpp
          by_cases hC : i = w.apw.header.lastChangedIndex + 1
          · obtain ⟨c0, d0, hgl0, hh0⟩ := h4 p hp hz
            refine ⟨p.data, iSamp.dimensions, c0, d0, by rw [hqe, hq1], ?_, hh0⟩
            rw [List.getElem?_append_left (by omega), ← hgl0, List.getLast?_eq_getElem?]
            congr 1
            omega
          · obtain ⟨q2, hqm2, hqe2⟩ := getElem?_pairs_mid ps qs (c, iSamp.dimensions)
              (i - w.apw.header.firstChangedIndex) (by omega) (by omega)
            obtain ⟨p2, hp2, hq2⟩ := hqs q2 hqm2
            rw [hp] at hp2
            have hpp2 : p = p2 := Option.some.inj hp2
            subst hpp2
            exact ⟨p.data, iSamp.dimensions, Child.reference p.data, iSamp.dimensions,
              by rw [hqe, hq1], by rw [hqe2, hq2], Or.inr rfl⟩
        · exfalso
          have hin : i = ks.length := by omega
          have hne : maskedKey iSamp ≠ p.key := by
            rcases hc with hc | hc
            · exact absurd hc hz
            · exact (sameAsPrevious_false _ _).mp hc p hp
          rw [hin, getElem?_snoc_length, getElem?_snoc_lt ks _ _ (by omega),
            getElem?_pred_length ks p.key hgl] at hk
          exact hne (Option.some.inj hk)

/-- An accepted push or repeat keeps the records of the timeline, below the overflow of
the counter. -/
theorem step_materialized (ks : List Key) (w : World) (op : Op) (hw : WellFormed w)
    (htr : Tracks ks w) (hm : ∃ ps, Materialized ks w ps) (hs : op.isSample = true)
    (hacc : (step w op).thrown = none)
    (hlt : w.apw.header.nextSampleIndex + 1 < counterModulus) :
    ∃ ps, Materialized (keysStep ks op) (step w op).world ps := by
  cases op with
  | setSample iSamp =>
    change (setSample w iSamp).thrown = none at hacc
    show ∃ ps, Materialized (ks ++ [maskedKey iSamp]) (setSample w iSamp).world ps
    obtain ⟨ht, hty⟩ := setSample_accepted_checks w iSamp hacc
    by_cases hc : w.apw.header.nextSampleIndex = 0 ∨
        sameAsPrevious w.apw.previousWrittenSampleID (maskedKey iSamp) = false
    · exact materialized_changed ks w iSamp hw ht hty hc htr hlt hm
    · have hn : w.apw.header.nextSampleIndex ≠ 0 := fun h => hc (Or.inl h)
      have hsm : sameAsPrevious w.apw.previousWrittenSampleID (maskedKey iSamp) = true := by
        cases h : sameAsPrevious w.apw.previousWrittenSampleID (maskedKey iSamp)
        · exact absurd (Or.inr h) hc
        · rfl
      obtain ⟨p, hp, hk⟩ := sameAsPrevious_true _ _ hsm
      obtain ⟨ps, hps⟩ := hm
      rw [setSample_unchanged w iSamp p ht hty hn hp hk]
      exact ⟨ps, materialized_bump ks w ps _ hps htr hn hlt⟩
  | setFromPreviousSample =>
    change (setFromPreviousSample w).thrown = none at hacc
    obtain ⟨ht, hpos⟩ := setFromPreviousSample_accepted_checks w hacc
    have hn : w.apw.header.nextSampleIndex ≠ 0 := Nat.pos_iff_ne_zero.mp hpos
    obtain ⟨p, hp, hgl⟩ := htr.2.1 hn
    show ∃ ps, Materialized (keysStep ks Op.setFromPreviousSample)
      (setFromPreviousSample w).world ps
    rw [setFromPreviousSample_ok w ht hpos]
    have : keysStep ks Op.setFromPreviousSample = ks ++ [p.key] := by
      simp [keysStep, hgl]
    rw [this]
    obtain ⟨ps, hps⟩ := hm
    exact ⟨ps, materialized_bump ks w ps _ hps htr hn hlt⟩
  | setTimeSamplingIndex i => simp [Op.isSample] at hs

/-- Accepted pushes and repeats keep the records of the timeline, below the overflow of
the counter. -/
theorem run_materialized (ops : List Op) : ∀ (ks : List Key) (w : World), WellFormed w →
    Tracks ks w → (∃ ps, Materialized ks w ps) → (∀ op ∈ ops, op.isSample = true) →
    allAccepted w ops → w.apw.header.nextSampleIndex + ops.length < counterModulus →
    ∃ ps, Materialized (ops.foldl keysStep ks) (run w ops) ps := by
  induction ops with
  | nil => intro ks w _ _ h _ _ _; exact h
  | cons op ops ih =>
    intro ks w hw htr hm hops hacc hlen
    simp only [List.length_cons] at hlen
    have hs := hops op (List.mem_cons_self _ _)
    have hn := step_next w op hs hacc.1
    rw [Nat.mod_eq_of_lt (by omega)] at hn
    exact ih _ _ (step_wellFormed w op hw)
      (step_tracks ks w op hw htr hs hacc.1 (by omega))
      (step_materialized ks w op hw htr hm hs hacc.1 (by omega))
      (fun o ho => hops o (List.mem_cons_of_mem _ ho)) hacc.2 (by rw [hn]; omega)

/-- A fresh writer has no record and no timeline. -/
theorem materialized_fresh (dataType : DataType) (ts : TimeSampling) (tsIndex : Nat)
    (a : Archive) :
    Materialized [] { apw := fresh dataType ts tsIndex, archive := a } [] :=
  ⟨fun _ h => absurd h (List.not_mem_nil _), rfl, rfl, fun _ _ h => absurd rfl h,
    fun _ h1 h2 _ => absurd (Nat.lt_of_lt_of_le h1 h2) (Nat.lt_irrefl _)⟩

/-- After the write-or-dedup step the registry holds the record returned under the key. -/
theorem WriteData_map_find (iMap : WrittenSampleMap) (iBlocks : Nat) (iGroup : OGroup)
    (iSamp : ArraySample) (iKey : Key) :
    (WriteData iMap iBlocks iGroup iSamp iKey).map.find iKey =
      some (WriteData iMap iBlocks iGroup iSamp iKey).id := by
  unfold WriteData
  cases h : iMap.find iKey with
  | none =>
    unfold WrittenSampleMap.find at h
    simp [WrittenSampleMap.find, WrittenSampleMap.store, List.find?_append, h]
  | some r => exact h

/-- The write-or-dedup step on a key the registry holds: the record is adopted and a
reference is appended. -/
theorem WriteData_found (iMap : WrittenSampleMap) (iBlocks : Nat) (iGroup : OGroup)
    (iSamp : ArraySample) (iKey : Key) (r : WrittenSampleID) (h : iMap.find iKey = some r) :
    WriteData iMap iBlocks iGroup iSamp iKey =
      { map := iMap, numBlocks := iBlocks, group := iGroup ++ [Child.reference r.data],
        id := r } := by
  unfold WriteData
  rw [h]

/-- The registry and the previous record after an accepted changed push in a well-formed
state: those the write-or-dedup step returned. -/
theorem setSample_changed_archive (w : World) (iSamp : ArraySample) (hw : WellFormed w)
    (ht : hasTimeFor w.apw.header) (hty : iSamp.dataType = w.apw.header.header.dataType)
    (hc : w.apw.header.nextSampleIndex = 0 ∨
      sameAsPrevious w.apw.previousWrittenSampleID (maskedKey iSamp) = false) :
    (setSample w iSamp).world.archive.writtenSamples =
      (WriteData w.archive.writtenSamples w.archive.numBlocks
        (backfill w iSamp).1 iSamp (maskedKey iSamp)).map ∧
    (setSample w iSamp).world.apw.previousWrittenSampleID =
      some (WriteData w.archive.writtenSamples w.archive.numBlocks
        (backfill w iSamp).1 iSamp (maskedKey iSamp)).id := by
  have hok := writeChanged_ok w iSamp (maskedKey iSamp) hw
  have hbok := backfill_ok w iSamp hw
  rw [setSample_changed w iSamp ht hty hc hok]
  simp [writeChanged, hbok, bump, setNext]

/-- A push of a sample of another data type than the property is rejected and changes
nothing; the exception is the type mismatch when the acyclic check passes. -/
theorem setSample_rejected_type (w : World) (iSamp : ArraySample)
    (hne : iSamp.dataType ≠ w.apw.header.header.dataType) :
    (setSample w iSamp).thrown ≠ none ∧ (setSample w iSamp).world = w ∧
      (hasTimeFor w.apw.header → (setSample w iSamp).thrown = some Error.typeMismatch) := by
  by_cases ht : hasTimeFor w.apw.header
  · simp [setSample, ht, hne]
  · simp [setSample, ht]

/-- A sample whose masked key is the one of a sample written as a change by another
property of the same archive: pushed to a fresh property of its own data type, the record
of the other sample is adopted: a reference to its block and a dimension record are
appended, no payload is written and the registry stays as it is. -/
theorem masked_key_adopted (w : World) (s1 s2 : ArraySample) (ts2 : TimeSampling)
    (tsIndex2 : Nat) (hw : WellFormed w) (hk : maskedKey s1 = maskedKey s2)
    (h1 : (setSample w s1).thrown = none) (hc : detectsChange w s1)
    (hts : ts2.isAcyclic = false ∨ ts2.numStoredTimes > 0) :
    ∃ r, (setSample w s1).world.apw.previousWrittenSampleID = some r ∧
      r.key = maskedKey s2 ∧
      (setSample { apw := fresh s2.dataType ts2 tsIndex2,
                   archive := (setSample w s1).world.archive } s2).thrown = none ∧
      (setSample { apw := fresh s2.dataType ts2 tsIndex2,
                   archive := (setSample w s1).world.archive } s2).world.apw.group =
        [Child.reference r.data, Child.dimensions s2.dimensions] ∧
      (setSample { apw := fresh s2.dataType ts2 tsIndex2,
                   archive := (setSample w s1).world.archive }
        s2).world.apw.previousWrittenSampleID = some r ∧
      (setSample { apw := fresh s2.dataType ts2 tsIndex2,
                   archive := (setSample w s1).world.archive }
        s2).world.archive.numBlocks = (setSample w s1).world.archive.numBlocks ∧
      (setSample { apw := fresh s2.dataType ts2 tsIndex2,
                   archive := (setSample w s1).world.archive }
        s2).world.archive.writtenSamples =
        (setSample w s1).world.archive.writtenSamples := by
  obtain ⟨ht1, hty1⟩ := setSample_accepted_checks w s1 h1
  obtain ⟨harch, hprev⟩ := setSample_changed_archive w s1 hw ht1 hty1 hc
  have hfind : (setSample w s1).world.archive.writtenSamples.find (maskedKey s2) =
      some (WriteData w.archive.writtenSamples w.archive.numBlocks
        (backfill w s1).1 s1 (maskedKey s1)).id := by
    rw [harch, ← hk]
    exact WriteData_map_find _ _ _ _ _
  generalize (WriteData w.archive.writtenSamples w.archive.numBlocks
    (backfill w s1).1 s1 (maskedKey s1)).id = r at hprev hfind
  have hrk : r.key = maskedKey s2 := by
    have := List.find?_some hfind
    simpa using this
  have e := setSample_no_backfill
    { apw := fresh s2.dataType ts2 tsIndex2, archive := (setSample w s1).world.archive } s2
    hts rfl (Or.inl rfl) rfl
  have hwd := WriteData_found (setSample w s1).world.archive.writtenSamples
    (setSample w s1).world.archive.numBlocks [] s2 (maskedKey s2) r hfind
  refine ⟨r, hprev, hrk, ?_, ?_, ?_, ?_, ?_⟩
  · rw [e]
  · rw [e]
    show WriteDimensions (WriteData (setSample w s1).world.archive.writtenSamples
      (setSample w s1).world.archive.numBlocks [] s2 (maskedKey s2)).group s2 = _
    rw [hwd]
    rfl
  · rw [e]
    show some (WriteData (setSample w s1).world.archive.writtenSamples
      (setSample w s1).world.archive.numBlocks [] s2 (maskedKey s2)).id = _
    rw [hwd]
  · rw [e]
    show (WriteData (setSample w s1).world.archive.writtenSamples
      (setSample w s1).world.archive.numBlocks [] s2 (maskedKey s2)).numBlocks = _
    rw [hwd]
  · rw [e]
    show (WriteData (setSample w s1).world.archive.writtenSamples
      (setSample w s1).world.archive.numBlocks [] s2 (maskedKey s2)).map = _
    rw [hwd]

/-- The bytes of A declared as integers, pushed to a fresh integer property of the archive
in which the example writer wrote A: a reference to the block of A, no payload. -/
theorem masked_key_adopted_example :
    (setSample { apw := fresh exAInt.dataType exSampling 0,
                 archive := (setSample exWorld exA).world.archive } exAInt).world.apw.group =
        [Child.reference 0, Child.dimensions exAInt.dimensions] ∧
      (setSample { apw := fresh exAInt.dataType exSampling 0,
                   archive := (setSample exWorld exA).world.archive }
        exAInt).world.archive.numBlocks = 1 := by
  decide

/-! ### C1 -/

/-- C1 (amended): on a fresh writer, after any sequence of fewer than 2^32 accepted calls,
each a `setSample` or a `setFromPreviousSample`, `nextSampleIndex` and `getNumSamples`
equal the number of calls, and each call of the sequence raised `nextSampleIndex` by
exactly 1. -/
theorem nextSampleIndex_counts_calls (dataType : DataType) (ts : TimeSampling)
    (tsIndex : Nat) (a : Archive) (ops : List Op)
    (hops : ∀ op ∈ ops, op.isSample = true)
    (hacc : allAccepted { apw := fresh dataType ts tsIndex, archive := a } ops)
    (hlen : ops.length < 2 ^ 32) :
    (run { apw := fresh dataType ts tsIndex, archive := a } ops).apw.header.nextSampleIndex
        = ops.length ∧
      getNumSamples (run { apw := fresh dataType ts tsIndex, archive := a } ops)
        = ops.length ∧
      ∀ k, k < ops.length →
        (run { apw := fresh dataType ts tsIndex, archive := a }
            (ops.take (k + 1))).apw.header.nextSampleIndex =
          (run { apw := fresh dataType ts tsIndex, archive := a }
            (ops.take k)).apw.header.nextSampleIndex + 1 := by
  have hM : counterModulus = 2 ^ 32 := rfl
  have key : ∀ l : List Op, (∀ op ∈ l, op.isSample = true) →
      allAccepted { apw := fresh dataType ts tsIndex, archive := a } l → l.length < 2 ^ 32 →
      (run { apw := fresh dataType ts tsIndex, archive := a } l).apw.header.nextSampleIndex
        = l.length := by
    intro l hl hal hll
    have := run_next l { apw := fresh dataType ts tsIndex, archive := a } hl hal
      (by rw [hM]; simpa [fresh] using hll)
    simpa [fresh] using this
  refine ⟨key ops hops hacc hlen, key ops hops hacc hlen, ?_⟩
  intro k hk
  have h1 := key (ops.take (k + 1)) (fun o ho => hops o (List.mem_of_mem_take ho))
    (allAccepted_take ops (k + 1) _ hacc) (by rw [List.length_take]; omega)
  have h2 := key (ops.take k) (fun o ho => hops o (List.mem_of_mem_take ho))
    (allAccepted_take ops k _ hacc) (by rw [List.length_take]; omega)
  rw [h1, h2, List.length_take, List.length_take]
  omega

/-- C1 witness: three accepted calls on a fresh writer. -/
theorem nextSampleIndex_counts_calls_witness :
    (run exWorld [Op.setSample exA, Op.setFromPreviousSample,
        Op.setSample exB]).apw.header.nextSampleIndex = 3 :=
  (nextSampleIndex_counts_calls exDataType exSampling 0 exArchive
    [Op.setSample exA, Op.setFromPreviousSample, Op.setSample exB]
    (by decide) (by decide) (by decide)).1

/-- C1 counterexample: one `setSample` and `2 ^ 32 - 1` repeats on a fresh writer are all
accepted, these are `2 ^ 32` calls, and `nextSampleIndex` is 0 afterwards. -/
theorem nextSampleIndex_wraps :
    (∀ op ∈ wrapOps, op.isSample = true) ∧ allAccepted exWorld wrapOps ∧
      wrapOps.length = 2 ^ 32 ∧
      (run exWorld wrapOps).apw.header.nextSampleIndex = 0 ∧
      getNumSamples (run exWorld wrapOps) ≠ wrapOps.length := by
  have hlen : wrapOps.length = 2 ^ 32 := by
    rw [wrapOps, List.length_cons, List.length_replicate]
    norm_num
  have hrun := run_wrapOps
  refine ⟨?_, hrun.1, hlen, ?_, ?_⟩
  · intro op hop
    rcases List.mem_cons.mp hop with h | h
    · rw [h]; rfl
    · rw [List.eq_of_mem_replicate h]; rfl
  · rw [hrun.2]; rfl
  · rw [hlen, getNumSamples, hrun.2]
    decide

/-! ### C2 -/

/-- C2 (amended): on a fresh writer, when the samples pushed at indices 0..k are the same
sample A and the sample B pushed at index k+1 has another key (k + 1 below 2^32, the
sampling definition leaving room for k + 2 samples), all pushes are accepted and the group
then holds exactly two payload-or-reference and dimension pairs, that of index 0 and that
of index k+1; indices 1..k get no record, `firstChangedIndex` and `lastChangedIndex` are
k+1. -/
theorem first_change_two_pairs (dataType : DataType) (ts : TimeSampling) (tsIndex : Nat)
    (a : Archive) (A B : ArraySample) (k : Nat)
    (hA : A.dataType = dataType) (hB : B.dataType = dataType)
    (hkey : maskedKey A ≠ maskedKey B)
    (hts : ts.isAcyclic = false ∨ k + 2 ≤ ts.numStoredTimes)
    (hk : k + 1 < 2 ^ 32) :
    allAccepted { apw := fresh dataType ts tsIndex, archive := a }
        (List.replicate (k + 1) (Op.setSample A) ++ [Op.setSample B]) ∧
      ∃ cA cB idA idB,
        (run { apw := fresh dataType ts tsIndex, archive := a }
          (List.replicate (k + 1) (Op.setSample A) ++ [Op.setSample B])).apw.group =
            [cA, Child.dimensions A.dimensions, cB, Child.dimensions B.dimensions] ∧
        cA.holds idA.data ∧ idA.key = maskedKey A ∧
        cB.holds idB.data ∧ idB.key = maskedKey B ∧
        (run { apw := fresh dataType ts tsIndex, archive := a }
          (List.replicate (k + 1) (Op.setSample A))).apw.previousWrittenSampleID = some idA ∧
        (run { apw := fresh dataType ts tsIndex, archive := a }
          (List.replicate (k + 1) (Op.setSample A) ++
            [Op.setSample B])).apw.previousWrittenSampleID = some idB ∧
        dimensionRecords (run { apw := fresh dataType ts tsIndex, archive := a }
          (List.replicate (k + 1) (Op.setSample A) ++ [Op.setSample B])).apw.group = 2 ∧
        (run { apw := fresh dataType ts tsIndex, archive := a }
          (List.replicate (k + 1) (Op.setSample A) ++
            [Op.setSample B])).apw.header.firstChangedIndex = k + 1 ∧
        (run { apw := fresh dataType ts tsIndex, archive := a }
          (List.replicate (k + 1) (Op.setSample A) ++
            [Op.setSample B])).apw.header.lastChangedIndex = k + 1 := by
  have hM : counterModulus = 4294967296 := counterModulus_eq
  have hk' : k + 1 < 4294967296 := by norm_num at hk; exact hk
  -- the first push
  obtain ⟨ht1, hh1, hn1, hf1, hl1, cA, idA, hg1, hcA, hkA, hp1⟩ :=
    setSample_no_backfill_fields { apw := fresh dataType ts tsIndex, archive := a } A
      (hasTimeFor_of_le _ (k + 2) (by omega) (by simpa [fresh] using hts))
      hA (Or.inl rfl) rfl
  generalize hw1 : (setSample { apw := fresh dataType ts tsIndex, archive := a } A).world = w1
    at hh1 hn1 hf1 hl1 hg1 hp1
  have hn1' : w1.apw.header.nextSampleIndex = 1 := by
    rw [hn1, hM]; rfl
  have hts1 : w1.apw.header.header.timeSampling = ts := by rw [hh1]; rfl
  have hdt1 : w1.apw.header.header.dataType = dataType := by rw [hh1]; rfl
  -- the run of unchanged pushes
  have hc := run_constant A idA (List.replicate k (Op.setSample A)) w1
    (fun op hop => Or.inl (List.eq_of_mem_replicate hop))
    (by rw [hts1, hn1', List.length_replicate]
        rcases hts with h | h
        · exact Or.inl h
        · exact Or.inr (by omega))
    (by rw [hdt1]; exact hA) hp1 hkA.symm (by omega) (by omega)
    (by rw [List.length_replicate]; omega)
  rw [List.length_replicate, hn1', hM, Nat.mod_eq_of_lt (by omega)] at hc
  have hrunA : run { apw := fresh dataType ts tsIndex, archive := a }
      (List.replicate (k + 1) (Op.setSample A)) = setNext w1 (1 + k) := by
    rw [List.replicate_succ, run_cons]
    show run (setSample _ A).world _ = _
    rw [hw1]
    exact hc.2
  have haccA : allAccepted { apw := fresh dataType ts tsIndex, archive := a }
      (List.replicate (k + 1) (Op.setSample A)) := by
    rw [List.replicate_succ, allAccepted_cons]
    refine ⟨ht1, ?_⟩
    show allAccepted (setSample _ A).world _
    rw [hw1]
    exact hc.1
  -- the changed push
  obtain ⟨ht2, _, _, hf2, hl2, cB, idB, hg2, hcB, hkB, hp2⟩ :=
    setSample_no_backfill_fields (setNext w1 (1 + k)) B
      (by
        unfold hasTimeFor
        show w1.apw.header.header.timeSampling.isAcyclic = false ∨
          w1.apw.header.header.timeSampling.numStoredTimes > 1 + k
        rw [hts1]
        rcases hts with h | h
        · exact Or.inl h
        · exact Or.inr (by omega))
      (by show B.dataType = w1.apw.header.header.dataType; rw [hdt1]; exact hB)
      (by right
          show sameAsPrevious w1.apw.previousWrittenSampleID (maskedKey B) = false
          rw [hp1]
          simp only [sameAsPrevious, hkA]
          exact decide_eq_false (fun h => hkey h.symm))
      hf1
  have hrun : run { apw := fresh dataType ts tsIndex, archive := a }
      (List.replicate (k + 1) (Op.setSample A) ++ [Op.setSample B]) =
      (setSample (setNext w1 (1 + k)) B).world := by
    rw [run_append, hrunA]; rfl
  have hgroup : (setSample (setNext w1 (1 + k)) B).world.apw.group =
      [cA, Child.dimensions A.dimensions, cB, Child.dimensions B.dimensions] := by
    rw [hg2]
    show w1.apw.group ++ _ = _
    rw [hg1]; rfl
  rw [allAccepted_append, hrun, hrunA]
  refine ⟨⟨haccA, ht2, trivial⟩, cA, cB, idA, idB, hgroup, hcA, hkA, hcB, hkB, hp1, hp2, ?_,
    ?_, ?_⟩
  · rw [hgroup]; exact dimensionRecords_pairs cA cB _ _ _ _ hcA hcB
  · rw [hf2]; show 1 + k = k + 1; omega
  · rw [hl2]; show 1 + k = k + 1; omega

/-- C2 witness: A, A, B on the example writer (k = 1). -/
theorem first_change_two_pairs_witness :
    maskedKey exA ≠ maskedKey exB ∧
      allAccepted exWorld (List.replicate (1 + 1) (Op.setSample exA) ++ [Op.setSample exB]) :=
  ⟨by decide,
   (first_change_two_pairs exDataType exSampling 0 exArchive exA exB 1 rfl rfl (by decide)
      (Or.inl rfl) (by norm_num)).1⟩

/-- C2 counterexample: after A, A, B on a fresh writer (k = 1) the group holds two
payload and dimension pairs, those of indices 0 and 2: two dimension records where the
claim needs three, and no reference for index 1. -/
theorem backfill_skipped_on_first_change :
    allAccepted exWorld [Op.setSample exA, Op.setSample exA, Op.setSample exB] ∧
      (run exWorld [Op.setSample exA, Op.setSample exA, Op.setSample exB]).apw.group =
        [Child.payload 0, Child.dimensions exA.dimensions,
         Child.payload 1, Child.dimensions exB.dimensions] ∧
      dimensionRecords
        (run exWorld [Op.setSample exA, Op.setSample exA, Op.setSample exB]).apw.group = 2 ∧
      ¬ (1 + 2 ≤ dimensionRecords
        (run exWorld [Op.setSample exA, Op.setSample exA, Op.setSample exB]).apw.group) := by
  decide

/-! ### C3 -/

/-- C3 (amended): in a state with `nextSampleIndex > 0`, a `setSample` that the acyclic
bound admits, of a sample of the right data type whose masked key is the key of the
previous record, returns normally, appends nothing to the group, leaves the archive
(written samples, block count), the previous record, `firstChangedIndex`,
`lastChangedIndex`, both flags and the sampling binding as they were, and sets
`nextSampleIndex` to `(nextSampleIndex + 1) % 2^32`: plus one below `2^32 - 1`. -/
theorem unchanged_setSample_only_counts (w : World) (iSamp : ArraySample)
    (p : WrittenSampleID)
    (hn : 0 < w.apw.header.nextSampleIndex)
    (hty : iSamp.dataType = w.apw.header.header.dataType)
    (hp : w.apw.previousWrittenSampleID = some p) (hk : maskedKey iSamp = p.key)
    (ht : hasTimeFor w.apw.header) :
    (setSample w iSamp).thrown = none ∧
      (setSample w iSamp).world.apw.group = w.apw.group ∧
      (setSample w iSamp).world.archive = w.archive ∧
      (setSample w iSamp).world.apw.previousWrittenSampleID = some p ∧
      (setSample w iSamp).world.apw.header =
        { w.apw.header with
          nextSampleIndex := (w.apw.header.nextSampleIndex + 1) % 2 ^ 32 } ∧
      (setSample w iSamp).world.apw.header.firstChangedIndex =
        w.apw.header.firstChangedIndex ∧
      (setSample w iSamp).world.apw.header.lastChangedIndex = w.apw.header.lastChangedIndex ∧
      (setSample w iSamp).world.apw.header.isScalarLike = w.apw.header.isScalarLike ∧
      (setSample w iSamp).world.apw.header.isHomogenous = w.apw.header.isHomogenous ∧
      (w.apw.header.nextSampleIndex + 1 < 2 ^ 32 →
        (setSample w iSamp).world.apw.header.nextSampleIndex =
          w.apw.header.nextSampleIndex + 1) := by
  rw [setSample_unchanged w iSamp p ht hty (Nat.pos_iff_ne_zero.mp hn) hp hk]
  refine ⟨rfl, rfl, rfl, hp, rfl, rfl, rfl, rfl, rfl, ?_⟩
  intro h
  exact Nat.mod_eq_of_lt h

/-- C3 witness: a second push of A on the example writer. -/
theorem unchanged_setSample_only_counts_witness :
    (setSample (setSample exWorld exA).world exA).world.apw.group =
        (setSample exWorld exA).world.apw.group ∧
      (setSample (setSample exWorld exA).world exA).world.apw.header.nextSampleIndex = 2 :=
  ⟨(unchanged_setSample_only_counts (setSample exWorld exA).world exA exRecordA
      (by decide) rfl rfl rfl (by decide)).2.1,
   (unchanged_setSample_only_counts (setSample exWorld exA).world exA exRecordA
      (by decide) rfl rfl rfl (by decide)).2.2.2.2.2.2.2.2.2 (by decide)⟩

/-- C3 counterexample: after one push of A and `2 ^ 32 - 2` repeats on a fresh writer,
all accepted, `nextSampleIndex` is `2 ^ 32 - 1`; pushing A again is accepted, the key is
that of the previous record, and `nextSampleIndex` becomes 0, not `nextSampleIndex + 1`. -/
theorem unchanged_setSample_wraps :
    allAccepted exWorld almostWrapOps ∧
      (run exWorld almostWrapOps).apw.header.nextSampleIndex = 4294967295 ∧
      (run exWorld almostWrapOps).apw.previousWrittenSampleID = some exRecordA ∧
      maskedKey exA = exRecordA.key ∧
      (setSample (run exWorld almostWrapOps) exA).thrown = none ∧
      (setSample (run exWorld almostWrapOps) exA).world.apw.header.nextSampleIndex = 0 ∧
      (setSample (run exWorld almostWrapOps) exA).world.apw.header.nextSampleIndex ≠
        (run exWorld almostWrapOps).apw.header.nextSampleIndex + 1 := by
  have h := run_almostWrapOps
  rw [h.2]
  exact ⟨h.1, by decide, by decide, by decide, by decide, by decide, by decide⟩

/-! ### C4 -/

/-- C4 (amended): on a fresh writer, after any sequence of fewer than 2^32 accepted
calls, each a push of one and the same sample A or a repeat, with at least one push, the
destructor computes the effective sample count 1, and the maximum for the property's
sampling index ends as `max (previous maximum) 1`. -/
theorem constant_property_collapses (dataType : DataType) (ts : TimeSampling)
    (tsIndex : Nat) (a : Archive) (A : ArraySample) (ops : List Op)
    (hops : ∀ op ∈ ops, op = Op.setSample A ∨ op = Op.setFromPreviousSample)
    (hpush : Op.setSample A ∈ ops)
    (hacc : allAccepted { apw := fresh dataType ts tsIndex, archive := a } ops)
    (hlen : ops.length < 2 ^ 32) :
    numSamples (run { apw := fresh dataType ts tsIndex, archive := a } ops).apw.header = 1 ∧
      (destructor (run { apw := fresh dataType ts tsIndex, archive := a }
        ops)).archive.maxSamples tsIndex = max (a.maxSamples tsIndex) 1 := by
  have hM : counterModulus = 2 ^ 32 := rfl
  have hs : ∀ op ∈ ops, op.isSample = true := by
    intro op hop
    rcases hops op hop with h | h <;> rw [h] <;> rfl
  have hn := run_next ops { apw := fresh dataType ts tsIndex, archive := a } hs hacc
    (by rw [hM]; simpa [fresh] using hlen)
  have hn' : (run { apw := fresh dataType ts tsIndex, archive := a }
      ops).apw.header.nextSampleIndex = ops.length := by simpa [fresh] using hn
  have hpos : 0 < ops.length := List.length_pos_of_mem hpush
  obtain ⟨_, hl⟩ := run_constant_indices A ops { apw := fresh dataType ts tsIndex, archive := a }
    hops rfl rfl (fun h => absurd rfl h)
  obtain ⟨_, hidx, hmax, _⟩ := run_frame ops { apw := fresh dataType ts tsIndex, archive := a } hs
  have hnum : numSamples (run { apw := fresh dataType ts tsIndex, archive := a }
      ops).apw.header = 1 := by
    unfold numSamples
    rw [if_pos ⟨hl, by rw [hn']; exact hpos⟩]
  refine ⟨hnum, ?_⟩
  have hd := destructor_max (run { apw := fresh dataType ts tsIndex, archive := a } ops)
  rw [hidx, hnum, hmax] at hd
  exact hd

/-- C4 witness: A, repeat, A on the example writer. -/
theorem constant_property_collapses_witness :
    numSamples
      (run exWorld [Op.setSample exA, Op.setFromPreviousSample, Op.setSample exA]).apw.header
        = 1 ∧
      (destructor (run exWorld [Op.setSample exA, Op.setFromPreviousSample,
        Op.setSample exA])).archive.maxSamples 0 = max (exArchive.maxSamples 0) 1 :=
  constant_property_collapses exDataType exSampling 0 exArchive exA
    [Op.setSample exA, Op.setFromPreviousSample, Op.setSample exA]
    (by decide) (by decide) (by decide) (by decide)

/-- C4 counterexample: the same sample A pushed `2 ^ 32` times on the fresh example
writer: all pushes are accepted, the destructor then computes the effective sample count
0, and the maximum for sampling index 0 stays 0 instead of becoming `max 0 1`. -/
theorem constant_property_wraps :
    (∀ op ∈ constOps, op = Op.setSample exA) ∧ constOps.length = 2 ^ 32 ∧
      allAccepted exWorld constOps ∧
      numSamples (run exWorld constOps).apw.header = 0 ∧
      (destructor (run exWorld constOps)).archive.maxSamples 0 = 0 ∧
      (destructor (run exWorld constOps)).archive.maxSamples 0 ≠
        max (exArchive.maxSamples 0) 1 := by
  have h : allAccepted exWorld constOps ∧
      run exWorld constOps = setNext (setSample exWorld exA).world 0 :=
    run_constOps exSampling 0 (Or.inl rfl)
  have hlen : constOps.length = 2 ^ 32 := by
    rw [constOps, List.length_cons, List.length_replicate]
    norm_num
  refine ⟨?_, hlen, h.1, ?_, ?_, ?_⟩
  · intro op hop
    rcases List.mem_cons.mp hop with h | h
    · exact h
    · exact List.eq_of_mem_replicate h
  · rw [h.2]; decide
  · rw [h.2]; decide
  · rw [h.2]; decide

/-! ### C5 -/

/-- C5 (amended): for every T below 2^32, on a fresh writer bound to an acyclic
definition with T stored times, for every sequence of more than T type-correct pushes
and repeats that starts with a push, the first T calls are all accepted and the
(T+1)-th call, push or repeat, throws the sampling-exhausted error. -/
theorem acyclic_exhaustion (dataType : DataType) (tsIndex : Nat) (a : Archive) (T : Nat)
    (hT : T < 2 ^ 32) (ops : List Op) (iSamp : ArraySample) (rest : List Op)
    (hstart : ops = Op.setSample iSamp :: rest)
    (hops : ∀ op ∈ ops, op.isSample = true)
    (hty : ∀ s, Op.setSample s ∈ ops → s.dataType = dataType)
    (hlen : T < ops.length) :
    allAccepted
        { apw := fresh dataType { isAcyclic := true, numStoredTimes := T } tsIndex,
          archive := a } (ops.take T) ∧
      (step
        (run { apw := fresh dataType { isAcyclic := true, numStoredTimes := T } tsIndex,
               archive := a } (ops.take T))
        ops[T]).thrown = some Error.samplingExhausted := by
  have hM : counterModulus = 4294967296 := counterModulus_eq
  have hT' : T < 4294967296 := by norm_num at hT; exact hT
  have hlt : (ops.take T).length = T := by rw [List.length_take]; omega
  have hs : ∀ op ∈ ops.take T, op.isSample = true :=
    fun o ho => hops o (List.mem_of_mem_take ho)
  have hacc : allAccepted
      { apw := fresh dataType { isAcyclic := true, numStoredTimes := T } tsIndex,
        archive := a } (ops.take T) := by
    apply allAccepted_within_times _ _ (wellFormed_fresh _ _ _ _) hs
    · intro s hs'
      exact hty s (List.mem_of_mem_take hs')
    · right
      intro op hop
      subst hstart
      cases T with
      | zero => simp at hop
      | succ n =>
        simp only [List.take_succ_cons, List.head?_cons, Option.some.injEq] at hop
        exact ⟨iSamp, hop.symm⟩
    · right
      rw [hlt]
      show 0 + T ≤ T
      omega
    · rw [hlt, hM]
      show 0 + T ≤ 4294967296
      omega
  refine ⟨hacc, ?_⟩
  have hn := run_next (ops.take T)
    { apw := fresh dataType { isAcyclic := true, numStoredTimes := T } tsIndex, archive := a }
    hs hacc (by rw [hlt, hM]; show 0 + T < 4294967296; omega)
  rw [hlt] at hn
  have hf := (run_frame (ops.take T)
    { apw := fresh dataType { isAcyclic := true, numStoredTimes := T } tsIndex, archive := a }
    hs).1
  generalize run { apw := fresh dataType { isAcyclic := true, numStoredTimes := T } tsIndex, archive := a } (ops.take T) = w at hn hf
  have hnt : ¬ hasTimeFor w.apw.header := by
    unfold hasTimeFor
    rw [hf, hn]
    show ¬ (true = false ∨ T > 0 + T)
    intro h
    rcases h with h | h
    · cases h
    · omega
  have hsT : ops[T].isSample = true := hops _ (List.getElem_mem _)
  generalize ops[T] = op at hsT
  cases op with
  | setSample s => simp [step, setSample, hnt]
  | setFromPreviousSample => simp [step, setFromPreviousSample, hnt]
  | setTimeSamplingIndex i => simp [Op.isSample] at hsT

/-- C5 witness: two stored times; A, repeat are accepted and the third call, a push of
B, throws the sampling-exhausted error. -/
theorem acyclic_exhaustion_witness :
    allAccepted exWorldAcyclic [Op.setSample exA, Op.setFromPreviousSample] ∧
      (step (run exWorldAcyclic [Op.setSample exA, Op.setFromPreviousSample])
        (Op.setSample exB)).thrown = some Error.samplingExhausted :=
  acyclic_exhaustion exDataType 1 exArchive 2 (by norm_num)
    [Op.setSample exA, Op.setFromPreviousSample, Op.setSample exB] exA
    [Op.setFromPreviousSample, Op.setSample exB] rfl (by decide)
    (fun s hs => by
      simp only [List.mem_cons, Op.setSample.injEq, List.mem_singleton, reduceCtorEq,
        false_or, List.not_mem_nil, or_false] at hs
      rcases hs with h | h <;> rw [h] <;> rfl)
    (by decide)

/-- C5 counterexample: an acyclic definition with T = 2^32 stored times; after 2^32
accepted pushes of A on a fresh writer the (T+1)-th call does not throw the
sampling-exhausted error: a push is accepted, a repeat throws the no-previous-sample
error. -/
theorem acyclic_bound_missed_after_wrap :
    exAcyclicLong.isAcyclic = true ∧ exAcyclicLong.numStoredTimes = 2 ^ 32 ∧
      constOps.length = 2 ^ 32 ∧ allAccepted exWorldLong constOps ∧
      (step (run exWorldLong constOps) (Op.setSample exA)).thrown = none ∧
      (step (run exWorldLong constOps) Op.setFromPreviousSample).thrown =
        some Error.invalidState := by
  have h : allAccepted exWorldLong constOps ∧
      run exWorldLong constOps = setNext (setSample exWorldLong exA).world 0 :=
    run_constOps exAcyclicLong 2 (Or.inr (le_refl _))
  have hlen : constOps.length = 2 ^ 32 := by
    rw [constOps, List.length_cons, List.length_replicate]
    norm_num
  refine ⟨rfl, by norm_num [exAcyclicLong], hlen, h.1, ?_, ?_⟩
  · rw [h.2]; decide
  · rw [h.2]; decide

/-! ### C6 -/

/-- C6 (amended): on a fresh writer whose sampling leaves room for three samples, for
type-correct samples A and B with different masked keys, after push A, push A, push B:
all three are accepted; the second push appended nothing to the group, left the archive
and the previous record as they were and left `nextSampleIndex = 2`; the third push
performed the write-or-dedup step for B and appended B's payload-or-reference and
dimension record; the header ends with `nextSampleIndex = 3`, `lastChangedIndex = 2` and
`firstChangedIndex = 2` (it was 0 after the first and second push). -/
theorem scenario_A_A_B (dataType : DataType) (ts : TimeSampling) (tsIndex : Nat)
    (a : Archive) (A B : ArraySample)
    (hA : A.dataType = dataType) (hB : B.dataType = dataType)
    (hkey : maskedKey A ≠ maskedKey B)
    (hts : ts.isAcyclic = false ∨ 3 ≤ ts.numStoredTimes) :
    allAccepted { apw := fresh dataType ts tsIndex, archive := a }
        [Op.setSample A, Op.setSample A, Op.setSample B] ∧
      (run { apw := fresh dataType ts tsIndex, archive := a }
          [Op.setSample A, Op.setSample A]).apw.group =
        (run { apw := fresh dataType ts tsIndex, archive := a } [Op.setSample A]).apw.group ∧
      (run { apw := fresh dataType ts tsIndex, archive := a }
          [Op.setSample A, Op.setSample A]).archive =
        (run { apw := fresh dataType ts tsIndex, archive := a } [Op.setSample A]).archive ∧
      (run { apw := fresh dataType ts tsIndex, archive := a }
          [Op.setSample A, Op.setSample A]).apw.previousWrittenSampleID =
        (run { apw := fresh dataType ts tsIndex, archive := a }
          [Op.setSample A]).apw.previousWrittenSampleID ∧
      (run { apw := fresh dataType ts tsIndex, archive := a }
          [Op.setSample A, Op.setSample A]).apw.header.nextSampleIndex = 2 ∧
      (run { apw := fresh dataType ts tsIndex, archive := a }
          [Op.setSample A, Op.setSample A]).apw.header.firstChangedIndex = 0 ∧
      (∃ c id,
        (run { apw := fresh dataType ts tsIndex, archive := a }
            [Op.setSample A, Op.setSample A, Op.setSample B]).apw.group =
          (run { apw := fresh dataType ts tsIndex, archive := a }
            [Op.setSample A, Op.setSample A]).apw.group ++
              [c, Child.dimensions B.dimensions] ∧
        c.holds id.data ∧ id.key = maskedKey B ∧
        (run { apw := fresh dataType ts tsIndex, archive := a }
            [Op.setSample A, Op.setSample A, Op.setSample B]).apw.previousWrittenSampleID =
          some id) ∧
      (run { apw := fresh dataType ts tsIndex, archive := a }
          [Op.setSample A, Op.setSample A, Op.setSample B]).apw.header.nextSampleIndex = 3 ∧
      (run { apw := fresh dataType ts tsIndex, archive := a }
          [Op.setSample A, Op.setSample A, Op.setSample B]).apw.header.firstChangedIndex = 2 ∧
      (run { apw := fresh dataType ts tsIndex, archive := a }
          [Op.setSample A, Op.setSample A, Op.setSample B]).apw.header.lastChangedIndex = 2 := by
  have hM : counterModulus = 4294967296 := counterModulus_eq
  obtain ⟨ht1, hh1, hn1, hf1, hl1, cA, idA, hg1, hcA, hkA, hp1⟩ :=
    setSample_no_backfill_fields { apw := fresh dataType ts tsIndex, archive := a } A
      (hasTimeFor_of_le _ 3 (by omega) (by simpa [fresh] using hts))
      hA (Or.inl rfl) rfl
  generalize hw1 : (setSample { apw := fresh dataType ts tsIndex, archive := a } A).world = w1
    at hh1 hn1 hf1 hl1 hg1 hp1
  have hn1' : w1.apw.header.nextSampleIndex = 1 := by rw [hn1, hM]; rfl
  have hts1 : w1.apw.header.header.timeSampling = ts := by rw [hh1]; rfl
  have hdt1 : w1.apw.header.header.dataType = dataType := by rw [hh1]; rfl
  have ht1' : hasTimeFor w1.apw.header := by
    unfold hasTimeFor
    rw [hts1, hn1']
    rcases hts with h | h
    · exact Or.inl h
    · exact Or.inr (by omega)
  have h2 := setSample_unchanged w1 A idA ht1' (by rw [hdt1]; exact hA)
    (by rw [hn1']; exact Nat.one_ne_zero) hp1 hkA.symm
  have hb : bump w1 = setNext w1 2 := by
    unfold bump; rw [hn1', hM]
  rw [hb] at h2
  obtain ⟨ht3, _, hn3, hf3, hl3, hex⟩ :=
    setSample_no_backfill_fields (setNext w1 2) B
      (by
        unfold hasTimeFor
        show w1.apw.header.header.timeSampling.isAcyclic = false ∨
          w1.apw.header.header.timeSampling.numStoredTimes > 2
        rw [hts1]
        rcases hts with h | h
        · exact Or.inl h
        · exact Or.inr (by omega))
      (by show B.dataType = w1.apw.header.header.dataType; rw [hdt1]; exact hB)
      (by right
          show sameAsPrevious w1.apw.previousWrittenSampleID (maskedKey B) = false
          rw [hp1]
          simp only [sameAsPrevious, hkA]
          exact decide_eq_false (fun h => hkey h.symm))
      hf1
  have r1 : run { apw := fresh dataType ts tsIndex, archive := a } [Op.setSample A] = w1 := by
    rw [← hw1]; rfl
  have r2 : run { apw := fresh dataType ts tsIndex, archive := a }
      [Op.setSample A, Op.setSample A] = setNext w1 2 := by
    rw [run_cons]
    show run (setSample _ A).world _ = _
    rw [hw1, run_cons]
    show (setSample w1 A).world = _
    rw [h2]
  have r3 : run { apw := fresh dataType ts tsIndex, archive := a }
      [Op.setSample A, Op.setSample A, Op.setSample B] =
      (setSample (setNext w1 2) B).world := by
    rw [run_cons]
    show run (setSample _ A).world _ = _
    rw [hw1, run_cons]
    show run (setSample w1 A).world _ = _
    rw [h2]; rfl
  rw [r1, r2, r3]
  refine ⟨?_, rfl, rfl, rfl, rfl, hf1, hex, ?_, hf3, hl3⟩
  · rw [allAccepted_cons]
    refine ⟨ht1, ?_⟩
    show allAccepted (setSample _ A).world _
    rw [hw1, allAccepted_cons]
    refine ⟨by show (setSample w1 A).thrown = none; rw [h2], ?_⟩
    show allAccepted (setSample w1 A).world _
    rw [h2, allAccepted_cons]
    exact ⟨ht3, trivial⟩
  · rw [hn3, hM]; rfl

/-- C6 witness: the scenario on the example writer. -/
theorem scenario_A_A_B_witness :
    maskedKey exA ≠ maskedKey exB ∧
      allAccepted exWorld [Op.setSample exA, Op.setSample exA, Op.setSample exB] :=
  ⟨by decide,
   (scenario_A_A_B exDataType exSampling 0 exArchive exA exB rfl rfl (by decide)
     (Or.inl rfl)).1⟩

/-- C6 counterexample: after push A, push A, push B on the example writer
`firstChangedIndex` is 2, not 0. -/
theorem scenario_firstChangedIndex_is_two :
    allAccepted exWorld [Op.setSample exA, Op.setSample exA, Op.setSample exB] ∧
      exA.dimensions = exB.dimensions ∧ maskedKey exA ≠ maskedKey exB ∧
      (run exWorld [Op.setSample exA]).apw.header.firstChangedIndex = 0 ∧
      (run exWorld
        [Op.setSample exA, Op.setSample exA, Op.setSample exB]).apw.header.firstChangedIndex
          = 2 ∧
      (run exWorld
        [Op.setSample exA, Op.setSample exA, Op.setSample exB]).apw.header.firstChangedIndex
          ≠ 0 := by
  decide

/-! ### C7 -/

/-- C7: the destructor leaves the maximum for the header's `timeSamplingIndex` at
`max (previous maximum) eff`, with `eff = 1` when `lastChangedIndex == 0` and
`nextSampleIndex > 0` and `eff = nextSampleIndex` otherwise; no maximum decreases, the
maxima of the other indices, the sampling definitions, the written-sample registry, the
block count and the writer (hence every header field) are unchanged. -/
theorem destructor_raises_watermark (w : World) :
    (destructor w).archive.maxSamples w.apw.header.timeSamplingIndex =
        max (w.archive.maxSamples w.apw.header.timeSamplingIndex)
          ((if w.apw.header.lastChangedIndex = 0 ∧ w.apw.header.nextSampleIndex > 0 then 1
            else w.apw.header.nextSampleIndex : Nat) : Int) ∧
      (∀ j, w.archive.maxSamples j ≤ (destructor w).archive.maxSamples j) ∧
      (∀ j, (destructor w).archive.maxSamples j =
        if j = w.apw.header.timeSamplingIndex then
          (destructor w).archive.maxSamples w.apw.header.timeSamplingIndex
        else w.archive.maxSamples j) ∧
      (destructor w).apw = w.apw ∧
      (destructor w).archive.timeSamplings = w.archive.timeSamplings ∧
      (destructor w).archive.writtenSamples = w.archive.writtenSamples ∧
      (destructor w).archive.numBlocks = w.archive.numBlocks := by
  by_cases h : w.archive.maxSamples w.apw.header.timeSamplingIndex <
      ((if w.apw.header.lastChangedIndex = 0 ∧ w.apw.header.nextSampleIndex > 0 then 1
        else w.apw.header.nextSampleIndex : Nat) : Int)
  · have hd : destructor w =
        { w with archive := { w.archive with maxSamples := (fun i =>
            if i = w.apw.header.timeSamplingIndex then
              ((if w.apw.header.lastChangedIndex = 0 ∧ w.apw.header.nextSampleIndex > 0 then 1
                else w.apw.header.nextSampleIndex : Nat) : Int)
            else w.archive.maxSamples i) } } := by
      unfold destructor Archive.setMaxNumSamplesForTimeSamplingIndex
        Archive.getMaxNumSamplesForTimeSamplingIndex numSamples
      simp only [h, if_true]
    rw [hd]
    refine ⟨?_, ?_, ?_, rfl, rfl, rfl, rfl⟩
    · show (if _ = _ then _ else _) = _
      rw [if_pos rfl]
      exact (max_eq_right (le_of_lt h)).symm
    · intro j
      show _ ≤ (if _ = _ then _ else _)
      by_cases hj : j = w.apw.header.timeSamplingIndex
      · rw [if_pos hj, hj]; exact le_of_lt h
      · rw [if_neg hj]
    · intro j
      show (if _ = _ then _ else _) = if _ = _ then (if _ = _ then _ else _) else _
      rw [if_pos (rfl : w.apw.header.timeSamplingIndex = w.apw.header.timeSamplingIndex)]
  · have hd : destructor w = w := by
      unfold destructor Archive.getMaxNumSamplesForTimeSamplingIndex numSamples
      simp only [h, if_false]
    rw [hd]
    refine ⟨?_, fun j => le_refl _, ?_, rfl, rfl, rfl, rfl⟩
    · exact (max_eq_left (not_lt.mp h)).symm
    · intro j
      by_cases hj : j = w.apw.header.timeSamplingIndex
      · rw [if_pos hj, hj]
      · rw [if_neg hj]

/-! ### C8 -/

/-- C8 (amended): `setFromPreviousSample` throws and changes nothing when
`nextSampleIndex == 0`; when `nextSampleIndex > 0` and the acyclic bound permits it
returns normally, appends nothing to the group, leaves the archive, the previous record
and every header field but `nextSampleIndex` as they were, and sets `nextSampleIndex` to
`(nextSampleIndex + 1) % 2^32`: plus one below `2^32 - 1`. -/
theorem setFromPreviousSample_only_counts (w : World) :
    (w.apw.header.nextSampleIndex = 0 →
        (setFromPreviousSample w).thrown ≠ none ∧ (setFromPreviousSample w).world = w) ∧
      (0 < w.apw.header.nextSampleIndex → hasTimeFor w.apw.header →
        (setFromPreviousSample w).thrown = none ∧
        (setFromPreviousSample w).world.apw.group = w.apw.group ∧
        (setFromPreviousSample w).world.archive = w.archive ∧
        (setFromPreviousSample w).world.apw.previousWrittenSampleID =
          w.apw.previousWrittenSampleID ∧
        (setFromPreviousSample w).world.apw.header =
          { w.apw.header with
            nextSampleIndex := (w.apw.header.nextSampleIndex + 1) % 2 ^ 32 } ∧
        (w.apw.header.nextSampleIndex + 1 < 2 ^ 32 →
          (setFromPreviousSample w).world.apw.header.nextSampleIndex =
            w.apw.header.nextSampleIndex + 1)) := by
  constructor
  · intro h0
    unfold setFromPreviousSample
    simp only [h0, gt_iff_lt, Nat.lt_irrefl, if_false]
    split_ifs <;> simp
  · intro hn ht
    rw [setFromPreviousSample_ok w ht hn]
    refine ⟨rfl, rfl, rfl, rfl, rfl, ?_⟩
    intro h
    exact Nat.mod_eq_of_lt h

/-- C8 witness: a repeat on the fresh example writer throws; after one push it is
accepted and `nextSampleIndex` goes from 1 to 2. -/
theorem setFromPreviousSample_only_counts_witness :
    ((setFromPreviousSample exWorld).thrown ≠ none ∧
        (setFromPreviousSample exWorld).world = exWorld) ∧
      (setFromPreviousSample (setSample exWorld exA).world).world.apw.header.nextSampleIndex
        = 1 + 1 :=
  ⟨(setFromPreviousSample_only_counts exWorld).1 rfl,
   ((setFromPreviousSample_only_counts (setSample exWorld exA).world).2
      (by decide) (by decide)).2.2.2.2.2 (by decide)⟩

/-- C8 counterexample: in the state a fresh writer reaches by one push and `2 ^ 32 - 2`
repeats, all accepted, `nextSampleIndex` is `2 ^ 32 - 1` and the sampling is not acyclic;
the next repeat is accepted and leaves `nextSampleIndex` at 0: it did not grow by 1. -/
theorem setFromPreviousSample_wraps :
    allAccepted exWorld almostWrapOps ∧
      (run exWorld almostWrapOps).apw.header.nextSampleIndex = 4294967295 ∧
      hasTimeFor (run exWorld almostWrapOps).apw.header ∧
      (setFromPreviousSample (run exWorld almostWrapOps)).thrown = none ∧
      (setFromPreviousSample (run exWorld almostWrapOps)).world.apw.header.nextSampleIndex
        = 0 ∧
      (setFromPreviousSample (run exWorld almostWrapOps)).world.apw.header.nextSampleIndex ≠
        (run exWorld almostWrapOps).apw.header.nextSampleIndex + 1 := by
  have h := run_almostWrapOps
  rw [h.2]
  exact ⟨h.1, by decide, by decide, by decide, by decide, by decide⟩

/-! ### C9 -/

/-- C9: a `setSample` that fails its acyclic-bound or data-type check, a
`setFromPreviousSample` that fails (acyclic bound or no previous sample) and a
`setTimeSamplingIndex` that fails (unknown index, or acyclic definition with fewer
stored times than samples requested) leave the whole state, writer and archive, exactly
as it was; and these checks fail exactly under the stated conditions. -/
theorem failed_checks_change_nothing (w : World) (iSamp : ArraySample) (iIndex : Nat) :
    (((setSample w iSamp).thrown = some Error.samplingExhausted ∨
          (setSample w iSamp).thrown = some Error.typeMismatch) →
        (setSample w iSamp).world = w) ∧
      ((setFromPreviousSample w).thrown ≠ none → (setFromPreviousSample w).world = w) ∧
      ((setTimeSamplingIndex w iIndex).thrown ≠ none →
        (setTimeSamplingIndex w iIndex).world = w) ∧
      (¬ hasTimeFor w.apw.header →
        setSample w iSamp = { world := w, thrown := some Error.samplingExhausted } ∧
        setFromPreviousSample w = { world := w, thrown := some Error.samplingExhausted }) ∧
      (hasTimeFor w.apw.header → iSamp.dataType ≠ w.apw.header.header.dataType →
        setSample w iSamp = { world := w, thrown := some Error.typeMismatch }) ∧
      (hasTimeFor w.apw.header → w.apw.header.nextSampleIndex = 0 →
        setFromPreviousSample w = { world := w, thrown := some Error.invalidState }) ∧
      (w.archive.getTimeSampling iIndex = none →
        setTimeSamplingIndex w iIndex = { world := w, thrown := some Error.notFound }) ∧
      (∀ ts, w.archive.getTimeSampling iIndex = some ts → ts.isAcyclic = true →
        ts.numStoredTimes < w.apw.header.nextSampleIndex →
        setTimeSamplingIndex w iIndex =
          { world := w, thrown := some Error.samplingExhausted }) := by
  refine ⟨?_, ?_, ?_, ?_, ?_, ?_, ?_, ?_⟩
  · intro h
    by_cases ht : hasTimeFor w.apw.header
    · by_cases hty : iSamp.dataType = w.apw.header.header.dataType
      · exfalso
        unfold setSample at h
        simp only [ht, hty, if_true] at h
        split_ifs at h
        · cases hb : (backfill w iSamp).2 with
          | none => simp [writeChanged, hb] at h
          | some e =>
            have hcl : ∀ (n smpI : Nat) (g : OGroup) (r : Option WrittenSampleID) (e : Error),
                (copyLoop r iSamp n smpI g).2 = some e →
                e = Error.assertion ∨ e = Error.bogusRef := by
              intro n
              induction n with
              | zero => intro smpI g r e h; simp [copyLoop] at h
              | succ n ih =>
                intro smpI g r e h
                unfold copyLoop at h
                split_ifs at h
                · simp at h; exact Or.inl h.symm
                · cases r with
                  | none => simp [CopyWrittenData] at h; exact Or.inr h.symm
                  | some q => simp only [CopyWrittenData] at h; exact ih _ _ _ _ h
            have he : e = Error.assertion ∨ e = Error.bogusRef := by
              unfold backfill at hb
              simp only at hb
              split_ifs at hb
              exact hcl _ _ _ _ _ hb
            simp only [writeChanged, hb] at h
            rcases he with he | he <;> subst he <;> simp at h
        · simp at h
      · simp [setSample, ht, hty]
    · simp [setSample, ht]
  · intro h
    unfold setFromPreviousSample at *
    simp only at *
    split_ifs at * <;> simp at h ⊢
  · intro h
    unfold setTimeSamplingIndex at *
    cases hts : w.archive.getTimeSampling iIndex with
    | none => simp [hts]
    | some ts =>
      simp only [hts] at h ⊢
      split_ifs at * <;> simp at h ⊢
  · intro ht
    exact ⟨by simp [setSample, ht], by simp [setFromPreviousSample, ht]⟩
  · intro ht hty
    simp [setSample, ht, hty]
  · intro ht h0
    simp [setFromPreviousSample, ht, h0]
  · intro h
    simp [setTimeSamplingIndex, h]
  · intro ts h hac hlt
    have : ¬ (ts.isAcyclic = false ∨ ts.numStoredTimes ≥ w.apw.header.nextSampleIndex) := by
      rw [hac]; simp; exact hlt
    simp [setTimeSamplingIndex, h, this]

/-- C9 witness: on the example writer a sample of the wrong data type, a repeat before
any sample and an unknown sampling index are rejected and leave the state as it was. -/
theorem failed_checks_change_nothing_witness :
    (setSample exWorld exWrongType).world = exWorld ∧
      (setFromPreviousSample exWorld).world = exWorld ∧
      (setTimeSamplingIndex exWorld 7).world = exWorld :=
  ⟨(failed_checks_change_nothing exWorld exWrongType 7).1 (Or.inr (by decide)),
   (failed_checks_change_nothing exWorld exWrongType 7).2.1 (by decide),
   (failed_checks_change_nothing exWorld exWrongType 7).2.2.1 (by decide)⟩

/-! ### C10 -/

/-- C10: in every state reached from a fresh writer by any sequence of `setSample`,
`setFromPreviousSample` and `setTimeSamplingIndex` calls, accepted or rejected, if the
header's current time-sampling definition is acyclic then `nextSampleIndex` is at most
its stored-time count. -/
theorem acyclic_bound_invariant (dataType : DataType) (ts : TimeSampling) (tsIndex : Nat)
    (a : Archive) (ops : List Op) :
    AcyclicBound (run { apw := fresh dataType ts tsIndex, archive := a } ops) := by
  have h0 : AcyclicBound { apw := fresh dataType ts tsIndex, archive := a } := by
    intro _; exact Nat.zero_le _
  generalize ({ apw := fresh dataType ts tsIndex, archive := a } : World) = w at h0
  induction ops generalizing w with
  | nil => exact h0
  | cons op ops ih => exact ih _ (step_acyclicBound w op h0)

/-! ### C11 -/

/-- C11: for every writer state and every operation (`setSample`,
`setFromPreviousSample`, `setTimeSamplingIndex`, accepted or rejected, and the
destructor), if `isScalarLike` is false before the operation it is false after it, and
likewise for `isHomogenous`; hence a flag that is false stays false over every sequence
of operations and the teardown after it. -/
theorem flags_stay_false (w : World) (op : Op) (ops : List Op) :
    (w.apw.header.isScalarLike = false →
      (step w op).world.apw.header.isScalarLike = false ∧
      (destructor w).apw.header.isScalarLike = false ∧
      (run w ops).apw.header.isScalarLike = false ∧
      (destructor (run w ops)).apw.header.isScalarLike = false) ∧
    (w.apw.header.isHomogenous = false →
      (step w op).world.apw.header.isHomogenous = false ∧
      (destructor w).apw.header.isHomogenous = false ∧
      (run w ops).apw.header.isHomogenous = false ∧
      (destructor (run w ops)).apw.header.isHomogenous = false) := by
  constructor
  · intro h
    refine ⟨(step_flags w op).1 h, ?_, (run_flags ops w).1 h, ?_⟩
    · rw [destructor_apw]; exact h
    · rw [destructor_apw]; exact (run_flags ops w).1 h
  · intro h
    refine ⟨(step_flags w op).2 h, ?_, (run_flags ops w).2 h, ?_⟩
    · rw [destructor_apw]; exact h
    · rw [destructor_apw]; exact (run_flags ops w).2 h

/-- C11 witness: with both flags cleared, a push of sample A, and the
sequence A, B, repeat with teardown, leave both flags cleared. -/
theorem flags_stay_false_witness :
    (step exWorldFlagsCleared (Op.setSample exA)).world.apw.header.isScalarLike = false ∧
      (destructor (run exWorldFlagsCleared [Op.setSample exA, Op.setSample exB,
        Op.setFromPreviousSample])).apw.header.isHomogenous = false :=
  ⟨((flags_stay_false exWorldFlagsCleared (Op.setSample exA)
      [Op.setSample exA, Op.setSample exB, Op.setFromPreviousSample]).1 rfl).1,
   ((flags_stay_false exWorldFlagsCleared (Op.setSample exA)
      [Op.setSample exA, Op.setSample exB, Op.setFromPreviousSample]).2 rfl).2.2.2⟩

/-! ### C12 -/

/-- C12 (the code at the failing input): on the example writer, after a push of A (three
points, record with point count 3) a push of C (five points, another key) is accepted
and takes the write branch, the point counts 5 and 3 differ, and `isHomogenous` is still
true afterwards. -/
theorem isHomogenous_misses_point_count_change :
    (setSample exWorld exA).thrown = none ∧
      (setSample exWorld exA).world.apw.header.nextSampleIndex = 1 ∧
      (setSample exWorld exA).world.apw.header.isHomogenous = true ∧
      (setSample exWorld exA).world.apw.previousWrittenSampleID = some exRecordA ∧
      exRecordA.numPoints = 3 ∧ exC.dimensions.numPoints = 5 ∧
      sameAsPrevious (setSample exWorld exA).world.apw.previousWrittenSampleID
        (maskedKey exC) = false ∧
      (setSample (setSample exWorld exA).world exC).thrown = none ∧
      (setSample (setSample exWorld exA).world exC).world.apw.header.lastChangedIndex = 1 ∧
      (setSample (setSample exWorld exA).world exC).world.apw.header.isHomogenous = true := by
  decide

/-! ### C13 -/

/-- C13 (amended): for every sequence of calls on a fresh writer, accepted or not,
`isScalarLike` is false afterwards if and only if some pushed sample that was accepted
and detected as a change (the first sample, or a sample whose masked key is not the key
of the previous record) had a point count other than 1, zero points included; in
particular it is still true when every pushed sample has exactly one point. -/
theorem isScalarLike_meaning (dataType : DataType) (ts : TimeSampling) (tsIndex : Nat)
    (a : Archive) (ops : List Op) :
    ((run { apw := fresh dataType ts tsIndex, archive := a } ops).apw.header.isScalarLike
        = false ↔
      ∃ s ∈ writtenPushes { apw := fresh dataType ts tsIndex, archive := a } ops,
        s.dimensions.numPoints ≠ 1) ∧
    ((∀ s, Op.setSample s ∈ ops → s.dimensions.numPoints = 1) →
      (run { apw := fresh dataType ts tsIndex, archive := a } ops).apw.header.isScalarLike
        = true) := by
  have h := run_isScalarLike ops { apw := fresh dataType ts tsIndex, archive := a }
  have h0 : ({ apw := fresh dataType ts tsIndex, archive := a } :
      World).apw.header.isScalarLike = true := rfl
  rw [h0] at h
  simp only [Bool.true_eq_false, false_or] at h
  refine ⟨h, ?_⟩
  intro hall
  cases hv : (run { apw := fresh dataType ts tsIndex, archive := a }
      ops).apw.header.isScalarLike with
  | true => rfl
  | false =>
    obtain ⟨s, hs, hnp⟩ := h.mp hv
    exact absurd (hall s (writtenPushes_mem ops _ s hs)) hnp

/-- C13 witness: pushes of a one-point sample and repeats leave `isScalarLike` true. -/
theorem isScalarLike_meaning_witness :
    (run exWorld [Op.setSample exOne, Op.setFromPreviousSample,
      Op.setSample exOne]).apw.header.isScalarLike = true :=
  (isScalarLike_meaning exDataType exSampling 0 exArchive
    [Op.setSample exOne, Op.setFromPreviousSample, Op.setSample exOne]).2
    (fun s hs => by
      simp only [List.mem_cons, Op.setSample.injEq, reduceCtorEq, false_or,
        List.mem_singleton, List.not_mem_nil, or_false, or_self] at hs
      rw [hs]; rfl)

/-- C13 counterexample: one accepted push of an empty sample (no points) on the example
writer clears `isScalarLike`, although no pushed sample has more than one element. -/
theorem isScalarLike_cleared_by_empty_sample :
    allAccepted exWorld [Op.setSample exEmpty] ∧
      exEmpty.dimensions.numPoints = 0 ∧
      ¬ (1 < exEmpty.dimensions.numPoints) ∧
      (run exWorld [Op.setSample exEmpty]).apw.header.isScalarLike = false := by
  decide

/-! ### C14 -/

/-- C14 (the code at the failing input): A, B, B, C on the example writer, all accepted.
The push of C backfills index 2: the group gets a reference to the block of B's record
(location 1), the record current before the push, paired with a dimension record that
carries the shape of the incoming sample C, `[5]`, not the shape `[3]` of B. -/
theorem backfill_writes_incoming_shape :
    allAccepted exWorld [Op.setSample exA, Op.setSample exB, Op.setSample exB,
        Op.setSample exC] ∧
      (run exWorld [Op.setSample exA, Op.setSample exB,
        Op.setSample exB]).apw.previousWrittenSampleID = some exRecordB ∧
      (run exWorld [Op.setSample exA, Op.setSample exB, Op.setSample exB]).apw.group =
        [Child.payload 0, Child.dimensions exA.dimensions,
         Child.payload 1, Child.dimensions exB.dimensions] ∧
      (run exWorld [Op.setSample exA, Op.setSample exB, Op.setSample exB,
        Op.setSample exC]).apw.group =
        [Child.payload 0, Child.dimensions exA.dimensions,
         Child.payload 1, Child.dimensions exB.dimensions,
         Child.reference exRecordB.data, Child.dimensions exC.dimensions,
         Child.payload 2, Child.dimensions exC.dimensions] ∧
      exC.dimensions ≠ exB.dimensions := by
  decide

/-! ### C15 -/

/-- C15 (amended): for every sequence of fewer than 2^32 accepted pushes and repeats on
a fresh writer after which a change after index 0 is recorded
(`firstChangedIndex != 0`), teardown emits no record, and by the end of teardown the
group holds `lastChangedIndex - firstChangedIndex + 2` dimension records and as many
payload-or-reference records. The group is a list of pairs, each a payload-or-reference
record followed by its dimension record: pair 0 for sample 0 and pair
`i - firstChangedIndex + 1` for every index `i` from `firstChangedIndex` to
`lastChangedIndex`; for every unchanged index `i` among these (its key `k(i)` is
`k(i-1)`) the record is a reference, not a payload, to the very block that the pair of
index `i - 1` holds. These pairs come from the backfill step: an accepted changed push in
a state with `firstChangedIndex != 0` appends `nextSampleIndex - lastChangedIndex - 1`
pairs, each a reference to the block of the previous record with a dimension record, and
then the pair of its own sample; an accepted unchanged push or repeat appends nothing.
Unchanged samples before `firstChangedIndex` and after `lastChangedIndex` get no record,
so the number of dimension records is at most `nextSampleIndex` and equals it exactly
when `firstChangedIndex = 1` and `lastChangedIndex = nextSampleIndex - 1`. -/
theorem records_between_changes (dataType : DataType) (ts : TimeSampling) (tsIndex : Nat)
    (a : Archive) (ops : List Op)
    (hops : ∀ op ∈ ops, op.isSample = true)
    (hacc : allAccepted { apw := fresh dataType ts tsIndex, archive := a } ops)
    (hlen : ops.length < 2 ^ 32)
    (hchg : (run { apw := fresh dataType ts tsIndex, archive := a }
      ops).apw.header.firstChangedIndex ≠ 0) :
    (destructor (run { apw := fresh dataType ts tsIndex, archive := a } ops)).apw.group =
      (run { apw := fresh dataType ts tsIndex, archive := a } ops).apw.group ∧
    dimensionRecords
        (destructor (run { apw := fresh dataType ts tsIndex, archive := a } ops)).apw.group =
      (run { apw := fresh dataType ts tsIndex, archive := a } ops).apw.header.lastChangedIndex -
        (run { apw := fresh dataType ts tsIndex, archive := a }
          ops).apw.header.firstChangedIndex + 2 ∧
    dataRecords
        (destructor (run { apw := fresh dataType ts tsIndex, archive := a } ops)).apw.group =
      (run { apw := fresh dataType ts tsIndex, archive := a } ops).apw.header.lastChangedIndex -
        (run { apw := fresh dataType ts tsIndex, archive := a }
          ops).apw.header.firstChangedIndex + 2 ∧
    (run { apw := fresh dataType ts tsIndex, archive := a } ops).apw.header.firstChangedIndex ≤
      (run { apw := fresh dataType ts tsIndex, archive := a }
        ops).apw.header.lastChangedIndex ∧
    (run { apw := fresh dataType ts tsIndex, archive := a } ops).apw.header.lastChangedIndex <
      (run { apw := fresh dataType ts tsIndex, archive := a }
        ops).apw.header.nextSampleIndex ∧
    dimensionRecords
        (destructor (run { apw := fresh dataType ts tsIndex, archive := a } ops)).apw.group ≤
      (run { apw := fresh dataType ts tsIndex, archive := a } ops).apw.header.nextSampleIndex ∧
    (dimensionRecords
        (destructor (run { apw := fresh dataType ts tsIndex, archive := a } ops)).apw.group =
      (run { apw := fresh dataType ts tsIndex, archive := a } ops).apw.header.nextSampleIndex ↔
      (run { apw := fresh dataType ts tsIndex, archive := a }
          ops).apw.header.firstChangedIndex = 1 ∧
        (run { apw := fresh dataType ts tsIndex, archive := a }
          ops).apw.header.lastChangedIndex + 1 =
        (run { apw := fresh dataType ts tsIndex, archive := a }
          ops).apw.header.nextSampleIndex) ∧
    (∃ ps : List (Child × Dimensions),
      (destructor (run { apw := fresh dataType ts tsIndex, archive := a } ops)).apw.group =
        pairsToGroup ps ∧
      (∀ p ∈ ps, p.1.isData = true) ∧
      ps.length =
        (run { apw := fresh dataType ts tsIndex, archive := a }
          ops).apw.header.lastChangedIndex -
        (run { apw := fresh dataType ts tsIndex, archive := a }
          ops).apw.header.firstChangedIndex + 2 ∧
      ∀ i,
        (run { apw := fresh dataType ts tsIndex, archive := a }
          ops).apw.header.firstChangedIndex < i →
        i ≤ (run { apw := fresh dataType ts tsIndex, archive := a }
          ops).apw.header.lastChangedIndex →
        (keysOf ops)[i]? = (keysOf ops)[i - 1]? →
        ∃ l d c e,
          ps[i - (run { apw := fresh dataType ts tsIndex, archive := a }
            ops).apw.header.firstChangedIndex + 1]? = some (Child.reference l, d) ∧
          ps[i - (run { apw := fresh dataType ts tsIndex, archive := a }
            ops).apw.header.firstChangedIndex]? = some (c, e) ∧
          c.holds l) ∧
    (∀ (w : World) (s : ArraySample), WellFormed w → (setSample w s).thrown = none →
      detectsChange w s → w.apw.header.firstChangedIndex ≠ 0 →
      ∃ (c : Child) (qs : List (Child × Dimensions)),
        c.isData = true ∧
        qs.length = w.apw.header.nextSampleIndex - (w.apw.header.lastChangedIndex + 1) ∧
        (∀ q ∈ qs, ∃ p, w.apw.previousWrittenSampleID = some p ∧
          q.1 = Child.reference p.data) ∧
        (setSample w s).world.apw.group =
          w.apw.group ++ pairsToGroup (qs ++ [(c, s.dimensions)])) ∧
    (∀ (w : World) (op : Op), op.isSample = true → (step w op).thrown = none →
      (∀ s, op = Op.setSample s → ¬ detectsChange w s) →
      (step w op).world.apw.group = w.apw.group) := by
  have hbound : ({ apw := fresh dataType ts tsIndex, archive := a } :
      World).apw.header.nextSampleIndex + ops.length < counterModulus := by
    rw [counterModulus_eq]; show 0 + ops.length < 4294967296
    norm_num at hlen; omega
  have hwf := run_wellFormed ops _ (wellFormed_fresh dataType ts tsIndex a)
  have h := run_recordInvariant ops _ (wellFormed_fresh dataType ts tsIndex a)
    (recordInvariant_fresh dataType ts tsIndex a) hops hacc hbound
  have h0 : Tracks [] { apw := fresh dataType ts tsIndex, archive := a } :=
    ⟨rfl, fun h => absurd rfl h, Or.inl ⟨rfl, rfl, fun i _ h => by simp at h⟩⟩
  have hm := run_materialized ops [] _ (wellFormed_fresh dataType ts tsIndex a) h0
    ⟨[], materialized_fresh dataType ts tsIndex a⟩ hops hacc hbound
  change ∃ ps, Materialized (keysOf ops) _ ps at hm
  rw [destructor_apw]
  generalize run { apw := fresh dataType ts tsIndex, archive := a } ops = w at hchg hwf h hm ⊢
  obtain ⟨h1, h2, ps, hps, hg, hl⟩ := h
  have hn : w.apw.header.nextSampleIndex ≠ 0 := fun hz => hchg (h2 hz)
  have hlast : w.apw.header.lastChangedIndex < w.apw.header.nextSampleIndex := by
    rcases hwf.2 with hz | ⟨hl', _⟩
    · exact absurd hz hn
    · exact hl'
  unfold expectedPairs at hl
  rw [if_neg hn, if_neg hchg] at hl
  have hd : dimensionRecords w.apw.group =
      w.apw.header.lastChangedIndex - w.apw.header.firstChangedIndex + 2 := by
    rw [hg, dimensionRecords_pairsToGroup ps hps, hl]
  have he : dataRecords w.apw.group =
      w.apw.header.lastChangedIndex - w.apw.header.firstChangedIndex + 2 := by
    rw [hg, dataRecords_pairsToGroup ps hps, hl]
  refine ⟨rfl, hd, he, h1, hlast, ?_, ?_, ?_, ?_, ?_⟩
  · rw [hd]; omega
  · rw [hd]; omega
  · obtain ⟨qs, m1, m2, m3, _, m5⟩ := hm
    refine ⟨qs, m2, m1, ?_, m5⟩
    rw [m3]
    unfold expectedPairs
    rw [if_neg hn, if_neg hchg]
  · intro w1 s hw1 hacc1 hc1 hf1
    obtain ⟨ht1, hty1⟩ := setSample_accepted_checks w1 s hacc1
    obtain ⟨c, qs, hcd, _, hqlen, hqs, hg1⟩ := setSample_changed_group w1 s hw1 ht1 hty1 hc1
    rw [if_neg hf1] at hqlen
    refine ⟨c, qs, hcd, hqlen, ?_, hg1⟩
    intro q hq
    obtain ⟨p, hp, hqp⟩ := hqs q hq
    exact ⟨p, hp, by rw [hqp]⟩
  · intro w1 op hs hacc1 hnc
    cases op with
    | setSample s =>
      change (setSample w1 s).thrown = none at hacc1
      show (setSample w1 s).world.apw.group = w1.apw.group
      obtain ⟨ht1, hty1⟩ := setSample_accepted_checks w1 s hacc1
      have hc := hnc s rfl
      have hn1 : w1.apw.header.nextSampleIndex ≠ 0 := fun h => hc (Or.inl h)
      have hsm : sameAsPrevious w1.apw.previousWrittenSampleID (maskedKey s) = true := by
        cases h : sameAsPrevious w1.apw.previousWrittenSampleID (maskedKey s)
        · exact absurd (Or.inr h) hc
        · rfl
      obtain ⟨p, hp, hk⟩ := sameAsPrevious_true _ _ hsm
      rw [setSample_unchanged w1 s p ht1 hty1 hn1 hp hk]
      rfl
    | setFromPreviousSample =>
      change (setFromPreviousSample w1).thrown = none at hacc1
      show (setFromPreviousSample w1).world.apw.group = w1.apw.group
      obtain ⟨ht1, hpos⟩ := setFromPreviousSample_accepted_checks w1 hacc1
      rw [setFromPreviousSample_ok w1 ht1 hpos]
      rfl
    | setTimeSamplingIndex i => simp [Op.isSample] at hs

/-- C15 witness: A, B, B, C, C on the example writer: a change after index 0 is
recorded, teardown leaves the group as it is, and the group is a list of pairs in which
every unchanged index between the change indices has a reference to the block of the
index before. -/
theorem records_between_changes_witness :
    (run exWorld [Op.setSample exA, Op.setSample exB, Op.setSample exB, Op.setSample exC,
        Op.setSample exC]).apw.header.firstChangedIndex ≠ 0 ∧
      dimensionRecords (destructor (run exWorld [Op.setSample exA, Op.setSample exB,
        Op.setSample exB, Op.setSample exC, Op.setSample exC])).apw.group ≤
      (run exWorld [Op.setSample exA, Op.setSample exB, Op.setSample exB, Op.setSample exC,
        Op.setSample exC]).apw.header.nextSampleIndex ∧
      ∃ ps : List (Child × Dimensions),
        (destructor (run exWorld [Op.setSample exA, Op.setSample exB, Op.setSample exB,
          Op.setSample exC, Op.setSample exC])).apw.group = pairsToGroup ps ∧
        (∀ p ∈ ps, p.1.isData = true) ∧
        ps.length =
          (run exWorld [Op.setSample exA, Op.setSample exB, Op.setSample exB,
            Op.setSample exC, Op.setSample exC]).apw.header.lastChangedIndex -
          (run exWorld [Op.setSample exA, Op.setSample exB, Op.setSample exB,
            Op.setSample exC, Op.setSample exC]).apw.header.firstChangedIndex + 2 ∧
        ∀ i,
          (run exWorld [Op.setSample exA, Op.setSample exB, Op.setSample exB,
            Op.setSample exC, Op.setSample exC]).apw.header.firstChangedIndex < i →
          i ≤ (run exWorld [Op.setSample exA, Op.setSample exB, Op.setSample exB,
            Op.setSample exC, Op.setSample exC]).apw.header.lastChangedIndex →
          (keysOf [Op.setSample exA, Op.setSample exB, Op.setSample exB, Op.setSample exC,
            Op.setSample exC])[i]? =
          (keysOf [Op.setSample exA, Op.setSample exB, Op.setSample exB, Op.setSample exC,
            Op.setSample exC])[i - 1]? →
          ∃ l d c e,
            ps[i - (run exWorld [Op.setSample exA, Op.setSample exB, Op.setSample exB,
              Op.setSample exC, Op.setSample exC]).apw.header.firstChangedIndex + 1]? =
              some (Child.reference l, d) ∧
            ps[i - (run exWorld [Op.setSample exA, Op.setSample exB, Op.setSample exB,
              Op.setSample exC, Op.setSample exC]).apw.header.firstChangedIndex]? =
              some (c, e) ∧
            c.holds l :=
  ⟨by decide,
   (records_between_changes exDataType exSampling 0 exArchive
      [Op.setSample exA, Op.setSample exB, Op.setSample exB, Op.setSample exC,
        Op.setSample exC]
      (by decide) (by decide) (by decide) (by decide)).2.2.2.2.2.1,
   (records_between_changes exDataType exSampling 0 exArchive
      [Op.setSample exA, Op.setSample exB, Op.setSample exB, Op.setSample exC,
        Op.setSample exC]
      (by decide) (by decide) (by decide) (by decide)).2.2.2.2.2.2.2.1⟩

/-- C15 counterexample: A, B, B on the example writer, all accepted, the sample at index
1 changed content; after teardown the group holds two dimension records while
`nextSampleIndex` is 3: the unchanged push at index 2, the trailing run, has no record,
and teardown emitted none. -/
theorem trailing_run_not_materialized :
    allAccepted exWorld [Op.setSample exA, Op.setSample exB, Op.setSample exB] ∧
      maskedKey exB ≠ maskedKey exA ∧
      (destructor (run exWorld [Op.setSample exA, Op.setSample exB,
        Op.setSample exB])).apw.group =
        [Child.payload 0, Child.dimensions exA.dimensions,
         Child.payload 1, Child.dimensions exB.dimensions] ∧
      dimensionRecords (destructor (run exWorld [Op.setSample exA, Op.setSample exB,
        Op.setSample exB])).apw.group = 2 ∧
      (destructor (run exWorld [Op.setSample exA, Op.setSample exB,
        Op.setSample exB])).apw.header.nextSampleIndex = 3 ∧
      dimensionRecords (destructor (run exWorld [Op.setSample exA, Op.setSample exB,
        Op.setSample exB])).apw.group ≠
      (destructor (run exWorld [Op.setSample exA, Op.setSample exB,
        Op.setSample exB])).apw.header.nextSampleIndex := by
  decide

/-! ### C16 -/

/-- C16: `setTimeSamplingIndex` returns normally exactly when the registry has a
definition for the index and that definition is not acyclic or has at least
`nextSampleIndex` stored times; it then sets the header's `timeSamplingIndex` to the
index and its time-sampling definition to the one looked up, and leaves
`nextSampleIndex`, `firstChangedIndex`, `lastChangedIndex`, both flags, the data type,
the previous record, the group and the archive as they were. -/
theorem setTimeSamplingIndex_rebinds (w : World) (iIndex : Nat) :
    ((setTimeSamplingIndex w iIndex).thrown = none ↔
      ∃ ts, w.archive.getTimeSampling iIndex = some ts ∧
        (ts.isAcyclic = false ∨ ts.numStoredTimes ≥ w.apw.header.nextSampleIndex)) ∧
    (∀ ts, w.archive.getTimeSampling iIndex = some ts →
      (setTimeSamplingIndex w iIndex).thrown = none →
      (setTimeSamplingIndex w iIndex).world.apw.header.timeSamplingIndex = iIndex ∧
      (setTimeSamplingIndex w iIndex).world.apw.header.header.timeSampling = ts ∧
      (setTimeSamplingIndex w iIndex).world.apw.header.header.dataType =
        w.apw.header.header.dataType ∧
      (setTimeSamplingIndex w iIndex).world.apw.header.nextSampleIndex =
        w.apw.header.nextSampleIndex ∧
      (setTimeSamplingIndex w iIndex).world.apw.header.firstChangedIndex =
        w.apw.header.firstChangedIndex ∧
      (setTimeSamplingIndex w iIndex).world.apw.header.lastChangedIndex =
        w.apw.header.lastChangedIndex ∧
      (setTimeSamplingIndex w iIndex).world.apw.header.isScalarLike =
        w.apw.header.isScalarLike ∧
      (setTimeSamplingIndex w iIndex).world.apw.header.isHomogenous =
        w.apw.header.isHomogenous ∧
      (setTimeSamplingIndex w iIndex).world.apw.previousWrittenSampleID =
        w.apw.previousWrittenSampleID ∧
      (setTimeSamplingIndex w iIndex).world.apw.group = w.apw.group ∧
      (setTimeSamplingIndex w iIndex).world.archive = w.archive) := by
  unfold setTimeSamplingIndex
  cases hts : w.archive.getTimeSampling iIndex with
  | none => simp
  | some ts =>
    by_cases hok : ts.isAcyclic = false ∨ ts.numStoredTimes ≥ w.apw.header.nextSampleIndex
    · dsimp only
      rw [if_pos hok]
      refine ⟨⟨fun _ => ⟨ts, rfl, hok⟩, fun _ => rfl⟩, ?_⟩
      intro ts' h' _
      cases h'
      exact ⟨rfl, rfl, rfl, rfl, rfl, rfl, rfl, rfl, rfl, rfl, rfl⟩
    · dsimp only
      rw [if_neg hok]
      refine ⟨?_, ?_⟩
      · constructor
        · intro h; cases h
        · rintro ⟨ts', h', hok'⟩
          cases h'
          exact absurd hok' hok
      · intro ts' _ h; cases h

/-- C16 witness: after one push the example writer rebinds to the acyclic definition 1
(two stored times), and an unknown index is refused. -/
theorem setTimeSamplingIndex_rebinds_witness :
    (setTimeSamplingIndex (setSample exWorld exA).world 1).world.apw.header.timeSamplingIndex
        = 1 ∧
      (setTimeSamplingIndex (setSample exWorld exA).world
        1).world.apw.header.header.timeSampling = exAcyclic ∧
      ¬ (setTimeSamplingIndex (setSample exWorld exA).world 7).thrown = none :=
  ⟨((setTimeSamplingIndex_rebinds (setSample exWorld exA).world 1).2 exAcyclic rfl
      (by decide)).1,
   ((setTimeSamplingIndex_rebinds (setSample exWorld exA).world 1).2 exAcyclic rfl
      (by decide)).2.1,
   fun h => by
     obtain ⟨ts, hts, _⟩ := (setTimeSamplingIndex_rebinds (setSample exWorld exA).world 7).1.mp h
     cases hts⟩

/-! ### C17 -/

/-- C18 (amended): the key `setSample` compares with the previous record and hands to
the write-or-dedup step has both element type tags set to `kInt8POD` and is otherwise
the sample's own key, and after an accepted push it is the key of the previous record.
Hence for two samples whose keys agree in digest and size but differ in a tag the masked
keys are equal. A key carries the element tag of its sample's data type, so such samples
differ in data type, and when the push of the first is accepted, the push of the second
directly after it is rejected and changes nothing, with the type mismatch when the
acyclic check passes. -/
theorem masked_key_normalized (w : World) (s1 s2 : ArraySample) (hw : WellFormed w)
    (hk1 : s1.keyTagged) (hk2 : s2.keyTagged)
    (hd : s1.key.digest = s2.key.digest) (hb : s1.key.numBytes = s2.key.numBytes)
    (htag : s1.key.origPOD ≠ s2.key.origPOD ∨ s1.key.readPOD ≠ s2.key.readPOD)
    (h1 : (setSample w s1).thrown = none) :
    (maskedKey s1).origPOD = PlainOldDataType.kInt8POD ∧
      (maskedKey s1).readPOD = PlainOldDataType.kInt8POD ∧
      (maskedKey s1).numBytes = s1.key.numBytes ∧
      (maskedKey s1).digest = s1.key.digest ∧
      (∃ p, (setSample w s1).world.apw.previousWrittenSampleID = some p ∧
        p.key = maskedKey s1) ∧
      maskedKey s1 = maskedKey s2 ∧
      s1.dataType ≠ s2.dataType ∧
      (setSample (setSample w s1).world s2).thrown ≠ none ∧
      (setSample (setSample w s1).world s2).world = (setSample w s1).world ∧
      (hasTimeFor (setSample w s1).world.apw.header →
        (setSample (setSample w s1).world s2).thrown = some Error.typeMismatch) := by
  have hk : maskedKey s1 = maskedKey s2 := by
    unfold maskedKey
    rw [Key.mk.injEq]
    exact ⟨hb, rfl, rfl, hd⟩
  obtain ⟨_, hty1⟩ := setSample_accepted_checks w s1 h1
  have hdt : s1.dataType ≠ s2.dataType := by
    intro h
    obtain ⟨a1, b1⟩ := hk1
    obtain ⟨a2, b2⟩ := hk2
    rcases htag with htag | htag
    · exact htag (by rw [a1, a2, h])
    · exact htag (by rw [b1, b2, h])
  have hfr : (setSample w s1).world.apw.header.header = w.apw.header.header :=
    (step_frame w (Op.setSample s1) rfl).1
  have hne : s2.dataType ≠ (setSample w s1).world.apw.header.header.dataType := by
    rw [hfr, ← hty1]
    exact fun h => hdt h.symm
  obtain ⟨r1, r2, r3⟩ := setSample_rejected_type (setSample w s1).world s2 hne
  exact ⟨rfl, rfl, rfl, rfl, setSample_prev_key w s1 hw h1, hk, hdt, r1, r2, r3⟩

/-- C18 witness: A on the example writer, then the same bytes declared as integers: the
keys differ, the masked keys are equal, and the second push is rejected with the type
mismatch and leaves the counter at 1. -/
theorem masked_key_normalized_witness :
    exA.key ≠ exAInt.key ∧ maskedKey exA = maskedKey exAInt ∧
      (setSample (setSample exWorld exA).world exAInt).thrown = some Error.typeMismatch ∧
      (setSample (setSample exWorld exA).world exAInt).world.apw.header.nextSampleIndex =
        1 := by
  have h := masked_key_normalized exWorld exA exAInt (wellFormed_fresh _ _ _ _)
    (by decide) (by decide) rfl rfl (Or.inl (by decide)) (by decide)
  refine ⟨by decide, h.2.2.2.2.2.1, h.2.2.2.2.2.2.2.2.2 (by decide), ?_⟩
  rw [h.2.2.2.2.2.2.2.2.1]
  rfl

/-- C18 counterexample: A and the same bytes declared as integers have keys that agree
in digest and size and differ in both tags, and equal masked keys. The push of A on the
example writer is accepted; the push of the other directly after it throws the type
mismatch and `nextSampleIndex` stays 1: it is not treated as unchanged, which would have
moved the counter to 2 without throwing. -/
theorem differing_tags_push_rejected :
    exA.keyTagged ∧ exAInt.keyTagged ∧
      exA.key.digest = exAInt.key.digest ∧ exA.key.numBytes = exAInt.key.numBytes ∧
      exA.key.origPOD ≠ exAInt.key.origPOD ∧ exA.key.readPOD ≠ exAInt.key.readPOD ∧
      maskedKey exA = maskedKey exAInt ∧
      (setSample exWorld exA).thrown = none ∧
      (setSample (setSample exWorld exA).world exAInt).thrown = some Error.typeMismatch ∧
      (setSample (setSample exWorld exA).world exAInt).world.apw.header.nextSampleIndex = 1 ∧
      (bump (setSample exWorld exA).world).apw.header.nextSampleIndex = 2 := by
  decide

/-! ### C19 -/

/-- C19: in every state a fresh writer reaches by fewer than 2^32 accepted pushes and
repeats (no 32-bit overflow), the group consists of payload-or-reference and dimension
pairs, in this order, so it holds as many dimension records as payload-or-reference
records; the number of pairs is 0 when `nextSampleIndex == 0`, 1 when
`nextSampleIndex > 0` and `firstChangedIndex == 0`, and
`lastChangedIndex - firstChangedIndex + 2` otherwise, where
`firstChangedIndex <= lastChangedIndex`. -/
theorem group_is_pairs (dataType : DataType) (ts : TimeSampling) (tsIndex : Nat)
    (a : Archive) (ops : List Op)
    (hops : ∀ op ∈ ops, op.isSample = true)
    (hacc : allAccepted { apw := fresh dataType ts tsIndex, archive := a } ops)
    (hlen : ops.length < 2 ^ 32) :
    (run { apw := fresh dataType ts tsIndex, archive := a } ops).apw.header.firstChangedIndex ≤
      (run { apw := fresh dataType ts tsIndex, archive := a }
        ops).apw.header.lastChangedIndex ∧
    ∃ ps : List (Child × Dimensions),
      (∀ p ∈ ps, p.1.isData = true) ∧
      (run { apw := fresh dataType ts tsIndex, archive := a } ops).apw.group =
        pairsToGroup ps ∧
      dimensionRecords (run { apw := fresh dataType ts tsIndex, archive := a } ops).apw.group =
        ps.length ∧
      dataRecords (run { apw := fresh dataType ts tsIndex, archive := a } ops).apw.group =
        ps.length ∧
      ps.length =
        (if (run { apw := fresh dataType ts tsIndex, archive := a }
            ops).apw.header.nextSampleIndex = 0 then 0
         else if (run { apw := fresh dataType ts tsIndex, archive := a }
            ops).apw.header.firstChangedIndex = 0 then 1
         else (run { apw := fresh dataType ts tsIndex, archive := a }
            ops).apw.header.lastChangedIndex -
           (run { apw := fresh dataType ts tsIndex, archive := a }
            ops).apw.header.firstChangedIndex + 2) := by
  have h := run_recordInvariant ops _ (wellFormed_fresh dataType ts tsIndex a)
    (recordInvariant_fresh dataType ts tsIndex a) hops hacc
    (by rw [counterModulus_eq]; show 0 + ops.length < 4294967296
        norm_num at hlen; omega)
  obtain ⟨h1, _, ps, hps, hg, hl⟩ := h
  refine ⟨h1, ps, hps, hg, ?_, ?_, hl⟩
  · rw [hg]; exact dimensionRecords_pairsToGroup ps hps
  · rw [hg]; exact dataRecords_pairsToGroup ps hps

/-- C19 witness: A, B, B, C on the example writer: four pairs, `firstChangedIndex = 1`
and `lastChangedIndex = 3`. -/
theorem group_is_pairs_witness :
    dimensionRecords (run exWorld [Op.setSample exA, Op.setSample exB, Op.setSample exB,
        Op.setSample exC]).apw.group = 3 - 1 + 2 ∧
      dataRecords (run exWorld [Op.setSample exA, Op.setSample exB, Op.setSample exB,
        Op.setSample exC]).apw.group = 3 - 1 + 2 := by
  obtain ⟨_, ps, _, _, hd, he, hl⟩ := group_is_pairs exDataType exSampling 0 exArchive
    [Op.setSample exA, Op.setSample exB, Op.setSample exB, Op.setSample exC]
    (by decide) (by decide) (by decide)
  have h4 : ps.length = 3 - 1 + 2 := by rw [hl]; decide
  exact ⟨hd.trans h4, he.trans h4⟩

/-! ### C20 -/

/-- C20 (amended): for every sequence of fewer than 2^32 accepted pushes and repeats on
a fresh writer, with `k(i)` the masked key of the sample of timeline index `i` (a repeat
taking the key of index `i - 1`): there is one key per call and `nextSampleIndex` is
their number; `firstChangedIndex` is the smallest and `lastChangedIndex` the largest
`i >= 1` with `k(i) != k(i-1)`, both 0 when there is none; consequently
`firstChangedIndex <= lastChangedIndex`, `lastChangedIndex < nextSampleIndex` when
`nextSampleIndex > 0`, every index below `firstChangedIndex` has the key of sample 0, and
every index from `lastChangedIndex` on has the key of the previous record. -/
theorem change_indices_meaning (dataType : DataType) (ts : TimeSampling) (tsIndex : Nat)
    (a : Archive) (ops : List Op)
    (hops : ∀ op ∈ ops, op.isSample = true)
    (hacc : allAccepted { apw := fresh dataType ts tsIndex, archive := a } ops)
    (hlen : ops.length < 2 ^ 32) :
    (keysOf ops).length = ops.length ∧
    (run { apw := fresh dataType ts tsIndex, archive := a } ops).apw.header.nextSampleIndex =
      ops.length ∧
    ChangeIndexSpec (keysOf ops)
      (run { apw := fresh dataType ts tsIndex, archive := a } ops).apw.header.firstChangedIndex
      (run { apw := fresh dataType ts tsIndex, archive := a } ops).apw.header.lastChangedIndex ∧
    (run { apw := fresh dataType ts tsIndex, archive := a } ops).apw.header.firstChangedIndex ≤
      (run { apw := fresh dataType ts tsIndex, archive := a }
        ops).apw.header.lastChangedIndex ∧
    (0 < (run { apw := fresh dataType ts tsIndex, archive := a }
        ops).apw.header.nextSampleIndex →
      (run { apw := fresh dataType ts tsIndex, archive := a } ops).apw.header.lastChangedIndex <
        (run { apw := fresh dataType ts tsIndex, archive := a }
          ops).apw.header.nextSampleIndex) ∧
    (∀ i, i < (run { apw := fresh dataType ts tsIndex, archive := a }
        ops).apw.header.firstChangedIndex → (keysOf ops)[i]? = (keysOf ops)[0]?) ∧
    (∀ p, (run { apw := fresh dataType ts tsIndex, archive := a }
        ops).apw.previousWrittenSampleID = some p →
      ∀ i, (run { apw := fresh dataType ts tsIndex, archive := a }
          ops).apw.header.lastChangedIndex ≤ i → i < ops.length →
        (keysOf ops)[i]? = some p.key) := by
  have hM : counterModulus = 4294967296 := counterModulus_eq
  have hlen' : ops.length < 4294967296 := by norm_num at hlen; exact hlen
  have h0 : Tracks [] { apw := fresh dataType ts tsIndex, archive := a } :=
    ⟨rfl, fun h => absurd rfl h, Or.inl ⟨rfl, rfl, fun i _ h => by simp at h⟩⟩
  have ht := run_tracks ops [] _ (wellFormed_fresh dataType ts tsIndex a) h0 hops hacc
    (by rw [hM]; show 0 + ops.length < 4294967296; omega)
  have hn := run_next ops { apw := fresh dataType ts tsIndex, archive := a } hops hacc
    (by rw [hM]; show 0 + ops.length < 4294967296; omega)
  have hn' : (run { apw := fresh dataType ts tsIndex, archive := a }
      ops).apw.header.nextSampleIndex = ops.length := by
    rw [hn]; show 0 + ops.length = ops.length; omega
  have hwf := run_wellFormed ops _ (wellFormed_fresh dataType ts tsIndex a)
  change Tracks (keysOf ops) _ at ht
  generalize run { apw := fresh dataType ts tsIndex, archive := a } ops = w at ht hn' hwf ⊢
  generalize keysOf ops = ks at ht ⊢
  obtain ⟨hl, hprev, hspec⟩ := ht
  have hkl : ks.length = ops.length := hl.trans hn'
  refine ⟨hkl, hn', hspec, ?_, ?_, ?_, ?_⟩
  · rcases hspec with ⟨hf, hl', _⟩ | ⟨_, h2, _⟩
    · rw [hf, hl']
    · exact h2
  · intro hpos
    rcases hspec with ⟨_, hl', _⟩ | ⟨_, _, h3, _⟩
    · rw [hl']; exact hpos
    · rw [← hl]; exact h3
  · intro i hi
    rcases hspec with ⟨hf, _, _⟩ | ⟨_, _, _, _, h5, _⟩
    · rw [hf] at hi; omega
    · exact keys_constant_from ks 0 w.apw.header.firstChangedIndex
        (fun j hj1 hj2 => h5 j (by omega) hj2) i (Nat.zero_le _) hi
  · intro p hp i hi1 hi2
    have hne : w.apw.header.nextSampleIndex ≠ 0 := by rw [hn']; omega
    obtain ⟨q, hq, hgl⟩ := hprev hne
    have hqp : q = p := by rw [hp] at hq; exact (Option.some.inj hq).symm
    subst hqp
    have hlastkey := getElem?_pred_length ks q.key hgl
    have hconst : ∀ j, w.apw.header.lastChangedIndex ≤ j → j < ks.length →
        ks[j]? = ks[w.apw.header.lastChangedIndex]? := by
      rcases hspec with ⟨_, _, hall⟩ | ⟨_, _, _, _, _, _, h7⟩
      · exact keys_constant_from ks _ ks.length (fun j hj1 hj2 => hall j (by omega) hj2)
      · exact keys_constant_from ks _ ks.length h7
    have hlt : w.apw.header.lastChangedIndex < ks.length := by omega
    rw [hconst i hi1 (by omega), ← hconst (ks.length - 1) (by omega) (by omega)]
    exact hlastkey

/-- C20 witness: A, A, B, repeat, B on the example writer: `firstChangedIndex` and
`lastChangedIndex` are both 2, the only index whose key differs from the one before. -/
theorem change_indices_meaning_witness :
    ChangeIndexSpec
      (keysOf [Op.setSample exA, Op.setSample exA, Op.setSample exB,
        Op.setFromPreviousSample, Op.setSample exB])
      (run exWorld [Op.setSample exA, Op.setSample exA, Op.setSample exB,
        Op.setFromPreviousSample, Op.setSample exB]).apw.header.firstChangedIndex
      (run exWorld [Op.setSample exA, Op.setSample exA, Op.setSample exB,
        Op.setFromPreviousSample, Op.setSample exB]).apw.header.lastChangedIndex ∧
    (run exWorld [Op.setSample exA, Op.setSample exA, Op.setSample exB,
        Op.setFromPreviousSample, Op.setSample exB]).apw.header.firstChangedIndex = 2 ∧
    (run exWorld [Op.setSample exA, Op.setSample exA, Op.setSample exB,
        Op.setFromPreviousSample, Op.setSample exB]).apw.header.lastChangedIndex = 2 :=
  ⟨(change_indices_meaning exDataType exSampling 0 exArchive
      [Op.setSample exA, Op.setSample exA, Op.setSample exB, Op.setFromPreviousSample,
        Op.setSample exB] (by decide) (by decide) (by decide)).2.2.1,
   by decide, by decide⟩

/-- C20 counterexample: A, B, `2 ^ 32 - 2` repeats and B again on the example writer,
`2 ^ 32 + 1` calls, all accepted. The only index whose key differs from the one before
is 1, but the last push of B finds `nextSampleIndex` wrapped to 0 and is taken as a
change: `firstChangedIndex` is 1 and `lastChangedIndex` is 0 afterwards, so
`firstChangedIndex <= lastChangedIndex` fails. -/
theorem change_indices_after_wrap :
    (∀ op ∈ changeWrapOps, op.isSample = true) ∧ allAccepted exWorld changeWrapOps ∧
      changeWrapOps.length = 2 ^ 32 + 1 ∧
      (run exWorld changeWrapOps).apw.header.firstChangedIndex = 1 ∧
      (run exWorld changeWrapOps).apw.header.lastChangedIndex = 0 ∧
      ¬ ((run exWorld changeWrapOps).apw.header.firstChangedIndex ≤
        (run exWorld changeWrapOps).apw.header.lastChangedIndex) := by
  have h := run_changeWrap_repeats
  have hrun : run exWorld changeWrapOps =
      (setSample (setNext (run exWorld [Op.setSample exA, Op.setSample exB]) 0) exB).world := by
    unfold changeWrapOps
    rw [run_cons, run_cons, run_append]
    have h2 : run (step (step exWorld (Op.setSample exA)).world (Op.setSample exB)).world
        (List.replicate 4294967294 Op.setFromPreviousSample) =
        setNext (run exWorld [Op.setSample exA, Op.setSample exB]) 0 := h.2
    rw [h2]
    rfl
  have hacc : allAccepted exWorld changeWrapOps := by
    unfold changeWrapOps
    rw [allAccepted_cons, allAccepted_cons, allAccepted_append]
    refine ⟨by decide, by decide, h.1, ?_⟩
    have h2 : run (step (step exWorld (Op.setSample exA)).world (Op.setSample exB)).world
        (List.replicate 4294967294 Op.setFromPreviousSample) =
        setNext (run exWorld [Op.setSample exA, Op.setSample exB]) 0 := h.2
    rw [h2]
    decide
  have hlen : changeWrapOps.length = 2 ^ 32 + 1 := by
    rw [changeWrapOps, List.length_cons, List.length_cons, List.length_append,
      List.length_replicate, List.length_singleton]
    norm_num
  refine ⟨?_, hacc, hlen, ?_, ?_, ?_⟩
  · intro op hop
    unfold changeWrapOps at hop
    rcases List.mem_cons.mp hop with h1 | h1
    · rw [h1]; rfl
    · rcases List.mem_cons.mp h1 with h1 | h1
      · rw [h1]; rfl
      · rcases List.mem_append.mp h1 with h1 | h1
        · rw [List.eq_of_mem_replicate h1]; rfl
        · rw [List.mem_singleton.mp h1]; rfl
  · rw [hrun]; decide
  · rw [hrun]; decide
  · rw [hrun]; decide

end AbcCoreOgawa
end Alembic
